import Mathlib

/-!
Shallow embedding of RELIC's fixed-base scalar multiplication on binary
elliptic curves (`eb_mul_pre_*` / `eb_mul_fix_*`), together with proofs about
the embedded algorithms.

The group-arithmetic collaborator (point add/double/negate/normalize, the
Frobenius endomorphism) is modelled over an arbitrary additive commutative
group `G`: a point `EbPt G` carries its abstract value in `G` plus a Boolean
flag recording whether the representation is guaranteed to be in affine
(normalized) form.  `eb_add`/`eb_dbl`/`eb_sub` conservatively produce
non-normalized representations; `eb_norm` normalizes; `eb_neg`, `eb_copy` and
`eb_frb` preserve the representation, matching the collaborator contract in
the specification.  Scalars (`bn_t`) are modelled as `ℤ` with sign-magnitude
access (`bn_bits`, `bn_get_bit` and the recoders operate on the magnitude).
Precomputation tables are lists (builders) read through total functions
`ℕ → EbPt G` (evaluators), mirroring the C array convention.
-/

namespace Relic

/-- A binary elliptic curve point of the group-arithmetic collaborator:
an abstract group value together with a flag that is `true` when the
representation is guaranteed to be affine (normalized). -/
structure EbPt (G : Type) where
  val : G
  aff : Bool
deriving DecidableEq

section Defs

variable {G : Type} [AddCommGroup G]

/-- `eb_set_infty`: the point at infinity (identity), in normalized form. -/
def eb_set_infty : EbPt G := ⟨0, true⟩

/-- `eb_copy` copies a point, preserving its representation. -/
def eb_copy (p : EbPt G) : EbPt G := p

/-- `eb_add`: point addition; the result is not guaranteed to be affine. -/
def eb_add (a b : EbPt G) : EbPt G := ⟨a.val + b.val, false⟩

/-- `eb_sub`: point subtraction; the result is not guaranteed to be affine. -/
def eb_sub (a b : EbPt G) : EbPt G := ⟨a.val - b.val, false⟩

/-- `eb_dbl`: point doubling; the result is not guaranteed to be affine. -/
def eb_dbl (a : EbPt G) : EbPt G := ⟨a.val + a.val, false⟩

/-- `eb_neg`: point negation; negation preserves the coordinate system. -/
def eb_neg (a : EbPt G) : EbPt G := ⟨-a.val, a.aff⟩

/-- `eb_norm`: affine normalization. -/
def eb_norm (a : EbPt G) : EbPt G := ⟨a.val, true⟩

/-- `eb_norm_sim`: batched affine normalization of a sequence of points
(same output as normalizing each point individually). -/
def eb_norm_sim (l : List (EbPt G)) : List (EbPt G) := l.map eb_norm

/-- `eb_frb`: the Frobenius endomorphism collaborator, applied through an
abstract map `φ` on values; it preserves the coordinate system. -/
def eb_frb (φ : G → G) (a : EbPt G) : EbPt G := ⟨φ a.val, a.aff⟩

/-- `i`-fold application of `eb_dbl`; `dblIter p (i+1) = eb_dbl (dblIter p i)`
mirrors the builders' recurrence `t[i] = 2·t[i-1]`. -/
def dblIter (p : EbPt G) : ℕ → EbPt G
  | 0 => p
  | i + 1 => eb_dbl (dblIter p i)

/-- Fuel-driven binary bit-length (structurally recursive so that it
evaluates by kernel reduction); `sizeAux fuel m = m.size` when `m ≤ fuel`. -/
def sizeAux : ℕ → ℕ → ℕ
  | 0, _ => 0
  | fuel + 1, m => if m = 0 then 0 else sizeAux fuel (m / 2) + 1

/-- `bn_bits` on a magnitude: the binary bit-length. -/
def bn_bits_nat (m : ℕ) : ℕ := sizeAux m m

/-- `bn_get_bit` on a magnitude: bit `i` of `m`. -/
def bn_get_bit_nat (m i : ℕ) : Bool := decide (m / 2 ^ i % 2 = 1)

/-- `bn_is_zero`. -/
def bn_is_zero (k : ℤ) : Bool := decide (k = 0)

/-- `bn_sign(k) == BN_NEG`. -/
def bn_sign_neg (k : ℤ) : Bool := decide (k < 0)

/-- `bn_bits` of a signed scalar: the bit-length of its magnitude. -/
def bn_bits (k : ℤ) : ℕ := bn_bits_nat k.natAbs

/-- `bn_get_bit` of a signed scalar: bit `i` of its magnitude. -/
def bn_get_bit (k : ℤ) (i : ℕ) : Bool := bn_get_bit_nat k.natAbs i

/-- The `CEIL(A, B)` macro: `((A) - 1) / (B) + 1` over naturals. -/
def CEIL (a b : ℕ) : ℕ := (a - 1) / b + 1

/-- `OPT_ZERO` from `relic_core.h`. -/
def OPT_ZERO : ℕ := 0

/-- The curve-parameter collaborator state: group order (magnitude),
Koblitz flag, and the optimization class of the `a`-coefficient. -/
structure Curve where
  eb_r : ℕ
  eb_is_kbltz : Bool
  eb_opt_a : ℕ

/-- `eb_curve_get_ord`. -/
def eb_curve_get_ord (c : Curve) : ℕ := c.eb_r

/-- `eb_curve_is_kbltz`. -/
def eb_curve_is_kbltz (c : Curve) : Bool := c.eb_is_kbltz

/-- `eb_curve_opt_a`. -/
def eb_curve_opt_a (c : Curve) : ℕ := c.eb_opt_a

/-- `eb_mul_pre_basic`: `t[0] = P`, `t[i] = 2·t[i-1]` for
`1 ≤ i < bn_bits(ord)`, then `eb_norm_sim(t + 1, bn_bits(ord) - 1)`. -/
def eb_mul_pre_basic (c : Curve) (p : EbPt G) : List (EbPt G) :=
  let b := bn_bits_nat (eb_curve_get_ord c)
  p :: eb_norm_sim ((List.range (b - 1)).map (fun i => dblIter p (i + 1)))

/-- `eb_mul_pre_yaowi` (window width `w = EB_DEPTH`): `t[0] = P`, each later
slot is the previous slot doubled `w` times, `l = CEIL(bn_bits(ord), w)`
slots in total, then `eb_norm_sim(t + 1, l - 1)`. -/
def eb_mul_pre_yaowi (w : ℕ) (c : Curve) (p : EbPt G) : List (EbPt G) :=
  let l := CEIL (bn_bits_nat (eb_curve_get_ord c)) w
  p :: eb_norm_sim ((List.range (l - 1)).map (fun i => dblIter p (w * (i + 1))))

/-- `eb_mul_pre_nafwi`: same doubling ladder as YAOWI with
`l = CEIL(bn_bits(ord) + 1, w)` slots. -/
def eb_mul_pre_nafwi (w : ℕ) (c : Curve) (p : EbPt G) : List (EbPt G) :=
  let l := CEIL (bn_bits_nat (eb_curve_get_ord c) + 1) w
  p :: eb_norm_sim ((List.range (l - 1)).map (fun i => dblIter p (w * (i + 1))))

/-- The inner loop body of the comb construction: writes
`t[2^j + i] = t[i] + t[2^j]` for `i = ii + 1` (`flip` records the textual
operand order, which differs between `eb_mul_pre_combs` and
`eb_mul_pre_combd`). -/
def combInnerStep (flip : Bool) (j : ℕ) (u : ℕ → EbPt G) (ii : ℕ) : ℕ → EbPt G :=
  let i := ii + 1
  Function.update u (2 ^ j + i)
    (if flip then eb_add (u (2 ^ j)) (u i) else eb_add (u i) (u (2 ^ j)))

/-- One level `j = jj + 1` of the comb construction: `t[2^j]` is
`t[2^(j-1)]` doubled `spacing` times, then the inner loop fills
`t[2^j + i]` for `1 ≤ i < 2^j`. -/
def combOuterStep (spacing : ℕ) (flip : Bool) (t : ℕ → EbPt G) (jj : ℕ) :
    ℕ → EbPt G :=
  let j := jj + 1
  (List.range (2 ^ j - 1)).foldl (combInnerStep flip j)
    (Function.update t (2 ^ j) (dblIter (t (2 ^ (j - 1))) spacing))

/-- The shared comb-table construction of `eb_mul_pre_combs` and the first
phase of `eb_mul_pre_combd`: `t[0] = ∞`, `t[1] = P`, then one
`combOuterStep` per level `j = 1 .. D-1`. -/
def combLadder (D spacing : ℕ) (flip : Bool) (p : EbPt G) (t0 : ℕ → EbPt G) :
    ℕ → EbPt G :=
  (List.range (D - 1)).foldl (combOuterStep spacing flip)
    (Function.update (Function.update t0 0 eb_set_infty) 1 p)

/-- `eb_mul_pre_combs`: the comb ladder with `l = CEIL(bn_bits(ord), D)`
doublings per level, then `eb_norm_sim(t + 2, 2^D - 2)`. -/
def eb_mul_pre_combs (D : ℕ) (c : Curve) (p : EbPt G) (t0 : ℕ → EbPt G) :
    ℕ → EbPt G :=
  let l := CEIL (bn_bits_nat (eb_curve_get_ord c)) D
  let t := combLadder D l false p t0
  fun idx => if 2 ≤ idx ∧ idx < 2 ^ D then eb_norm (t idx) else t idx

/-- The second-phase loop body of `eb_mul_pre_combd`: writes
`t[2^D + j]` as `t[j]` doubled `e` times, for `j = jj + 1`. -/
def combdPhase2Step (D e : ℕ) (u : ℕ → EbPt G) (jj : ℕ) : ℕ → EbPt G :=
  let j := jj + 1
  Function.update u (2 ^ D + j) (dblIter (u j) e)

/-- `eb_mul_pre_combd`: first comb with `d = CEIL(bn_bits(ord), D)` doublings
per level; `t[2^D] = ∞`; `t[2^D + j]` is `t[j]` doubled
`e = (d even ? d/2 : d/2 + 1)` times for `1 ≤ j < 2^D`; then
`eb_norm_sim(t + 2, 2^D - 2)` and `eb_norm_sim(t + 2^D + 1, 2^D - 1)`. -/
def eb_mul_pre_combd (D : ℕ) (c : Curve) (p : EbPt G) (t0 : ℕ → EbPt G) :
    ℕ → EbPt G :=
  let d := CEIL (bn_bits_nat (eb_curve_get_ord c)) D
  let e := if d % 2 = 0 then d / 2 else d / 2 + 1
  let t := combLadder D d true p t0
  let t := (List.range (2 ^ D - 1)).foldl (combdPhase2Step D e)
    (Function.update t (2 ^ D) eb_set_infty)
  fun idx =>
    if (2 ≤ idx ∧ idx < 2 ^ D) ∨ (2 ^ D + 1 ≤ idx ∧ idx < 2 ^ D + 2 ^ D) then
      eb_norm (t idx)
    else t idx

/-- Modelled from the spec: the shared table-construction collaborator
`eb_tab` (not part of this translation unit) builds the standard odd-only
windowed table of `2^(w-2)` normalized points `t[i] = (2i+1)·P`. -/
def eb_tab (w : ℕ) (p : EbPt G) : List (EbPt G) :=
  (List.range (2 ^ (w - 2))).map (fun i => (⟨(2 * i + 1) • p.val, true⟩ : EbPt G))

/-- `eb_mul_pre_lwnaf`: delegates to `eb_tab` with width `EB_DEPTH`. -/
def eb_mul_pre_lwnaf (w : ℕ) (p : EbPt G) : List (EbPt G) := eb_tab w p

/-- The abstract value of a comb-table slot: slot `idx` of a comb with
doubling spacing `s` over a base value `v` holds
`∑ bit j of idx set, 2^(j·s) · v`. -/
def combVal (s : ℕ) (v : G) (idx : ℕ) : G :=
  ∑ j ∈ Finset.range (bn_bits_nat idx), (if bn_get_bit_nat idx j then 2 ^ (j * s) • v else 0)

/-- The common tail of every evaluator: affine normalization of the
accumulator followed by a final negation when the scalar is negative. -/
def evalFinish (k : ℤ) (r : EbPt G) : EbPt G :=
  let r := eb_norm r
  if bn_sign_neg k then eb_neg r else r

/-- The common shape of every evaluator: a zero scalar short-circuits to the
point at infinity; otherwise a table walk driven by the magnitude feeds
`evalFinish`. -/
def evalOf (W : ℕ → EbPt G) (k : ℤ) : EbPt G :=
  if bn_is_zero k then eb_set_infty else evalFinish k (W k.natAbs)

/-- The accumulation loop of `eb_mul_fix_basic`: for `i = 0 .. bn_bits(k)-1`
(least-significant bit first), add `t[i]` when bit `i` of the magnitude is
set. -/
def basicWalk (t : ℕ → EbPt G) (m : ℕ) : EbPt G :=
  (List.range (bn_bits_nat m)).foldl
    (fun r i => if bn_get_bit_nat m i then eb_add r (t i) else r) eb_set_infty

/-- `eb_mul_fix_basic`. -/
def eb_mul_fix_basic (t : ℕ → EbPt G) (k : ℤ) : EbPt G :=
  if bn_is_zero k then eb_set_infty else evalFinish k (basicWalk t k.natAbs)

/-- Instrumented version of `eb_mul_fix_basic` that additionally returns the
list of table indices read (in access order) and the number of point
doublings performed (the loop body contains no `eb_dbl` call). -/
def eb_mul_fix_basic_instr (t : ℕ → EbPt G) (k : ℤ) :
    EbPt G × List ℕ × ℕ :=
  if bn_is_zero k then (eb_set_infty, [], 0)
  else
    let s := (List.range (bn_bits k)).foldl
      (fun s i =>
        if bn_get_bit k i then (eb_add s.1 (t i), s.2.1 ++ [i], s.2.2)
        else s)
      ((eb_set_infty : EbPt G), ([] : List ℕ), (0 : ℕ))
    (evalFinish k s.1, s.2.1, s.2.2)

/-- Modelled from the spec: the recoding collaborator `bn_rec_win` (not part
of this translation unit) splits the magnitude into plain `w`-bit window
digits, least significant first, `CEIL(bn_bits(m), w)` digits in total. -/
def bn_rec_win (w m : ℕ) : List ℕ :=
  (List.range (CEIL (bn_bits_nat m) w)).map (fun i => m / 2 ^ (w * i) % 2 ^ w)

/-- The accumulation loops of `eb_mul_fix_yaowi` (Yao's method): for digit
values `j = 2^w - 1` down to `1`, add `t[i]` into the running sum `a` for
every position `i` whose window digit equals `j`, then add `a` into the
result. -/
def yaowiWalk (w : ℕ) (t : ℕ → EbPt G) (m : ℕ) : EbPt G :=
  let win := bn_rec_win w m
  ((List.range (2 ^ w - 1)).foldl
    (fun ra jj =>
      let j := 2 ^ w - 1 - jj
      let a := (List.range win.length).foldl
        (fun a i => if win.getD i 0 = j then eb_add a (t i) else a) ra.2
      (eb_add ra.1 a, a))
    ((eb_set_infty : EbPt G), (eb_set_infty : EbPt G))).1

/-- `eb_mul_fix_yaowi`. -/
def eb_mul_fix_yaowi (w : ℕ) (t : ℕ → EbPt G) (k : ℤ) : EbPt G :=
  if bn_is_zero k then eb_set_infty else evalFinish k (yaowiWalk w t k.natAbs)

/-- The digit-repacking loop of `eb_mul_fix_nafwi`: group `w` consecutive
NAF digits (most significant first within the group, skipping indices past
the recoded length) into one signed window value per table slot. -/
def nafwiPack (w : ℕ) (naf : List ℤ) : List ℤ :=
  (List.range (CEIL naf.length w)).map (fun i =>
    (List.range w).foldl (fun acc jj =>
      let j := w - 1 - jj
      if i * w + j < naf.length then acc * 2 + naf.getD (i * w + j) 0 else acc)
      0)

/-- The bound `m` of `eb_mul_fix_nafwi`'s digit-value loop:
`((1 << (w+1)) - 2) / 3` for even `w`, `((1 << (w+1)) - 1) / 3` otherwise. -/
def nafwiM (w : ℕ) : ℕ :=
  if w % 2 = 0 then (2 ^ (w + 1) - 2) / 3 else (2 ^ (w + 1) - 1) / 3

/-- The accumulation loops of `eb_mul_fix_nafwi` (signed Yao): for values
`j = m` down to `1`, add `t[i]` for every repacked digit equal to `j` and
subtract `t[i]` for every repacked digit equal to `-j`, then add the running
sum into the result.  The NAF recoding collaborator `bn_rec_naf` (width 2)
is a parameter `rec` applied to the magnitude. -/
def nafwiWalk (w : ℕ) (rec : ℕ → List ℤ) (t : ℕ → EbPt G) (m : ℕ) : EbPt G :=
  let packed := nafwiPack w (rec m)
  ((List.range (nafwiM w)).foldl
    (fun ra jj =>
      let j : ℤ := (nafwiM w - jj : ℕ)
      let a := (List.range packed.length).foldl
        (fun a i =>
          let a := if packed.getD i 0 = j then eb_add a (t i) else a
          if packed.getD i 0 = -j then eb_sub a (t i) else a) ra.2
      (eb_add ra.1 a, a))
    ((eb_set_infty : EbPt G), (eb_set_infty : EbPt G))).1

/-- `eb_mul_fix_nafwi`, parameterized by the `bn_rec_naf` collaborator. -/
def eb_mul_fix_nafwi (w : ℕ) (rec : ℕ → List ℤ) (t : ℕ → EbPt G) (k : ℤ) :
    EbPt G :=
  if bn_is_zero k then eb_set_infty else evalFinish k (nafwiWalk w rec t k.natAbs)

/-- The window assembled by `eb_mul_fix_combs` for round `i`: bit `j` of the
window is bit `i + j·l` of the magnitude (read only when that position is
below `bn_bits(k)`). -/
def combsWin (D l m i : ℕ) : ℕ :=
  (List.range D).foldl (fun w jj =>
    let j := D - 1 - jj
    let p1 := i + j * l
    let w := w * 2
    if p1 < bn_bits_nat m ∧ bn_get_bit_nat m p1 then w + 1 else w) 0

/-- The walk of `eb_mul_fix_combs`: start from `t[w]` for the leading window
(even when `w = 0`), then per remaining round double once and add `t[w]`
when the window `w` is nonzero. -/
def combsWalk (D : ℕ) (c : Curve) (t : ℕ → EbPt G) (m : ℕ) : EbPt G :=
  let l := CEIL (bn_bits_nat (eb_curve_get_ord c)) D
  let r := eb_copy (t (combsWin D l m (l - 1)))
  ((List.range (l - 1)).reverse).foldl
    (fun r i =>
      let r := eb_dbl r
      let w := combsWin D l m i
      if 0 < w then eb_add r (t w) else r) r

/-- `eb_mul_fix_combs`. -/
def eb_mul_fix_combs (D : ℕ) (c : Curve) (t : ℕ → EbPt G) (k : ℤ) : EbPt G :=
  if bn_is_zero k then eb_set_infty else evalFinish k (combsWalk D c t k.natAbs)

/-- The sub-scalar length `d = CEIL(bn_bits(ord), D)` computed identically
by `eb_mul_pre_combd` and `eb_mul_fix_combd`. -/
def combdD (D : ℕ) (c : Curve) : ℕ := CEIL (bn_bits_nat (eb_curve_get_ord c)) D

/-- The half-length `e = (d even ? d/2 : d/2 + 1)` computed identically by
`eb_mul_pre_combd` and `eb_mul_fix_combd`. -/
def combdE (D : ℕ) (c : Curve) : ℕ :=
  if combdD D c % 2 = 0 then combdD D c / 2 else combdD D c / 2 + 1

/-- The first window (`w0`) assembled by `eb_mul_fix_combd` for round `i`:
bit `j` is bit `i + j·d` of the magnitude. -/
def combdWin0 (D d m i : ℕ) : ℕ :=
  (List.range D).foldl (fun w jj =>
    let j := D - 1 - jj
    let p0 := i + j * d
    let w := w * 2
    if p0 < bn_bits_nat m ∧ bn_get_bit_nat m p0 then w + 1 else w) 0

/-- The second window (`w1`) assembled by `eb_mul_fix_combd` for round `i`:
bit `j` is bit `i + e + j·d` of the magnitude, assembled only when
`i + e < d`. -/
def combdWin1 (D d e m i : ℕ) : ℕ :=
  (List.range D).foldl (fun w jj =>
    let j := D - 1 - jj
    let p0 := i + e + j * d
    let w := w * 2
    if i + e < d ∧ p0 < bn_bits_nat m ∧ bn_get_bit_nat m p0 then w + 1 else w) 0

/-- The walk of `eb_mul_fix_combd`: per round (from `e - 1` down to `0`)
double once, then unconditionally add `t[w0]` and `t[2^D + w1]`. -/
def combdWalk (D : ℕ) (c : Curve) (t : ℕ → EbPt G) (m : ℕ) : EbPt G :=
  let d := CEIL (bn_bits_nat (eb_curve_get_ord c)) D
  let e := if d % 2 = 0 then d / 2 else d / 2 + 1
  ((List.range e).reverse).foldl
    (fun r i =>
      let r := eb_dbl r
      let w0 := combdWin0 D d m i
      let w1 := combdWin1 D d e m i
      eb_add (eb_add r (t w0)) (t (2 ^ D + w1)))
    eb_set_infty

/-- `eb_mul_fix_combd`. -/
def eb_mul_fix_combd (D : ℕ) (c : Curve) (t : ℕ → EbPt G) (k : ℤ) : EbPt G :=
  if bn_is_zero k then eb_set_infty else evalFinish k (combdWalk D c t k.natAbs)

/-- The walk of `eb_mul_fix_plain` (windowed NAF, `bn_rec_naf` collaborator
as parameter `rec` applied to the magnitude): the accumulator is assigned
before the main loop only when the leading NAF digit `n` is positive — on
the other path the caller-provided output register `r0` flows in unassigned
(there is no negative-leading-digit branch). -/
def plainWalk (rec : ℕ → List ℤ) (t : ℕ → EbPt G) (r0 : EbPt G) (m : ℕ) :
    EbPt G :=
  let naf := rec m
  let n := naf.getD (naf.length - 1) 0
  let r := if 0 < n then eb_copy (t (n.toNat / 2)) else r0
  ((List.range (naf.length - 1)).reverse).foldl
    (fun r i =>
      let r := eb_dbl r
      let n := naf.getD i 0
      let r := if 0 < n then eb_add r (t (n.toNat / 2)) else r
      if n < 0 then eb_sub r (t ((-n).toNat / 2)) else r) r

/-- `eb_mul_fix_plain`. -/
def eb_mul_fix_plain (rec : ℕ → List ℤ) (t : ℕ → EbPt G) (r0 : EbPt G)
    (k : ℤ) : EbPt G :=
  if bn_is_zero k then eb_set_infty else evalFinish k (plainWalk rec t r0 k.natAbs)

/-- The sign of `τ` selected by `eb_mul_fix_kbltz`: `-1` exactly when the
curve's `a`-coefficient optimization flag is `OPT_ZERO`, `+1` otherwise. -/
def tnafU (c : Curve) : ℤ := if eb_curve_opt_a c = OPT_ZERO then -1 else 1

/-- The walk of `eb_mul_fix_kbltz` (width-`w` τ-NAF; the `bn_rec_tnaf`
collaborator is a parameter `rec` taking the sign `u` and the magnitude):
the accumulator is assigned before the loop on both leading-digit signs,
and each round applies the Frobenius endomorphism `eb_frb` in place of a
doubling. -/
def kbltzWalk (φ : G → G) (rec : ℤ → ℕ → List ℤ) (u : ℤ) (t : ℕ → EbPt G)
    (m : ℕ) : EbPt G :=
  let tnaf := rec u m
  let n := tnaf.getD (tnaf.length - 1) 0
  let r := if 0 < n then eb_copy (t (n.toNat / 2)) else eb_neg (t ((-n).toNat / 2))
  ((List.range (tnaf.length - 1)).reverse).foldl
    (fun r i =>
      let r := eb_frb φ r
      let n := tnaf.getD i 0
      let r := if 0 < n then eb_add r (t (n.toNat / 2)) else r
      if n < 0 then eb_sub r (t ((-n).toNat / 2)) else r) r

/-- `eb_mul_fix_kbltz`. -/
def eb_mul_fix_kbltz (c : Curve) (φ : G → G) (rec : ℤ → ℕ → List ℤ)
    (t : ℕ → EbPt G) (k : ℤ) : EbPt G :=
  if bn_is_zero k then eb_set_infty
  else evalFinish k (kbltzWalk φ rec (tnafU c) t k.natAbs)

/-- `eb_mul_fix_lwnaf`: if the curve is marked Koblitz, dispatch to the
τ-NAF evaluator, otherwise to the plain windowed-NAF evaluator. -/
def eb_mul_fix_lwnaf (c : Curve) (φ : G → G) (recT : ℤ → ℕ → List ℤ)
    (recN : ℕ → List ℤ) (t : ℕ → EbPt G) (r0 : EbPt G) (k : ℤ) : EbPt G :=
  if eb_curve_is_kbltz c then eb_mul_fix_kbltz c φ recT t k
  else eb_mul_fix_plain recN t r0 k

/-- Reference scalar multiplication by a magnitude, computed by simple
double-and-add, independent of any table. -/
def refDblAdd (q : G) (m : ℕ) : G :=
  if m = 0 then 0
  else (if m % 2 = 1 then q else 0) + refDblAdd (q + q) (m / 2)
  termination_by m
  decreasing_by exact Nat.div_lt_self (Nat.pos_of_ne_zero (by assumption)) one_lt_two

/-- Reference scalar multiplication by a signed scalar: double-and-add on
the magnitude, then negate for a negative scalar. -/
def refMulZ (q : G) (k : ℤ) : G :=
  if k < 0 then -(refDblAdd q k.natAbs) else refDblAdd q k.natAbs

/-- The outcome of one effectful run of `eb_mul_pre_basic` in the
error-propagation model: the call result, the final caller-visible table,
and the numbers of temporaries acquired and released. -/
structure RunOut (G : Type) where
  res : Except Unit Unit
  tbl : ℕ → EbPt G
  acquired : ℕ
  released : ℕ

/-- The loop body of the effectful `eb_mul_pre_basic` model: as long as no
throw has happened, either the `eb_dbl` collaborator call writing slot
`i = ii + 1` throws (`dblFail i`), or the slot is written. -/
def basicRunStep (dblFail : ℕ → Bool) (st : Bool × (ℕ → EbPt G)) (ii : ℕ) :
    Bool × (ℕ → EbPt G) :=
  let i := ii + 1
  if st.1 then
    if dblFail i then (false, st.2)
    else (true, Function.update st.2 i (eb_dbl (st.2 (i - 1))))
  else st

/-- Effectful model of `eb_mul_pre_basic` under the TRY/CATCH/FINALLY
convention.  `newFail` makes the `bn_new` allocation of the curve-order
temporary throw; `dblFail i` makes the `eb_dbl` collaborator call that
writes slot `i` throw.  A throw unwinds out of the TRY block: writes already
performed on the caller's table persist, FINALLY releases the temporary
(`bn_free` of an unallocated `bn_null` handle is a no-op), and CATCH_ANY
re-signals the failure (`THROW(ERR_CAUGHT)`). -/
def eb_mul_pre_basic_run (dblFail : ℕ → Bool) (newFail : Bool) (c : Curve)
    (p : EbPt G) (t0 : ℕ → EbPt G) : RunOut G :=
  if newFail then ⟨Except.error (), t0, 0, 0⟩
  else
    let b := bn_bits_nat (eb_curve_get_ord c)
    let st := (List.range (b - 1)).foldl (basicRunStep dblFail)
      (true, Function.update t0 0 p)
    if st.1 then
      ⟨Except.ok (),
        (fun idx => if 1 ≤ idx ∧ idx < b then eb_norm (st.2 idx) else st.2 idx),
        1, 1⟩
    else ⟨Except.error (), st.2, 1, 1⟩

/-- One fallible collaborator call of the effectful model: when `fail` the
call throws and its write does not land, otherwise `write` is applied to
the caller-visible state. -/
def callStep {σ : Type} (fail : Bool) (write : σ → σ) (s : σ) : Option σ :=
  if fail then none else some (write s)

/-- Run a TRY body: execute its fallible calls in order until the first
throw, returning whether the body completed and the state reached. -/
def runBody {σ : Type} : List (σ → Option σ) → σ → Bool × σ
  | [], s => (true, s)
  | f :: fs, s =>
    match f s with
    | none => (false, s)
    | some s2 => runBody fs s2

/-- Inject per-call failures into a call sequence, numbering the calls from
`i0`: call number `i` throws exactly when `fail i`. -/
def withFailFrom {σ : Type} (fail : ℕ → Bool) :
    ℕ → List (σ → σ) → List (σ → Option σ)
  | _, [] => []
  | i0, wr :: ws => callStep (fail i0) wr :: withFailFrom fail (i0 + 1) ws

def withFail {σ : Type} (fail : ℕ → Bool) (writes : List (σ → σ)) :
    List (σ → Option σ) :=
  withFailFrom fail 0 writes

/-- Outcome of one effectful run of a builder or evaluator: the call
result, the final caller-visible state, and the numbers of temporaries
acquired and released. -/
structure TFRun (σ : Type) where
  res : Except Unit Unit
  state : σ
  acquired : ℕ
  released : ℕ

/-- A routine with no TRY block and no temporaries (`eb_mul_fix_basic`,
`eb_mul_fix_plain`, `eb_mul_fix_kbltz`, `eb_mul_pre_lwnaf`): a throwing
collaborator call unwinds directly to the caller and there is nothing to
release. -/
def noTryRun {σ : Type} (steps : List (σ → Option σ)) (s0 : σ) : TFRun σ :=
  let r := runBody steps s0
  ⟨if r.1 then Except.ok () else Except.error (), r.2, 0, 0⟩

/-- The TRY/CATCH_ANY/FINALLY discipline shared by every builder and
evaluator of the file that owns a temporary (`bn_null`/`eb_null` before
TRY, `bn_new`/`eb_new` first inside TRY, `CATCH_ANY { THROW(ERR_CAUGHT) }`,
`FINALLY { bn_free`/`eb_free }`): when the allocation throws, nothing was
acquired and the body never runs; otherwise the body runs to its first
throwing call and writes already performed persist.  On every path
CATCH_ANY re-signals the failure and FINALLY frees the handle — freeing the
never-allocated null handle is a no-op, so exactly the acquired temporaries
are released. -/
def tryFinallyRun {σ : Type} (allocFail : Bool) (steps : List (σ → Option σ))
    (s0 : σ) : TFRun σ :=
  if allocFail then ⟨Except.error (), s0, 0, 0⟩
  else { noTryRun steps s0 with acquired := 1, released := 1 }

/-- `eb_norm_sim(t + lo, cnt)`: normalize slots `lo .. lo + cnt - 1` of the
caller's table in place. -/
def normSimWrite (lo cnt : ℕ) (t : ℕ → EbPt G) : ℕ → EbPt G :=
  fun idx => if lo ≤ idx ∧ idx < lo + cnt then eb_norm (t idx) else t idx

/-- The collaborator-call sequence of `eb_mul_pre_basic`'s TRY body after
the allocation: `eb_curve_get_ord(n)` (writes only the temporary), the
`eb_copy`/`eb_dbl` ladder, and the final `eb_norm_sim` over slots
`1 .. bn_bits(n) - 1`. -/
def basicBuildWrites (c : Curve) (p : EbPt G) :
    List ((ℕ → EbPt G) → (ℕ → EbPt G)) :=
  (fun (t : ℕ → EbPt G) => t)
    :: (fun (t : ℕ → EbPt G) => Function.update t 0 p)
    :: ((List.range (bn_bits_nat (eb_curve_get_ord c) - 1)).map
          (fun ii => fun (t : ℕ → EbPt G) => Function.update t (ii + 1) (eb_dbl (t ii)))
      ++ [normSimWrite 1 (bn_bits_nat (eb_curve_get_ord c) - 1)])

/-- The doubling-ladder calls shared by `eb_mul_pre_yaowi` and
`eb_mul_pre_nafwi`: for each `i = 1 .. l - 1`, `eb_dbl(t[i], t[i-1])`
followed by `EB_DEPTH - 1` in-place doublings of `t[i]`. -/
def ladderWrites (w l : ℕ) : List ((ℕ → EbPt G) → (ℕ → EbPt G)) :=
  (List.range (l - 1)).flatMap (fun ii =>
    (fun (t : ℕ → EbPt G) => Function.update t (ii + 1) (eb_dbl (t ii)))
      :: (List.range (w - 1)).map
        (fun _ => fun (t : ℕ → EbPt G) => Function.update t (ii + 1) (eb_dbl (t (ii + 1)))))

/-- The collaborator-call sequence of `eb_mul_pre_yaowi`'s TRY body after
the allocation. -/
def yaowiBuildWrites (w : ℕ) (c : Curve) (p : EbPt G) :
    List ((ℕ → EbPt G) → (ℕ → EbPt G)) :=
  let l := CEIL (bn_bits_nat (eb_curve_get_ord c)) w
  (fun (t : ℕ → EbPt G) => t)
    :: (fun (t : ℕ → EbPt G) => Function.update t 0 p)
    :: (ladderWrites w l ++ [normSimWrite 1 (l - 1)])

/-- The collaborator-call sequence of `eb_mul_pre_nafwi`'s TRY body after
the allocation (`l = CEIL(bn_bits(n) + 1, EB_DEPTH)` slots). -/
def nafwiBuildWrites (w : ℕ) (c : Curve) (p : EbPt G) :
    List ((ℕ → EbPt G) → (ℕ → EbPt G)) :=
  let l := CEIL (bn_bits_nat (eb_curve_get_ord c) + 1) w
  (fun (t : ℕ → EbPt G) => t)
    :: (fun (t : ℕ → EbPt G) => Function.update t 0 p)
    :: (ladderWrites w l ++ [normSimWrite 1 (l - 1)])

/-- The collaborator-call sequence of `eb_mul_pre_combs`'s TRY body after
the allocation (the `EB_MIXED`-conditional mid-loop `eb_norm` is compiled
out, as in the pure builder): per level `j`, one doubling from
`t[2^(j-1)]`, `l - 1` in-place doublings, and the `t[i] + t[2^j]` adds,
then the final `eb_norm_sim` over slots `2 .. 2^D - 1`. -/
def combsBuildWrites (D : ℕ) (c : Curve) (p : EbPt G) :
    List ((ℕ → EbPt G) → (ℕ → EbPt G)) :=
  let l := CEIL (bn_bits_nat (eb_curve_get_ord c)) D
  (fun (t : ℕ → EbPt G) => t)
    :: (fun (t : ℕ → EbPt G) => Function.update t 0 eb_set_infty)
    :: (fun (t : ℕ → EbPt G) => Function.update t 1 p)
    :: ((List.range (D - 1)).flatMap (fun jj =>
        let j := jj + 1
        (fun (t : ℕ → EbPt G) => Function.update t (2 ^ j) (eb_dbl (t (2 ^ (j - 1)))))
          :: ((List.range (l - 1)).map
              (fun _ => fun (t : ℕ → EbPt G) => Function.update t (2 ^ j) (eb_dbl (t (2 ^ j))))
            ++ (List.range (2 ^ j - 1)).map (fun ii =>
              fun (t : ℕ → EbPt G) => Function.update t (2 ^ j + (ii + 1))
                (eb_add (t (ii + 1)) (t (2 ^ j))))))
      ++ [normSimWrite 2 (2 ^ D - 2)])

/-- The collaborator-call sequence of `eb_mul_pre_combd`'s TRY body after
the allocation: the first comb (adds written as `t[2^j] + t[i]`), the
second-phase ladder of `e`-fold doublings into slots `2^D + j`, and the two
final `eb_norm_sim` ranges. -/
def combdBuildWrites (D : ℕ) (c : Curve) (p : EbPt G) :
    List ((ℕ → EbPt G) → (ℕ → EbPt G)) :=
  let d := combdD D c
  let e := combdE D c
  (fun (t : ℕ → EbPt G) => t)
    :: (fun (t : ℕ → EbPt G) => Function.update t 0 eb_set_infty)
    :: (fun (t : ℕ → EbPt G) => Function.update t 1 p)
    :: ((List.range (D - 1)).flatMap (fun jj =>
        let j := jj + 1
        (fun (t : ℕ → EbPt G) => Function.update t (2 ^ j) (eb_dbl (t (2 ^ (j - 1)))))
          :: ((List.range (d - 1)).map
              (fun _ => fun (t : ℕ → EbPt G) => Function.update t (2 ^ j) (eb_dbl (t (2 ^ j))))
            ++ (List.range (2 ^ j - 1)).map (fun ii =>
              fun (t : ℕ → EbPt G) => Function.update t (2 ^ j + (ii + 1))
                (eb_add (t (2 ^ j)) (t (ii + 1))))))
      ++ (fun (t : ℕ → EbPt G) => Function.update t (2 ^ D) eb_set_infty)
      :: ((List.range (2 ^ D - 1)).flatMap (fun jj =>
          let j := jj + 1
          (fun (t : ℕ → EbPt G) => Function.update t (2 ^ D + j) (eb_dbl (t j)))
            :: (List.range (e - 1)).map
              (fun _ => fun (t : ℕ → EbPt G) =>
                Function.update t (2 ^ D + j) (eb_dbl (t (2 ^ D + j)))))
        ++ [normSimWrite 2 (2 ^ D - 2),
          normSimWrite (2 ^ D + 1) (2 ^ D - 1)]))

/-- `eb_mul_pre_lwnaf` simply calls `eb_tab` (no TRY, no temporaries); the
single collaborator call writes the odd-multiple table (the written
contents are modelled from the spec, as `eb_tab`'s source is not in
src/). -/
def lwnafBuildWrites (w : ℕ) (p : EbPt G) :
    List ((ℕ → EbPt G) → (ℕ → EbPt G)) :=
  [fun (t : ℕ → EbPt G) => fun idx =>
    if idx < 2 ^ (w - 2) then (eb_tab w p).getD idx eb_set_infty else t idx]

/-- The collaborator-call sequence of `eb_mul_fix_basic` for a nonzero
scalar (no TRY): set the accumulator to infinity, one `eb_add` per set bit
of `k` (LSB to MSB), normalize, and negate when `k` is negative. -/
def fixBasicWrites (t : ℕ → EbPt G) (k : ℤ) : List (EbPt G → EbPt G) :=
  (fun _ => eb_set_infty)
    :: (((List.range (bn_bits k)).filter (fun i => bn_get_bit k i)).map
          (fun i => fun r => eb_add r (t i))
      ++ [fun r => eb_norm r]
      ++ (if bn_sign_neg k then [fun r => eb_neg r] else []))

/-- The collaborator-call sequence of `eb_mul_fix_yaowi`'s TRY body after
the `eb_new(a)` allocation, on the state `(r, a)`: two `eb_set_infty`, the
`bn_rec_win` recoding (which writes only the stack window array), then per
digit value `j = 2^w - 1 .. 1` the matching `eb_add(a, a, t[i])` calls
followed by `eb_add(r, r, a)`, and finally the normalization and the
conditional negation. -/
def fixYaowiWrites (w : ℕ) (t : ℕ → EbPt G) (k : ℤ) :
    List (EbPt G × EbPt G → EbPt G × EbPt G) :=
  let win := bn_rec_win w k.natAbs
  (fun s => (eb_set_infty, s.2))
    :: (fun s => (s.1, eb_set_infty))
    :: (fun s => s)
    :: ((List.range (2 ^ w - 1)).flatMap (fun jj =>
        let j := 2 ^ w - 1 - jj
        ((List.range win.length).filter
            (fun i => decide (win.getD i 0 = j))).map
            (fun i => fun s => (s.1, eb_add s.2 (t i)))
          ++ [fun s => (eb_add s.1 s.2, s.2)])
      ++ [fun s => (eb_norm s.1, s.2)]
      ++ (if bn_sign_neg k then [fun s => (eb_neg s.1, s.2)] else []))

/-- The collaborator-call sequence of `eb_mul_fix_nafwi`'s TRY body after
the `eb_new(a)` allocation, on the state `(r, a)`: two `eb_set_infty`, the
`bn_rec_naf` recoding (the in-place repacking is plain arithmetic, not a
collaborator call), then per value `j = m .. 1` the matching
`eb_add`/`eb_sub` calls followed by `eb_add(r, r, a)`, and finally the
normalization and the conditional negation. -/
def fixNafwiWrites (w : ℕ) (recN : ℕ → List ℤ) (t : ℕ → EbPt G) (k : ℤ) :
    List (EbPt G × EbPt G → EbPt G × EbPt G) :=
  let packed := nafwiPack w (recN k.natAbs)
  (fun s => (eb_set_infty, s.2))
    :: (fun s => (s.1, eb_set_infty))
    :: (fun s => s)
    :: ((List.range (nafwiM w)).flatMap (fun jj =>
        let j : ℤ := (nafwiM w - jj : ℕ)
        (List.range packed.length).flatMap (fun i =>
            (if packed.getD i 0 = j
              then [fun s => (s.1, eb_add s.2 (t i))] else [])
              ++ (if packed.getD i 0 = -j
                then [fun s => (s.1, eb_sub s.2 (t i))] else []))
          ++ [fun s => (eb_add s.1 s.2, s.2)])
      ++ [fun s => (eb_norm s.1, s.2)]
      ++ (if bn_sign_neg k then [fun s => (eb_neg s.1, s.2)] else []))

/-- The collaborator-call sequence of `eb_mul_fix_combs`'s TRY body after
the `bn_new(ord)` allocation: `eb_curve_get_ord` (writes only the
temporary; the window assembly is plain bit arithmetic), the leading
`eb_copy(r, t[w])`, per remaining round one doubling and a conditional
add, then the normalization and the conditional negation. -/
def fixCombsWrites (D : ℕ) (c : Curve) (t : ℕ → EbPt G) (k : ℤ) :
    List (EbPt G → EbPt G) :=
  let l := CEIL (bn_bits_nat (eb_curve_get_ord c)) D
  (fun r => r)
    :: (fun _ => eb_copy (t (combsWin D l k.natAbs (l - 1))))
    :: ((List.range (l - 1)).reverse.flatMap (fun i =>
        (fun r => eb_dbl r)
          :: (if 0 < combsWin D l k.natAbs i then
            [fun r => eb_add r (t (combsWin D l k.natAbs i))] else []))
      ++ [fun r => eb_norm r]
      ++ (if bn_sign_neg k then [fun r => eb_neg r] else []))

/-- The collaborator-call sequence of `eb_mul_fix_combd`'s TRY body after
the `bn_new(n)` allocation: `eb_curve_get_ord`, `eb_set_infty(r)`, per
round one doubling and the two unconditional adds of `t[w0]` and
`t[2^D + w1]`, then the normalization and the conditional negation. -/
def fixCombdWrites (D : ℕ) (c : Curve) (t : ℕ → EbPt G) (k : ℤ) :
    List (EbPt G → EbPt G) :=
  let d := combdD D c
  let e := combdE D c
  (fun r => r)
    :: (fun _ => eb_set_infty)
    :: ((List.range e).reverse.flatMap (fun i =>
        [fun r => eb_dbl r,
          fun r => eb_add r (t (combdWin0 D d k.natAbs i)),
          fun r => eb_add r (t (2 ^ D + combdWin1 D d e k.natAbs i))])
      ++ [fun r => eb_norm r]
      ++ (if bn_sign_neg k then [fun r => eb_neg r] else []))

/-- The collaborator-call sequence of `eb_mul_fix_plain` for a nonzero
scalar (no TRY, no temporaries): the `bn_rec_naf` recoding (writing only
the stack digit array), the positive-leading-digit `eb_copy`, per round one
doubling and the conditional add/sub, then the normalization and the
conditional negation. -/
def fixPlainWrites (recN : ℕ → List ℤ) (t : ℕ → EbPt G) (k : ℤ) :
    List (EbPt G → EbPt G) :=
  let naf := recN k.natAbs
  (fun r => r)
    :: ((if 0 < naf.getD (naf.length - 1) 0 then
        [fun _ => eb_copy (t ((naf.getD (naf.length - 1) 0).toNat / 2))]
      else [])
      ++ (List.range (naf.length - 1)).reverse.flatMap (fun i =>
          let n := naf.getD i 0
          (fun r => eb_dbl r)
            :: ((if 0 < n then [fun r => eb_add r (t (n.toNat / 2))] else [])
              ++ (if n < 0 then [fun r => eb_sub r (t ((-n).toNat / 2))]
                else [])))
      ++ [fun r => eb_norm r]
      ++ (if bn_sign_neg k then [fun r => eb_neg r] else []))

/-- The collaborator-call sequence of `eb_mul_fix_kbltz` for a nonzero
scalar (no TRY, no temporaries): the `bn_rec_tnaf` recoding, the leading
`eb_copy`/`eb_neg` (both signs handled), per round one `eb_frb` and the
conditional add/sub, then the normalization and the conditional
negation. -/
def fixKbltzWrites (c : Curve) (φ : G → G) (recT : ℤ → ℕ → List ℤ)
    (t : ℕ → EbPt G) (k : ℤ) : List (EbPt G → EbPt G) :=
  let tnaf := recT (tnafU c) k.natAbs
  let n := tnaf.getD (tnaf.length - 1) 0
  (fun r => r)
    :: ((if 0 < n then [fun _ => eb_copy (t (n.toNat / 2))]
      else [fun _ => eb_neg (t ((-n).toNat / 2))])
      ++ (List.range (tnaf.length - 1)).reverse.flatMap (fun i =>
          let n2 := tnaf.getD i 0
          (fun r => eb_frb φ r)
            :: ((if 0 < n2 then [fun r => eb_add r (t (n2.toNat / 2))] else [])
              ++ (if n2 < 0 then [fun r => eb_sub r (t ((-n2).toNat / 2))]
                else [])))
      ++ [fun r => eb_norm r]
      ++ (if bn_sign_neg k then [fun r => eb_neg r] else []))

/-- Effectful model of `eb_mul_pre_yaowi` (temporary: the curve-order
integer `n`). -/
def eb_mul_pre_yaowi_run (w : ℕ) (fail : ℕ → Bool) (allocFail : Bool)
    (c : Curve) (p : EbPt G) (t0 : ℕ → EbPt G) : TFRun (ℕ → EbPt G) :=
  tryFinallyRun allocFail (withFail fail (yaowiBuildWrites w c p)) t0

/-- Effectful model of `eb_mul_pre_nafwi` (temporary: the curve-order
integer `n`). -/
def eb_mul_pre_nafwi_run (w : ℕ) (fail : ℕ → Bool) (allocFail : Bool)
    (c : Curve) (p : EbPt G) (t0 : ℕ → EbPt G) : TFRun (ℕ → EbPt G) :=
  tryFinallyRun allocFail (withFail fail (nafwiBuildWrites w c p)) t0

/-- Effectful model of `eb_mul_pre_combs` (temporary: the curve-order
integer `ord`). -/
def eb_mul_pre_combs_run (D : ℕ) (fail : ℕ → Bool) (allocFail : Bool)
    (c : Curve) (p : EbPt G) (t0 : ℕ → EbPt G) : TFRun (ℕ → EbPt G) :=
  tryFinallyRun allocFail (withFail fail (combsBuildWrites D c p)) t0

/-- Effectful model of `eb_mul_pre_combd` (temporary: the curve-order
integer `n`). -/
def eb_mul_pre_combd_run (D : ℕ) (fail : ℕ → Bool) (allocFail : Bool)
    (c : Curve) (p : EbPt G) (t0 : ℕ → EbPt G) : TFRun (ℕ → EbPt G) :=
  tryFinallyRun allocFail (withFail fail (combdBuildWrites D c p)) t0

/-- Effectful model of `eb_mul_pre_lwnaf` (no TRY, no temporaries). -/
def eb_mul_pre_lwnaf_run (w : ℕ) (fail : ℕ → Bool) (p : EbPt G)
    (t0 : ℕ → EbPt G) : TFRun (ℕ → EbPt G) :=
  noTryRun (withFail fail (lwnafBuildWrites w p)) t0

/-- Effectful model of `eb_mul_fix_basic` (no TRY, no temporaries; a zero
scalar returns after the single `eb_set_infty`). -/
def eb_mul_fix_basic_run (fail : ℕ → Bool) (t : ℕ → EbPt G) (k : ℤ)
    (r0 : EbPt G) : TFRun (EbPt G) :=
  if bn_is_zero k then noTryRun (withFail fail [fun _ => eb_set_infty]) r0
  else noTryRun (withFail fail (fixBasicWrites t k)) r0

/-- Effectful model of `eb_mul_fix_yaowi` (temporary: the accumulator point
`a`, acquired by `eb_new` inside TRY; a zero scalar returns before the TRY
block after the single `eb_set_infty`). -/
def eb_mul_fix_yaowi_run (w : ℕ) (fail : ℕ → Bool) (allocFail : Bool)
    (t : ℕ → EbPt G) (k : ℤ) (r0 a0 : EbPt G) : TFRun (EbPt G × EbPt G) :=
  if bn_is_zero k then
    noTryRun (withFail fail [fun s => (eb_set_infty, s.2)]) (r0, a0)
  else tryFinallyRun allocFail (withFail fail (fixYaowiWrites w t k)) (r0, a0)

/-- Effectful model of `eb_mul_fix_nafwi` (temporary: the accumulator point
`a`; a zero scalar returns before the TRY block). -/
def eb_mul_fix_nafwi_run (w : ℕ) (recN : ℕ → List ℤ) (fail : ℕ → Bool)
    (allocFail : Bool) (t : ℕ → EbPt G) (k : ℤ) (r0 a0 : EbPt G) :
    TFRun (EbPt G × EbPt G) :=
  if bn_is_zero k then
    noTryRun (withFail fail [fun s => (eb_set_infty, s.2)]) (r0, a0)
  else
    tryFinallyRun allocFail (withFail fail (fixNafwiWrites w recN t k)) (r0, a0)

/-- Effectful model of `eb_mul_fix_combs` (temporary: the curve-order
integer `ord`; a zero scalar returns before the TRY block). -/
def eb_mul_fix_combs_run (D : ℕ) (fail : ℕ → Bool) (allocFail : Bool)
    (c : Curve) (t : ℕ → EbPt G) (k : ℤ) (r0 : EbPt G) : TFRun (EbPt G) :=
  if bn_is_zero k then noTryRun (withFail fail [fun _ => eb_set_infty]) r0
  else tryFinallyRun allocFail (withFail fail (fixCombsWrites D c t k)) r0

/-- Effectful model of `eb_mul_fix_combd` (temporary: the curve-order
integer `n`; a zero scalar returns before the TRY block). -/
def eb_mul_fix_combd_run (D : ℕ) (fail : ℕ → Bool) (allocFail : Bool)
    (c : Curve) (t : ℕ → EbPt G) (k : ℤ) (r0 : EbPt G) : TFRun (EbPt G) :=
  if bn_is_zero k then noTryRun (withFail fail [fun _ => eb_set_infty]) r0
  else tryFinallyRun allocFail (withFail fail (fixCombdWrites D c t k)) r0

/-- Effectful model of `eb_mul_fix_plain` (no TRY, no temporaries; a zero
scalar returns after the single `eb_set_infty`). -/
def eb_mul_fix_plain_run (recN : ℕ → List ℤ) (fail : ℕ → Bool)
    (t : ℕ → EbPt G) (k : ℤ) (r0 : EbPt G) : TFRun (EbPt G) :=
  if bn_is_zero k then noTryRun (withFail fail [fun _ => eb_set_infty]) r0
  else noTryRun (withFail fail (fixPlainWrites recN t k)) r0

/-- Effectful model of `eb_mul_fix_kbltz` (no TRY, no temporaries; a zero
scalar returns after the single `eb_set_infty`). -/
def eb_mul_fix_kbltz_run (c : Curve) (φ : G → G) (recT : ℤ → ℕ → List ℤ)
    (fail : ℕ → Bool) (t : ℕ → EbPt G) (k : ℤ) (r0 : EbPt G) :
    TFRun (EbPt G) :=
  if bn_is_zero k then noTryRun (withFail fail [fun _ => eb_set_infty]) r0
  else noTryRun (withFail fail (fixKbltzWrites c φ recT t k)) r0

/-- Effectful model of `eb_mul_fix_lwnaf`: a pure dispatch on the Koblitz
flag, with no TRY block and no temporaries of its own. -/
def eb_mul_fix_lwnaf_run (c : Curve) (φ : G → G) (recT : ℤ → ℕ → List ℤ)
    (recN : ℕ → List ℤ) (fail : ℕ → Bool) (t : ℕ → EbPt G) (k : ℤ)
    (r0 : EbPt G) : TFRun (EbPt G) :=
  if eb_curve_is_kbltz c then eb_mul_fix_kbltz_run c φ recT fail t k r0
  else eb_mul_fix_plain_run recN fail t k r0

/-- The error-handling contract of one effectful run: every temporary
acquired is released, and the routine reports failure to its caller exactly
when the allocation or one of the `n` collaborator calls of its body
threw. -/
def tfContract {σ : Type} (r : TFRun σ) (allocFail : Bool) (fail : ℕ → Bool)
    (n : ℕ) : Prop :=
  r.released = r.acquired ∧
  (r.res = Except.error () ↔ (allocFail = true ∨ ∃ i, i < n ∧ fail i = true))

end Defs

section Theorems

set_option linter.unusedSectionVars false

variable {G : Type} [AddCommGroup G]

theorem bn_is_zero_eq_false {k : ℤ} (h : k ≠ 0) : bn_is_zero k = false := by
  simp [bn_is_zero, h]

theorem bn_sign_neg_eq_true {k : ℤ} (h : k < 0) : bn_sign_neg k = true := by
  simp [bn_sign_neg, h]

theorem bn_sign_neg_eq_false {k : ℤ} (h : ¬ k < 0) : bn_sign_neg k = false := by
  simp [bn_sign_neg, h]

@[simp] theorem eb_set_infty_val : (eb_set_infty : EbPt G).val = 0 := rfl

@[simp] theorem eb_set_infty_aff : (eb_set_infty : EbPt G).aff = true := rfl

@[simp] theorem eb_add_val (a b : EbPt G) : (eb_add a b).val = a.val + b.val := rfl

@[simp] theorem eb_sub_val (a b : EbPt G) : (eb_sub a b).val = a.val - b.val := rfl

@[simp] theorem eb_dbl_val (a : EbPt G) : (eb_dbl a).val = a.val + a.val := rfl

@[simp] theorem eb_neg_val (a : EbPt G) : (eb_neg a).val = -a.val := rfl

@[simp] theorem eb_neg_aff (a : EbPt G) : (eb_neg a).aff = a.aff := rfl

@[simp] theorem eb_norm_val (a : EbPt G) : (eb_norm a).val = a.val := rfl

@[simp] theorem eb_norm_aff (a : EbPt G) : (eb_norm a).aff = true := rfl

@[simp] theorem eb_copy_eq (a : EbPt G) : eb_copy a = a := rfl

@[simp] theorem eb_frb_val (φ : G → G) (a : EbPt G) : (eb_frb φ a).val = φ a.val := rfl

theorem dblIter_val (p : EbPt G) : ∀ i, (dblIter p i).val = 2 ^ i • p.val := by
  intro i
  induction i with
  | zero => simp [dblIter]
  | succ i ih =>
    show (eb_dbl (dblIter p i)).val = 2 ^ (i + 1) • p.val
    rw [eb_dbl_val, ih, pow_succ, mul_two, add_nsmul]

/-- Every evaluator is an instance of the common shape `evalOf`. -/
theorem eb_mul_fix_basic_eq_evalOf (t : ℕ → EbPt G) (k : ℤ) :
    eb_mul_fix_basic t k = evalOf (basicWalk t) k := rfl

theorem eb_mul_fix_yaowi_eq_evalOf (w : ℕ) (t : ℕ → EbPt G) (k : ℤ) :
    eb_mul_fix_yaowi w t k = evalOf (yaowiWalk w t) k := rfl

theorem eb_mul_fix_nafwi_eq_evalOf (w : ℕ) (rec : ℕ → List ℤ) (t : ℕ → EbPt G)
    (k : ℤ) : eb_mul_fix_nafwi w rec t k = evalOf (nafwiWalk w rec t) k := rfl

theorem eb_mul_fix_combs_eq_evalOf (D : ℕ) (c : Curve) (t : ℕ → EbPt G) (k : ℤ) :
    eb_mul_fix_combs D c t k = evalOf (combsWalk D c t) k := rfl

theorem eb_mul_fix_combd_eq_evalOf (D : ℕ) (c : Curve) (t : ℕ → EbPt G) (k : ℤ) :
    eb_mul_fix_combd D c t k = evalOf (combdWalk D c t) k := rfl

theorem eb_mul_fix_plain_eq_evalOf (rec : ℕ → List ℤ) (t : ℕ → EbPt G)
    (r0 : EbPt G) (k : ℤ) :
    eb_mul_fix_plain rec t r0 k = evalOf (plainWalk rec t r0) k := rfl

theorem eb_mul_fix_kbltz_eq_evalOf (c : Curve) (φ : G → G)
    (rec : ℤ → ℕ → List ℤ) (t : ℕ → EbPt G) (k : ℤ) :
    eb_mul_fix_kbltz c φ rec t k = evalOf (kbltzWalk φ rec (tnafU c) t) k := rfl

/-- Walks are driven by the magnitude and the sign is applied exactly once
after normalization, so negating the scalar negates the output. -/
theorem evalOf_neg (W : ℕ → EbPt G) (k : ℤ) :
    evalOf W (-k) = eb_neg (evalOf W k) := by
  by_cases hz : k = 0
  · subst hz
    rw [neg_zero]
    show (eb_set_infty : EbPt G) = eb_neg eb_set_infty
    simp [eb_set_infty, eb_neg]
  · have hnz : -k ≠ 0 := neg_ne_zero.mpr hz
    unfold evalOf evalFinish
    rw [bn_is_zero_eq_false hz, bn_is_zero_eq_false hnz]
    simp only [Bool.false_eq_true, if_false, Int.natAbs_neg]
    by_cases hneg : k < 0
    · rw [bn_sign_neg_eq_true hneg, bn_sign_neg_eq_false (by omega : ¬ -k < 0)]
      simp [eb_neg, eb_norm]
    · rw [bn_sign_neg_eq_false hneg, bn_sign_neg_eq_true (by omega : -k < 0)]
      simp

/-- The output of `evalOf` (hence of every evaluator) is normalized. -/
theorem evalOf_aff (W : ℕ → EbPt G) (k : ℤ) : (evalOf W k).aff = true := by
  unfold evalOf evalFinish
  by_cases h : bn_is_zero k = true
  · simp [h]
  · simp only [h, Bool.false_eq_true, if_false]
    by_cases hs : bn_sign_neg k = true <;> simp [hs]

/-- If the walk computes `|k| • v`, the evaluator output value is the
reference double-and-add result for the signed scalar. -/
theorem refDblAdd_eq_nsmul : ∀ (m : ℕ) (q : G), refDblAdd q m = m • q := by
  intro m
  induction m using Nat.strong_induction_on with
  | _ m ih =>
    intro q
    rcases Nat.eq_zero_or_pos m with hm | hm
    · subst hm; rw [refDblAdd]; simp
    · rw [refDblAdd, if_neg (Nat.pos_iff_ne_zero.mp hm),
        ih (m / 2) (Nat.div_lt_self hm one_lt_two) (q + q)]
      have hrec : (m / 2) • (q + q) = (2 * (m / 2)) • q := by
        rw [smul_add, two_mul, add_nsmul]
      rw [hrec]
      rcases Nat.mod_two_eq_zero_or_one m with he | he
      · have hm2 : 2 * (m / 2) = m := by omega
        rw [he, if_neg (by omega), hm2, zero_add]
      · have hm2 : 2 * (m / 2) + 1 = m := by omega
        rw [he, if_pos rfl]
        have h3 : m • q = (2 * (m / 2)) • q + q := by
          conv_lhs => rw [← hm2]
          rw [add_nsmul, one_nsmul]
        rw [h3, add_comm]

theorem refMulZ_eq (q : G) (k : ℤ) :
    refMulZ q k = (if k < 0 then -(k.natAbs • q) else k.natAbs • q) := by
  unfold refMulZ
  rw [refDblAdd_eq_nsmul]

theorem evalOf_val_ref (W : ℕ → EbPt G) (k : ℤ) (v : G)
    (h : (W k.natAbs).val = k.natAbs • v) : (evalOf W k).val = refMulZ v k := by
  unfold evalOf evalFinish
  rw [refMulZ_eq]
  by_cases hz : k = 0
  · subst hz; simp [bn_is_zero]
  · rw [bn_is_zero_eq_false hz]
    simp only [Bool.false_eq_true, if_false]
    by_cases hneg : k < 0
    · rw [bn_sign_neg_eq_true hneg]
      simp [hneg, h]
    · rw [bn_sign_neg_eq_false hneg]
      simp [hneg, h]

/-- C2 helper: all evaluators at `k = 0`. -/
theorem evalOf_zero (W : ℕ → EbPt G) : evalOf W 0 = eb_set_infty := rfl

/-- C2: every evaluator special-cases a zero scalar to the point at
infinity, and its result at `k = 0` is independent of the table contents
(no table entry is read). -/
theorem claim_C2 (G : Type) [AddCommGroup G] (c : Curve) (w D : ℕ) (φ : G → G)
    (recT : ℤ → ℕ → List ℤ) (recN : ℕ → List ℤ) (t u : ℕ → EbPt G)
    (r0 r1 : EbPt G) :
    (eb_mul_fix_basic t 0 = eb_set_infty ∧
      eb_mul_fix_basic t 0 = eb_mul_fix_basic u 0) ∧
    (eb_mul_fix_yaowi w t 0 = eb_set_infty ∧
      eb_mul_fix_yaowi w t 0 = eb_mul_fix_yaowi w u 0) ∧
    (eb_mul_fix_nafwi w recN t 0 = eb_set_infty ∧
      eb_mul_fix_nafwi w recN t 0 = eb_mul_fix_nafwi w recN u 0) ∧
    (eb_mul_fix_combs D c t 0 = eb_set_infty ∧
      eb_mul_fix_combs D c t 0 = eb_mul_fix_combs D c u 0) ∧
    (eb_mul_fix_combd D c t 0 = eb_set_infty ∧
      eb_mul_fix_combd D c t 0 = eb_mul_fix_combd D c u 0) ∧
    (eb_mul_fix_lwnaf c φ recT recN t r0 0 = eb_set_infty ∧
      eb_mul_fix_lwnaf c φ recT recN t r0 0 = eb_mul_fix_lwnaf c φ recT recN u r1 0) := by
  refine ⟨⟨rfl, rfl⟩, ⟨rfl, rfl⟩, ⟨rfl, rfl⟩, ⟨rfl, rfl⟩, ⟨rfl, rfl⟩, ?_⟩
  unfold eb_mul_fix_lwnaf
  by_cases hc : eb_curve_is_kbltz c = true
  · simp only [hc, if_true]
    exact ⟨rfl, rfl⟩
  · simp only [hc, Bool.false_eq_true, if_false]
    exact ⟨rfl, rfl⟩

/-- C3: for every evaluator, negating the scalar negates the result: the
recoding is driven by the magnitude and the sign is applied exactly once as
a final negation after affine normalization. -/
theorem claim_C3 (G : Type) [AddCommGroup G] (c : Curve) (w D : ℕ) (φ : G → G)
    (recT : ℤ → ℕ → List ℤ) (recN : ℕ → List ℤ) (t : ℕ → EbPt G)
    (r0 : EbPt G) (k : ℤ) (hk : k ≠ 0) :
    eb_mul_fix_basic t (-k) = eb_neg (eb_mul_fix_basic t k) ∧
    eb_mul_fix_yaowi w t (-k) = eb_neg (eb_mul_fix_yaowi w t k) ∧
    eb_mul_fix_nafwi w recN t (-k) = eb_neg (eb_mul_fix_nafwi w recN t k) ∧
    eb_mul_fix_combs D c t (-k) = eb_neg (eb_mul_fix_combs D c t k) ∧
    eb_mul_fix_combd D c t (-k) = eb_neg (eb_mul_fix_combd D c t k) ∧
    eb_mul_fix_lwnaf c φ recT recN t r0 (-k) =
      eb_neg (eb_mul_fix_lwnaf c φ recT recN t r0 k) := by
  refine ⟨evalOf_neg _ k, evalOf_neg _ k, evalOf_neg _ k, evalOf_neg _ k,
    evalOf_neg _ k, ?_⟩
  unfold eb_mul_fix_lwnaf
  by_cases hc : eb_curve_is_kbltz c = true
  · simp only [hc, if_true]
    exact evalOf_neg _ k
  · simp only [hc, Bool.false_eq_true, if_false]
    exact evalOf_neg _ k

/-- Witness for C3 at `k = 3` over `G = ℤ`. -/
theorem claim_C3_witness :
    ((3 : ℤ) ≠ 0) ∧
    (eb_mul_fix_basic (fun _ => (⟨5, false⟩ : EbPt ℤ)) (-3) =
      eb_neg (eb_mul_fix_basic (fun _ => (⟨5, false⟩ : EbPt ℤ)) 3)) := by
  have h := claim_C3 ℤ ⟨7, false, 1⟩ 2 2 id (fun _ _ => [1]) (fun _ => [1])
    (fun _ => (⟨5, false⟩ : EbPt ℤ)) ⟨0, true⟩ 3 (by decide)
  exact ⟨by decide, h.1⟩

theorem size_rec {m : ℕ} (h : m ≠ 0) : m.size = (m / 2).size + 1 := by
  conv_lhs => rw [← Nat.bit_decomp m]
  rw [Nat.size_bit (by rwa [Nat.bit_decomp]), Nat.div2_val]

theorem sizeAux_eq_size : ∀ (fuel m : ℕ), m ≤ fuel → sizeAux fuel m = m.size := by
  intro fuel
  induction fuel with
  | zero =>
    intro m hm
    have : m = 0 := Nat.le_zero.mp hm
    subst this
    simp [sizeAux]
  | succ fuel ih =>
    intro m hm
    by_cases h0 : m = 0
    · subst h0; simp [sizeAux]
    · rw [show sizeAux (fuel + 1) m = sizeAux fuel (m / 2) + 1 from by
        simp [sizeAux, h0]]
      rw [ih (m / 2) (by omega), ← size_rec h0]

theorem bn_bits_nat_eq_size (m : ℕ) : bn_bits_nat m = m.size :=
  sizeAux_eq_size m m le_rfl

theorem bn_bits_nat_le {m L : ℕ} : bn_bits_nat m ≤ L ↔ m < 2 ^ L := by
  rw [bn_bits_nat_eq_size]
  exact Nat.size_le

theorem bn_bits_nat_mono {m n : ℕ} (h : m ≤ n) : bn_bits_nat m ≤ bn_bits_nat n := by
  rw [bn_bits_nat_eq_size, bn_bits_nat_eq_size]
  exact Nat.size_le_size h

theorem bn_bits_nat_pos {m : ℕ} (h : 0 < m) : 0 < bn_bits_nat m := by
  rw [bn_bits_nat_eq_size]
  exact Nat.size_pos.mpr h

theorem bn_get_bit_nat_eq_false {m i : ℕ} (h : bn_bits_nat m ≤ i) :
    bn_get_bit_nat m i = false := by
  have hm : m < 2 ^ i := bn_bits_nat_le.mp h
  simp [bn_get_bit_nat, Nat.div_eq_of_lt hm]

theorem lt_bits_of_bit {m i : ℕ} (h : bn_get_bit_nat m i = true) :
    i < bn_bits_nat m := by
  by_contra hc
  push_neg at hc
  rw [bn_get_bit_nat_eq_false hc] at h
  exact absurd h (by simp)

theorem sum_bit_mod (m : ℕ) :
    ∀ L, (∑ i ∈ Finset.range L, if bn_get_bit_nat m i then 2 ^ i else 0) = m % 2 ^ L := by
  intro L
  induction L with
  | zero => simp [Nat.mod_one]
  | succ L ih =>
    rw [Finset.sum_range_succ, ih]
    have key : m % 2 ^ (L + 1) = m % 2 ^ L + 2 ^ L * (m / 2 ^ L % 2) := by
      have h1 : m % (2 ^ L * 2) / 2 ^ L = m / 2 ^ L % 2 :=
        Nat.mod_mul_right_div_self m (2 ^ L) 2
      have h3 := Nat.div_add_mod (m % (2 ^ L * 2)) (2 ^ L)
      rw [h1] at h3
      have h2 : m % (2 ^ L * 2) % 2 ^ L = m % 2 ^ L := Nat.mod_mod_of_dvd m ⟨2, rfl⟩
      rw [h2] at h3
      rw [pow_succ]
      omega
    rw [key]
    unfold bn_get_bit_nat
    rcases Nat.mod_two_eq_zero_or_one (m / 2 ^ L) with he | he <;> simp [he]

theorem sum_bit_eq (m : ℕ) {L : ℕ} (h : bn_bits_nat m ≤ L) :
    (∑ i ∈ Finset.range L, if bn_get_bit_nat m i then 2 ^ i else 0) = m := by
  rw [sum_bit_mod]
  exact Nat.mod_eq_of_lt (bn_bits_nat_le.mp h)

theorem foldl_condAdd_val (t : ℕ → EbPt G) (cond : ℕ → Bool) :
    ∀ (n : ℕ) (init : EbPt G),
      ((List.range n).foldl (fun r i => if cond i then eb_add r (t i) else r) init).val
        = init.val + ∑ i ∈ Finset.range n, (if cond i then (t i).val else 0) := by
  intro n
  induction n with
  | zero => intro init; simp
  | succ n ih =>
    intro init
    rw [List.range_succ, List.foldl_append, List.foldl_cons, List.foldl_nil]
    by_cases hc : cond n
    · rw [if_pos hc, eb_add_val, ih init, Finset.sum_range_succ, if_pos hc, add_assoc]
    · rw [if_neg hc, ih init, Finset.sum_range_succ, if_neg hc, add_zero]

theorem foldl_condAdd_congr (t u : ℕ → EbPt G) (cond : ℕ → Bool)
    (h : ∀ i, cond i = true → t i = u i) :
    ∀ (n : ℕ) (init : EbPt G),
      (List.range n).foldl (fun r i => if cond i then eb_add r (t i) else r) init
        = (List.range n).foldl (fun r i => if cond i then eb_add r (u i) else r) init := by
  intro n
  induction n with
  | zero => intro init; rfl
  | succ n ih =>
    intro init
    rw [List.range_succ, List.foldl_append, List.foldl_append,
      List.foldl_cons, List.foldl_cons, List.foldl_nil, List.foldl_nil, ih init]
    by_cases hc : cond n
    · rw [if_pos hc, if_pos hc, h n hc]
    · rw [if_neg hc, if_neg hc]

theorem basicWalk_val (t : ℕ → EbPt G) (m : ℕ) :
    (basicWalk t m).val
      = ∑ i ∈ Finset.range (bn_bits_nat m), (if bn_get_bit_nat m i then (t i).val else 0) := by
  unfold basicWalk
  rw [foldl_condAdd_val, eb_set_infty_val, zero_add]

theorem getD_range_map {α : Type} (f : ℕ → α) {n i : ℕ} (h : i < n) (d : α) :
    ((List.range n).map f).getD i d = f i := by
  rw [List.getD_eq_getElem?_getD, List.getElem?_map, List.getElem?_range h]
  rfl

theorem eb_mul_pre_basic_length (c : Curve) (p : EbPt G)
    (h : 0 < eb_curve_get_ord c) :
    (eb_mul_pre_basic c p).length = bn_bits_nat (eb_curve_get_ord c) := by
  unfold eb_mul_pre_basic eb_norm_sim
  simp only [List.length_cons, List.length_map, List.length_range]
  have hs : 0 < bn_bits_nat (eb_curve_get_ord c) := bn_bits_nat_pos h
  omega

theorem eb_mul_pre_basic_getD (c : Curve) (p : EbPt G) {i : ℕ}
    (hi : i < bn_bits_nat (eb_curve_get_ord c)) :
    (eb_mul_pre_basic c p).getD i eb_set_infty
      = if i = 0 then p else eb_norm (dblIter p i) := by
  unfold eb_mul_pre_basic eb_norm_sim
  cases i with
  | zero => rfl
  | succ i =>
    rw [if_neg (Nat.succ_ne_zero i)]
    rw [List.getD_cons_succ, List.map_map]
    exact getD_range_map _ (by omega) _

theorem eb_mul_pre_basic_getD_val (c : Curve) (p : EbPt G) {i : ℕ}
    (hi : i < bn_bits_nat (eb_curve_get_ord c)) :
    ((eb_mul_pre_basic c p).getD i eb_set_infty).val = 2 ^ i • p.val := by
  rw [eb_mul_pre_basic_getD c p hi]
  cases i with
  | zero => simp
  | succ i => rw [if_neg (Nat.succ_ne_zero i), eb_norm_val, dblIter_val]

/-- C6: the BASIC builder writes exactly one slot per bit of the group
order, with `t[0] = P` (representation included), each later slot the double
of its predecessor, hence `t[i] = 2^i · P`. -/
theorem claim_C6 (G : Type) [AddCommGroup G] (c : Curve) (p : EbPt G)
    (h : 0 < eb_curve_get_ord c) :
    (eb_mul_pre_basic c p).length = bn_bits_nat (eb_curve_get_ord c) ∧
    (eb_mul_pre_basic c p).getD 0 eb_set_infty = p ∧
    (∀ i, i < bn_bits_nat (eb_curve_get_ord c) →
      ((eb_mul_pre_basic c p).getD i eb_set_infty).val = 2 ^ i • p.val) ∧
    (∀ i, 1 ≤ i → i < bn_bits_nat (eb_curve_get_ord c) →
      ((eb_mul_pre_basic c p).getD i eb_set_infty).val =
        ((eb_mul_pre_basic c p).getD (i - 1) eb_set_infty).val +
          ((eb_mul_pre_basic c p).getD (i - 1) eb_set_infty).val) := by
  refine ⟨eb_mul_pre_basic_length c p h, rfl,
    fun i hi => eb_mul_pre_basic_getD_val c p hi, fun i h1 hi => ?_⟩
  rw [eb_mul_pre_basic_getD_val c p hi, eb_mul_pre_basic_getD_val c p (by omega)]
  have h2 : (2 : ℕ) ^ i = 2 ^ (i - 1) + 2 ^ (i - 1) := by
    have h3 : i - 1 + 1 = i := by omega
    conv_lhs => rw [← h3]
    rw [pow_succ, mul_two]
  rw [h2, add_nsmul]

/-- Witness for C6 over `G = ℤ` with order 10 (4 bits) and `P = 3`. -/
theorem claim_C6_witness :
    0 < eb_curve_get_ord ⟨10, false, 1⟩ ∧
    ((eb_mul_pre_basic ⟨10, false, 1⟩ (⟨3, true⟩ : EbPt ℤ)).length
        = bn_bits_nat (eb_curve_get_ord ⟨10, false, 1⟩) ∧
      (eb_mul_pre_basic ⟨10, false, 1⟩ (⟨3, true⟩ : EbPt ℤ)).getD 0 eb_set_infty
        = ⟨3, true⟩ ∧
      (∀ i, i < bn_bits_nat (eb_curve_get_ord ⟨10, false, 1⟩) →
        ((eb_mul_pre_basic ⟨10, false, 1⟩ (⟨3, true⟩ : EbPt ℤ)).getD i
            eb_set_infty).val = 2 ^ i • (3 : ℤ)) ∧
      (∀ i, 1 ≤ i → i < bn_bits_nat (eb_curve_get_ord ⟨10, false, 1⟩) →
        ((eb_mul_pre_basic ⟨10, false, 1⟩ (⟨3, true⟩ : EbPt ℤ)).getD i
            eb_set_infty).val =
          ((eb_mul_pre_basic ⟨10, false, 1⟩ (⟨3, true⟩ : EbPt ℤ)).getD (i - 1)
              eb_set_infty).val +
            ((eb_mul_pre_basic ⟨10, false, 1⟩ (⟨3, true⟩ : EbPt ℤ)).getD (i - 1)
                eb_set_infty).val)) :=
  ⟨by decide, claim_C6 ℤ ⟨10, false, 1⟩ ⟨3, true⟩ (by decide)⟩

theorem instr_fold_eq (t : ℕ → EbPt G) (cond : ℕ → Bool) :
    ∀ (n : ℕ) (x : EbPt G) (rs : List ℕ) (cnt : ℕ),
      (List.range n).foldl
          (fun s i => if cond i then (eb_add s.1 (t i), s.2.1 ++ [i], s.2.2) else s)
          (x, rs, cnt)
        = ((List.range n).foldl (fun r i => if cond i then eb_add r (t i) else r) x,
            rs ++ (List.range n).filter cond, cnt) := by
  intro n
  induction n with
  | zero => intro x rs cnt; simp
  | succ n ih =>
    intro x rs cnt
    rw [List.range_succ, List.foldl_append, List.foldl_append, List.filter_append,
      List.foldl_cons, List.foldl_nil, List.foldl_cons, List.foldl_nil, ih]
    by_cases hc : cond n
    · simp [hc]
    · simp [hc]

/-- C4 (amended): the BASIC evaluator scans the bits of `k` from the
LEAST-significant to the most-significant one: the sequence of table indices
it reads is exactly the ascending list of set-bit positions of `|k|`
(`t[i]` is read precisely when bit `i` is set) and the evaluation performs
no point doubling. -/
theorem claim_C4 (G : Type) [AddCommGroup G] (t : ℕ → EbPt G) (k : ℤ) :
    (eb_mul_fix_basic_instr t k).1 = eb_mul_fix_basic t k ∧
    (eb_mul_fix_basic_instr t k).2.1
      = (List.range (bn_bits k)).filter (fun i => bn_get_bit k i) ∧
    List.Sorted (fun a b : ℕ => a < b) ((eb_mul_fix_basic_instr t k).2.1) ∧
    (∀ i, i ∈ (eb_mul_fix_basic_instr t k).2.1 ↔ bn_get_bit k i = true) ∧
    (eb_mul_fix_basic_instr t k).2.2 = 0 := by
  have hfold := instr_fold_eq t (fun i => bn_get_bit k i) (bn_bits k)
    eb_set_infty [] 0
  have h1 : (eb_mul_fix_basic_instr t k).1 = eb_mul_fix_basic t k := by
    unfold eb_mul_fix_basic_instr eb_mul_fix_basic
    by_cases hz : bn_is_zero k = true
    · simp [hz]
    · simp only [hz, Bool.false_eq_true, if_false]
      rw [hfold]
      rfl
  have h2 : (eb_mul_fix_basic_instr t k).2.1
      = (List.range (bn_bits k)).filter (fun i => bn_get_bit k i) := by
    unfold eb_mul_fix_basic_instr
    by_cases hz : bn_is_zero k = true
    · have hk : k = 0 := by simpa [bn_is_zero] using hz
      subst hk
      rw [if_pos hz]
      rfl
    · simp only [hz, Bool.false_eq_true, if_false]
      rw [hfold]
      simp
  have h5 : (eb_mul_fix_basic_instr t k).2.2 = 0 := by
    unfold eb_mul_fix_basic_instr
    by_cases hz : bn_is_zero k = true
    · simp [hz]
    · simp only [hz, Bool.false_eq_true, if_false]
      rw [hfold]
  refine ⟨h1, h2, ?_, ?_, h5⟩
  · rw [h2]
    exact (List.sorted_lt_range (bn_bits k)).sublist
      (List.filter_sublist (List.range (bn_bits k)))
  · intro i
    rw [h2, List.mem_filter, List.mem_range]
    constructor
    · exact fun h => by simpa using h.2
    · intro hb
      exact ⟨lt_bits_of_bit hb, by simpa using hb⟩

/-- C4 counterexample: at `k = 5` the BASIC evaluator reads `t[0]` first
and `t[2]` second — an ascending (LSB-to-MSB) order, not the
most-significant-to-least-significant order the claim states. -/
theorem claim_C4_counterexample :
    (eb_mul_fix_basic_instr (fun i => (⟨(i : ℤ), true⟩ : EbPt ℤ)) (5 : ℤ)).2.1
        = [0, 2] ∧
    ¬ List.Sorted (fun a b : ℕ => b < a)
        ((eb_mul_fix_basic_instr (fun i => (⟨(i : ℤ), true⟩ : EbPt ℤ)) (5 : ℤ)).2.1) := by
  have he : (eb_mul_fix_basic_instr
      (fun i => (⟨(i : ℤ), true⟩ : EbPt ℤ)) (5 : ℤ)).2.1 = [0, 2] := by decide
  refine ⟨he, ?_⟩
  rw [he]
  intro h
  exact absurd (List.rel_of_sorted_cons h 2 (by simp)) (by omega)

/-- C7: the LWNAF evaluator's runtime dispatch — Koblitz-marked curves go to
the τ-NAF evaluator, others to the plain windowed-NAF evaluator — and the
τ-NAF evaluator recodes with τ-sign `-1` exactly when the curve's
`a`-coefficient optimization flag is `OPT_ZERO`, `+1` otherwise, applying
the Frobenius map `φ` in place of doubling inside `kbltzWalk`. -/
theorem claim_C7 (G : Type) [AddCommGroup G] (c : Curve) (φ : G → G)
    (recT : ℤ → ℕ → List ℤ) (recN : ℕ → List ℤ) (t : ℕ → EbPt G)
    (r0 : EbPt G) (k : ℤ) :
    (eb_mul_fix_lwnaf c φ recT recN t r0 k =
      if eb_curve_is_kbltz c = true then eb_mul_fix_kbltz c φ recT t k
      else eb_mul_fix_plain recN t r0 k) ∧
    tnafU c = (if eb_curve_opt_a c = OPT_ZERO then -1 else 1) ∧
    eb_mul_fix_kbltz c φ recT t k =
      evalOf (kbltzWalk φ recT
        (if eb_curve_opt_a c = OPT_ZERO then -1 else 1) t) k :=
  ⟨rfl, rfl, rfl⟩

/-- C9 (amended): each evaluator's output depends only on the table slots
its algorithm actually indexes; for the BASIC evaluator those are exactly
the set-bit positions of `|k|` — including slot 0 whenever `k` is odd — so
two tables that agree on every set-bit index produce identical outputs. -/
theorem claim_C9 (G : Type) [AddCommGroup G] (t u : ℕ → EbPt G) (k : ℤ)
    (h : ∀ i, bn_get_bit k i = true → t i = u i) :
    eb_mul_fix_basic t k = eb_mul_fix_basic u k := by
  unfold eb_mul_fix_basic
  by_cases hz : bn_is_zero k = true
  · simp [hz]
  · simp only [hz, Bool.false_eq_true, if_false]
    unfold evalFinish basicWalk
    have h2 : ∀ i, bn_get_bit_nat k.natAbs i = true → t i = u i := h
    rw [foldl_condAdd_congr t u (fun i => bn_get_bit_nat k.natAbs i) h2]

/-- C9 counterexample: the BASIC evaluator DOES read table slot 0 — with
`k = 1`, two tables that differ only in the contents of slot 0 produce
different outputs, contradicting the claim that slot 0 is never read. -/
theorem claim_C9_counterexample :
    eb_mul_fix_basic
        (fun i => if i = 0 then (⟨5, true⟩ : EbPt ℤ) else ⟨1, true⟩) (1 : ℤ)
      ≠ eb_mul_fix_basic
        (fun i => if i = 0 then (⟨7, true⟩ : EbPt ℤ) else ⟨1, true⟩) (1 : ℤ) := by
  decide

/-- Witness for C9 at `k = 5` over `G = ℤ`: the tables agree on the set-bit
slots 0 and 2 (and differ at slot 1, which is not read). -/
theorem claim_C9_witness :
    eb_mul_fix_basic (fun i => (⟨(i : ℤ), true⟩ : EbPt ℤ)) (5 : ℤ)
      = eb_mul_fix_basic
          (fun i => if i = 1 then (⟨99, false⟩ : EbPt ℤ) else ⟨(i : ℤ), true⟩)
          (5 : ℤ) := by
  refine claim_C9 ℤ _ _ 5 ?_
  intro i hi
  by_cases h1 : i = 1
  · subst h1
    exact absurd hi (by decide)
  · simp [h1]

/-- C10: the plain windowed-NAF evaluator assigns its accumulator before
the main loop only on the positive-leading-digit branch; under the
precondition that the recoder returns a strictly positive leading digit for
every nonzero magnitude, the unassigned-accumulator path is unreachable:
the output does not depend on the incoming contents `r0` of the caller's
output register. -/
theorem claim_C10 (G : Type) [AddCommGroup G] (recN : ℕ → List ℤ)
    (t : ℕ → EbPt G) (r0 r1 : EbPt G) (k : ℤ) (hk : k ≠ 0)
    (hrec : ∀ m : ℕ, m ≠ 0 → 0 < (recN m).getD ((recN m).length - 1) 0) :
    eb_mul_fix_plain recN t r0 k = eb_mul_fix_plain recN t r1 k := by
  have hm : k.natAbs ≠ 0 := Int.natAbs_ne_zero.mpr hk
  have hpos := hrec k.natAbs hm
  unfold eb_mul_fix_plain plainWalk
  rw [bn_is_zero_eq_false hk]
  simp only [Bool.false_eq_true, if_false, if_pos hpos]

/-- Witness for C10 over `G = ℤ` with the single-digit recoder `m ↦ [m]`
(whose leading digit is positive for nonzero magnitudes) at `k = 3`. -/
theorem claim_C10_witness :
    ((3 : ℤ) ≠ 0 ∧
      (∀ m : ℕ, m ≠ 0 → 0 < (([(m : ℤ)]).getD (([(m : ℤ)]).length - 1) 0))) ∧
    eb_mul_fix_plain (fun m => [(m : ℤ)]) (fun i => (⟨(i : ℤ), true⟩ : EbPt ℤ))
        ⟨55, false⟩ 3
      = eb_mul_fix_plain (fun m => [(m : ℤ)]) (fun i => (⟨(i : ℤ), true⟩ : EbPt ℤ))
        ⟨77, false⟩ 3 := by
  have hs : ∀ m : ℕ, m ≠ 0 → 0 < (([(m : ℤ)]).getD (([(m : ℤ)]).length - 1) 0) := by
    intro m hm
    have hgetD : (([(m : ℤ)]).getD (([(m : ℤ)]).length - 1) 0) = (m : ℤ) := by
      simp
    rw [hgetD]
    exact_mod_cast Nat.pos_of_ne_zero hm
  exact ⟨⟨by decide, hs⟩,
    claim_C10 ℤ (fun m => [(m : ℤ)]) (fun i => (⟨(i : ℤ), true⟩ : EbPt ℤ))
      ⟨55, false⟩ ⟨77, false⟩ 3 (by decide) hs⟩

theorem basicRunStep_stay_false (dblFail : ℕ → Bool) (L : List ℕ) :
    ∀ st : Bool × (ℕ → EbPt G), st.1 = false →
      (L.foldl (basicRunStep dblFail) st).1 = false := by
  induction L with
  | nil => intro st h; exact h
  | cons a L ih =>
    intro st h
    rw [List.foldl_cons]
    apply ih
    simp [basicRunStep, h]

theorem basicRun_fold_ok (dblFail : ℕ → Bool) :
    ∀ (L : List ℕ) (g : ℕ → EbPt G),
      ((L.foldl (basicRunStep dblFail) (true, g)).1 = true) ↔
        (∀ ii ∈ L, dblFail (ii + 1) = false) := by
  intro L
  induction L with
  | nil => intro g; simp
  | cons a L ih =>
    intro g
    rw [List.foldl_cons]
    by_cases hf : dblFail (a + 1) = true
    · have hstep : basicRunStep dblFail (true, g) a = (false, g) := by
        simp [basicRunStep, hf]
      rw [hstep]
      constructor
      · intro hcontra
        rw [basicRunStep_stay_false dblFail L _ rfl] at hcontra
        exact absurd hcontra (by simp)
      · intro hall
        exact absurd (hall a (List.mem_cons_self a L)) (by simp [hf])
    · have hf2 : dblFail (a + 1) = false := by simpa using hf
      have hstep : basicRunStep dblFail (true, g) a
          = (true, Function.update g (a + 1) (eb_dbl (g (a + 1 - 1)))) := by
        simp [basicRunStep, hf2]
      rw [hstep, ih]
      constructor
      · intro hall ii hii
        rcases List.mem_cons.mp hii with h1 | h1
        · subst h1; exact hf2
        · exact hall ii h1
      · intro hall ii hii
        exact hall ii (List.mem_cons_of_mem a hii)

/-- On every run of the BASIC builder — success, allocation failure of the
curve-order temporary, or a collaborator (`eb_dbl`) failure — every
temporary acquired is released, and the call re-signals failure to its
caller exactly when the allocation or some in-range collaborator call
failed. -/
theorem basicRun_contract (G : Type) [AddCommGroup G] (dblFail : ℕ → Bool)
    (newFail : Bool) (c : Curve) (p : EbPt G) (t0 : ℕ → EbPt G) :
    (eb_mul_pre_basic_run dblFail newFail c p t0).released
      = (eb_mul_pre_basic_run dblFail newFail c p t0).acquired ∧
    ((eb_mul_pre_basic_run dblFail newFail c p t0).res = Except.error () ↔
      (newFail = true ∨
        ∃ ii, ii ∈ List.range (bn_bits_nat (eb_curve_get_ord c) - 1) ∧
          dblFail (ii + 1) = true)) := by
  unfold eb_mul_pre_basic_run
  by_cases hn : newFail = true
  · simp [hn]
  · simp only [hn, Bool.false_eq_true, if_false]
    by_cases hok : ((List.range (bn_bits_nat (eb_curve_get_ord c) - 1)).foldl
        (basicRunStep dblFail) (true, Function.update t0 0 p)).1 = true
    · rw [if_pos hok]
      refine ⟨rfl, ?_⟩
      rw [basicRun_fold_ok dblFail _ (Function.update t0 0 p)] at hok
      constructor
      · intro habs
        exact absurd habs (by simp)
      · rintro (h1 | ⟨ii, hmem, hfi⟩)
        · exact h1.elim
        · exact absurd (hok ii hmem) (by simp [hfi])
    · rw [if_neg hok]
      refine ⟨rfl, ?_⟩
      constructor
      · intro _
        right
        have h2 : ¬ (∀ ii ∈ List.range (bn_bits_nat (eb_curve_get_ord c) - 1),
            dblFail (ii + 1) = false) := by
          rw [← basicRun_fold_ok dblFail _ (Function.update t0 0 p)]
          exact hok
        push_neg at h2
        obtain ⟨ii, hmem, hne⟩ := h2
        exact ⟨ii, hmem, by simpa using hne⟩
      · intro _
        rfl

/-- C8 counterexample: with order 10 (4 bits) and the `eb_dbl` writing slot
2 failing, the run reports the failure but the caller-visible table has
already been mutated at slots 0 and 1 — contradicting the claim of no
partial mutation of the caller-visible table on failure. -/
theorem claim_C8_counterexample :
    (eb_mul_pre_basic_run (fun i => decide (i = 2)) false ⟨10, false, 1⟩
        (⟨1, true⟩ : EbPt ℤ) (fun _ => ⟨0, true⟩)).res = Except.error () ∧
    ¬ ((eb_mul_pre_basic_run (fun i => decide (i = 2)) false ⟨10, false, 1⟩
        (⟨1, true⟩ : EbPt ℤ) (fun _ => ⟨0, true⟩)).tbl 0 = (⟨0, true⟩ : EbPt ℤ)) ∧
    ¬ ((eb_mul_pre_basic_run (fun i => decide (i = 2)) false ⟨10, false, 1⟩
        (⟨1, true⟩ : EbPt ℤ) (fun _ => ⟨0, true⟩)).tbl 1 = (⟨0, true⟩ : EbPt ℤ)) :=
  ⟨rfl, by decide, by decide⟩

/-- A TRY body completes exactly when none of its calls throws. -/
theorem runBody_withFailFrom_ok {σ : Type} (fail : ℕ → Bool) :
    ∀ (writes : List (σ → σ)) (i0 : ℕ) (s0 : σ),
      ((runBody (withFailFrom fail i0 writes) s0).1 = true ↔
        ∀ j, j < writes.length → fail (i0 + j) = false) := by
  intro writes
  induction writes with
  | nil =>
    intro i0 s0
    simp [withFailFrom, runBody]
  | cons wr ws ih =>
    intro i0 s0
    have hstep : runBody (withFailFrom fail i0 (wr :: ws)) s0
        = if fail i0 = true then (false, s0)
          else runBody (withFailFrom fail (i0 + 1) ws) (wr s0) := by
      by_cases hf : fail i0 = true
      · simp [withFailFrom, runBody, callStep, hf]
      · simp [withFailFrom, runBody, callStep, hf]
    rw [hstep]
    by_cases hf : fail i0 = true
    · rw [if_pos hf]
      simp only [List.length_cons]
      constructor
      · intro habs
        exact absurd habs (by simp)
      · intro hall
        have h0 := hall 0 (by omega)
        rw [Nat.add_zero, hf] at h0
        exact absurd h0 (by simp)
    · rw [if_neg hf, ih (i0 + 1) (wr s0)]
      simp only [List.length_cons]
      constructor
      · intro hall j hj
        cases j with
        | zero =>
          rw [Nat.add_zero]
          simpa using hf
        | succ j2 =>
          rw [show i0 + (j2 + 1) = i0 + 1 + j2 from by omega]
          exact hall j2 (by omega)
      · intro hall j hj
        rw [show i0 + 1 + j = i0 + (j + 1) from by omega]
        exact hall (j + 1) (by omega)

/-- A routine without a TRY block reports failure exactly when one of its
calls throws. -/
theorem noTryRun_res_error {σ : Type} (fail : ℕ → Bool)
    (writes : List (σ → σ)) (s0 : σ) :
    ((noTryRun (withFail fail writes) s0).res = Except.error () ↔
      ∃ i, i < writes.length ∧ fail i = true) := by
  have hok := runBody_withFailFrom_ok fail writes 0 s0
  show (if (runBody (withFailFrom fail 0 writes) s0).1 = true
      then (Except.ok () : Except Unit Unit) else Except.error ())
      = Except.error () ↔ _
  by_cases hb : (runBody (withFailFrom fail 0 writes) s0).1 = true
  · rw [if_pos hb]
    rw [hok] at hb
    constructor
    · intro habs
      exact absurd habs (by simp)
    · rintro ⟨i, hi, hfi⟩
      have h2 := hb i hi
      rw [Nat.zero_add, hfi] at h2
      exact absurd h2 (by simp)
  · rw [if_neg hb]
    constructor
    · intro _
      rw [hok] at hb
      push_neg at hb
      obtain ⟨j, hj, hne⟩ := hb
      rw [Nat.zero_add] at hne
      exact ⟨j, hj, by simpa using hne⟩
    · intro _
      rfl

/-- The error-handling contract holds for every routine without a TRY
block: nothing is acquired, nothing is released, failures unwind. -/
theorem noTryRun_contract {σ : Type} (fail : ℕ → Bool)
    (writes : List (σ → σ)) (s0 : σ) :
    tfContract (noTryRun (withFail fail writes) s0) false fail
      writes.length := by
  refine ⟨rfl, ?_⟩
  rw [noTryRun_res_error fail writes s0]
  simp

/-- The error-handling contract holds for every TRY/CATCH_ANY/FINALLY
routine: the temporary is released exactly when acquired, and failure is
re-signalled exactly when the allocation or a body call threw. -/
theorem tryFinallyRun_contract {σ : Type} (fail : ℕ → Bool)
    (allocFail : Bool) (writes : List (σ → σ)) (s0 : σ) :
    tfContract (tryFinallyRun allocFail (withFail fail writes) s0)
      allocFail fail writes.length := by
  unfold tryFinallyRun
  by_cases ha : allocFail = true
  · rw [if_pos ha]
    refine ⟨rfl, ?_⟩
    simp [ha]
  · rw [if_neg ha]
    refine ⟨rfl, ?_⟩
    have h2 := noTryRun_res_error fail writes s0
    have hres : ({ noTryRun (withFail fail writes) s0 with
        acquired := 1, released := 1 } : TFRun σ).res
        = (noTryRun (withFail fail writes) s0).res := rfl
    rw [hres, h2]
    have ha2 : allocFail = false := by simpa using ha
    rw [ha2]
    simp

/-- C8 (amended): every builder and evaluator releases, on every exit path,
exactly the temporaries it acquired, and re-signals a failure — of the
allocation or of any collaborator call of its body — to its caller;
routines without a TRY block acquire nothing and let a failure unwind
directly.  Partial mutation of the caller-visible table up to the failure
point persists; see the counterexample. -/
theorem claim_C8 (G : Type) [AddCommGroup G] (w D : ℕ) (c : Curve)
    (p : EbPt G) (t0 t : ℕ → EbPt G) (k : ℤ) (r0 a0 : EbPt G) (φ : G → G)
    (recT : ℤ → ℕ → List ℤ) (recN : ℕ → List ℤ) (dblFail : ℕ → Bool)
    (newFail : Bool) (fail : ℕ → Bool) (allocFail : Bool)
    (hk : bn_is_zero k = false) :
    ((eb_mul_pre_basic_run dblFail newFail c p t0).released
        = (eb_mul_pre_basic_run dblFail newFail c p t0).acquired ∧
      ((eb_mul_pre_basic_run dblFail newFail c p t0).res = Except.error () ↔
        (newFail = true ∨
          ∃ ii, ii ∈ List.range (bn_bits_nat (eb_curve_get_ord c) - 1) ∧
            dblFail (ii + 1) = true))) ∧
    tfContract (eb_mul_pre_yaowi_run w fail allocFail c p t0) allocFail fail
      (yaowiBuildWrites w c p).length ∧
    tfContract (eb_mul_pre_nafwi_run w fail allocFail c p t0) allocFail fail
      (nafwiBuildWrites w c p).length ∧
    tfContract (eb_mul_pre_combs_run D fail allocFail c p t0) allocFail fail
      (combsBuildWrites D c p).length ∧
    tfContract (eb_mul_pre_combd_run D fail allocFail c p t0) allocFail fail
      (combdBuildWrites D c p).length ∧
    tfContract (eb_mul_pre_lwnaf_run w fail p t0) false fail
      (lwnafBuildWrites w p).length ∧
    tfContract (eb_mul_fix_basic_run fail t k r0) false fail
      (fixBasicWrites t k).length ∧
    tfContract (eb_mul_fix_yaowi_run w fail allocFail t k r0 a0) allocFail
      fail (fixYaowiWrites w t k).length ∧
    tfContract (eb_mul_fix_nafwi_run w recN fail allocFail t k r0 a0)
      allocFail fail (fixNafwiWrites w recN t k).length ∧
    tfContract (eb_mul_fix_combs_run D fail allocFail c t k r0) allocFail
      fail (fixCombsWrites D c t k).length ∧
    tfContract (eb_mul_fix_combd_run D fail allocFail c t k r0) allocFail
      fail (fixCombdWrites D c t k).length ∧
    tfContract (eb_mul_fix_plain_run recN fail t k r0) false fail
      (fixPlainWrites recN t k).length ∧
    tfContract (eb_mul_fix_kbltz_run c φ recT fail t k r0) false fail
      (fixKbltzWrites c φ recT t k).length ∧
    tfContract (eb_mul_fix_lwnaf_run c φ recT recN fail t k r0) false fail
      (if eb_curve_is_kbltz c then (fixKbltzWrites c φ recT t k).length
        else (fixPlainWrites recN t k).length) := by
  refine ⟨basicRun_contract G dblFail newFail c p t0,
    tryFinallyRun_contract fail allocFail (yaowiBuildWrites w c p) t0,
    tryFinallyRun_contract fail allocFail (nafwiBuildWrites w c p) t0,
    tryFinallyRun_contract fail allocFail (combsBuildWrites D c p) t0,
    tryFinallyRun_contract fail allocFail (combdBuildWrites D c p) t0,
    noTryRun_contract fail (lwnafBuildWrites w p) t0,
    ?_, ?_, ?_, ?_, ?_, ?_, ?_, ?_⟩
  · unfold eb_mul_fix_basic_run
    rw [hk, if_neg Bool.false_ne_true]
    exact noTryRun_contract fail (fixBasicWrites t k) r0
  · unfold eb_mul_fix_yaowi_run
    rw [hk, if_neg Bool.false_ne_true]
    exact tryFinallyRun_contract fail allocFail (fixYaowiWrites w t k) (r0, a0)
  · unfold eb_mul_fix_nafwi_run
    rw [hk, if_neg Bool.false_ne_true]
    exact tryFinallyRun_contract fail allocFail (fixNafwiWrites w recN t k)
      (r0, a0)
  · unfold eb_mul_fix_combs_run
    rw [hk, if_neg Bool.false_ne_true]
    exact tryFinallyRun_contract fail allocFail (fixCombsWrites D c t k) r0
  · unfold eb_mul_fix_combd_run
    rw [hk, if_neg Bool.false_ne_true]
    exact tryFinallyRun_contract fail allocFail (fixCombdWrites D c t k) r0
  · unfold eb_mul_fix_plain_run
    rw [hk, if_neg Bool.false_ne_true]
    exact noTryRun_contract fail (fixPlainWrites recN t k) r0
  · unfold eb_mul_fix_kbltz_run
    rw [hk, if_neg Bool.false_ne_true]
    exact noTryRun_contract fail (fixKbltzWrites c φ recT t k) r0
  · unfold eb_mul_fix_lwnaf_run
    by_cases hkb : eb_curve_is_kbltz c = true
    · simp only [if_pos hkb]
      unfold eb_mul_fix_kbltz_run
      rw [hk, if_neg Bool.false_ne_true]
      exact noTryRun_contract fail (fixKbltzWrites c φ recT t k) r0
    · simp only [if_neg hkb]
      unfold eb_mul_fix_plain_run
      rw [hk, if_neg Bool.false_ne_true]
      exact noTryRun_contract fail (fixPlainWrites recN t k) r0

/-- C8 witness: the `eb_mul_fix_yaowi` conjunct at a concrete instance — a
nonzero scalar, no injected failures — discharging the nonzero-scalar
hypothesis. -/
theorem claim_C8_witness :
    bn_is_zero (1 : ℤ) = false ∧
    tfContract
      (eb_mul_fix_yaowi_run 2 (fun _ => false) false
        (fun _ => (⟨0, true⟩ : EbPt ℤ)) 1 ⟨0, true⟩ ⟨0, true⟩)
      false (fun _ => false)
      (fixYaowiWrites 2 (fun _ => (⟨0, true⟩ : EbPt ℤ)) 1).length :=
  ⟨by decide,
    (claim_C8 ℤ 2 2 ⟨10, false, 1⟩ ⟨1, true⟩ (fun _ => ⟨0, true⟩)
        (fun _ => ⟨0, true⟩) 1 ⟨0, true⟩ ⟨0, true⟩ (fun x => x)
        (fun _ _ => [1]) (fun _ => [1]) (fun _ => false) false
        (fun _ => false) false (by decide)).2.2.2.2.2.2.2.1⟩

theorem foldl_update_preserve {α : Type} (step : (ℕ → α) → ℕ → (ℕ → α)) (q : ℕ) :
    ∀ (L : List ℕ), (∀ g b, b ∈ L → step g b q = g q) →
      ∀ g : ℕ → α, (L.foldl step g) q = g q := by
  intro L
  induction L with
  | nil => intro _ g; rfl
  | cons a L ih =>
    intro hstep g
    rw [List.foldl_cons,
      ih (fun g2 b hb => hstep g2 b (List.mem_cons_of_mem a hb)) (step g a),
      hstep g a (List.mem_cons_self a L)]

theorem combInnerStep_preserve (flip : Bool) (j q : ℕ) (hq : q < 2 ^ j + 1)
    (u : ℕ → EbPt G) (ii : ℕ) : combInnerStep flip j u ii q = u q := by
  unfold combInnerStep
  exact Function.update_noteq (by omega) _ _

theorem combOuterStep_preserve (spacing : ℕ) (flip : Bool) (q : ℕ) (hq : q < 2)
    (t : ℕ → EbPt G) (jj : ℕ) : combOuterStep spacing flip t jj q = t q := by
  have h2 : 2 ≤ 2 ^ (jj + 1) := by
    calc 2 = 2 ^ 1 := (pow_one 2).symm
    _ ≤ 2 ^ (jj + 1) := Nat.pow_le_pow_right (by omega) (by omega)
  unfold combOuterStep
  rw [foldl_update_preserve (combInnerStep flip (jj + 1)) q _
    (fun g b _ => combInnerStep_preserve flip (jj + 1) q (by omega) g b)]
  exact Function.update_noteq (by omega) _ _

theorem combLadder_zero (D spacing : ℕ) (flip : Bool) (p : EbPt G)
    (t0 : ℕ → EbPt G) : combLadder D spacing flip p t0 0 = eb_set_infty := by
  unfold combLadder
  rw [foldl_update_preserve (combOuterStep spacing flip) 0 _
    (fun g b _ => combOuterStep_preserve spacing flip 0 (by omega) g b)]
  rw [Function.update_noteq (by omega) _ _, Function.update_same]

theorem combLadder_one (D spacing : ℕ) (flip : Bool) (p : EbPt G)
    (t0 : ℕ → EbPt G) : combLadder D spacing flip p t0 1 = p := by
  unfold combLadder
  rw [foldl_update_preserve (combOuterStep spacing flip) 1 _
    (fun g b _ => combOuterStep_preserve spacing flip 1 (by omega) g b)]
  rw [Function.update_same]

theorem combdPhase2Step_preserve (D e q : ℕ) (hq : q < 2 ^ D + 1)
    (u : ℕ → EbPt G) (jj : ℕ) : combdPhase2Step D e u jj q = u q := by
  unfold combdPhase2Step
  exact Function.update_noteq (by omega) _ _

theorem two_le_two_pow {D : ℕ} (hD : 0 < D) : 2 ≤ 2 ^ D := by
  calc 2 = 2 ^ 1 := (pow_one 2).symm
  _ ≤ 2 ^ D := Nat.pow_le_pow_right (by omega) hD

theorem eb_mul_pre_combs_aff (D : ℕ) (c : Curve) (p : EbPt G)
    (t0 : ℕ → EbPt G) (hp : p.aff = true) :
    ∀ idx, idx < 2 ^ D → (eb_mul_pre_combs D c p t0 idx).aff = true := by
  intro idx hidx
  unfold eb_mul_pre_combs
  by_cases h2 : 2 ≤ idx ∧ idx < 2 ^ D
  · rw [if_pos h2]
    simp
  · rw [if_neg h2]
    have hcase : idx = 0 ∨ idx = 1 := by omega
    rcases hcase with h | h <;> subst h
    · rw [combLadder_zero]
      simp
    · rw [combLadder_one]
      exact hp

theorem eb_mul_pre_combd_aff (D : ℕ) (c : Curve) (p : EbPt G)
    (t0 : ℕ → EbPt G) (hp : p.aff = true) (hD : 0 < D) :
    ∀ idx, idx < 2 ^ D + 2 ^ D → (eb_mul_pre_combd D c p t0 idx).aff = true := by
  intro idx hidx
  have h2D : 2 ≤ 2 ^ D := two_le_two_pow hD
  unfold eb_mul_pre_combd
  by_cases hcase : (2 ≤ idx ∧ idx < 2 ^ D) ∨
      (2 ^ D + 1 ≤ idx ∧ idx < 2 ^ D + 2 ^ D)
  · rw [if_pos hcase]
    simp
  · rw [if_neg hcase]
    have hidx3 : idx = 0 ∨ idx = 1 ∨ idx = 2 ^ D := by omega
    have hpres := foldl_update_preserve
      (combdPhase2Step (G := G) D
        (if CEIL (bn_bits_nat (eb_curve_get_ord c)) D % 2 = 0 then
          CEIL (bn_bits_nat (eb_curve_get_ord c)) D / 2
        else CEIL (bn_bits_nat (eb_curve_get_ord c)) D / 2 + 1)) idx
      (List.range (2 ^ D - 1))
      (fun g b _ => combdPhase2Step_preserve D _ idx (by omega) g b)
    rw [hpres]
    rcases hidx3 with h | h | h <;> subst h
    · rw [Function.update_noteq (by omega) _ _, combLadder_zero]
      simp
    · rw [Function.update_noteq (by omega) _ _, combLadder_one]
      exact hp
    · rw [Function.update_same]
      simp

theorem mem_cons_norm_sim_aff (p : EbPt G) (l : List (EbPt G))
    (hp : p.aff = true) : ∀ q ∈ p :: eb_norm_sim l, q.aff = true := by
  intro q hq
  rcases List.mem_cons.mp hq with h | h
  · subst h; exact hp
  · unfold eb_norm_sim at h
    obtain ⟨x, _, hx⟩ := List.mem_map.mp h
    rw [← hx]
    simp

theorem eb_tab_aff (w : ℕ) (p : EbPt G) : ∀ q ∈ eb_tab w p, q.aff = true := by
  intro q hq
  obtain ⟨x, _, hx⟩ := List.mem_map.mp hq
  rw [← hx]

/-- C5: every slot of every completed precomputation table is in affine
(normalized) form — given an affine base point — and every evaluator output
is in affine form. -/
theorem claim_C5 (G : Type) [AddCommGroup G] (c : Curve) (p : EbPt G)
    (t0 : ℕ → EbPt G) (w D : ℕ) (φ : G → G) (recT : ℤ → ℕ → List ℤ)
    (recN : ℕ → List ℤ) (t : ℕ → EbPt G) (r0 : EbPt G) (k : ℤ)
    (hp : p.aff = true) (hD : 0 < D) :
    (∀ q ∈ eb_mul_pre_basic c p, q.aff = true) ∧
    (∀ q ∈ eb_mul_pre_yaowi w c p, q.aff = true) ∧
    (∀ q ∈ eb_mul_pre_nafwi w c p, q.aff = true) ∧
    (∀ idx, idx < 2 ^ D → (eb_mul_pre_combs D c p t0 idx).aff = true) ∧
    (∀ idx, idx < 2 ^ D + 2 ^ D → (eb_mul_pre_combd D c p t0 idx).aff = true) ∧
    (∀ q ∈ eb_mul_pre_lwnaf w p, q.aff = true) ∧
    (eb_mul_fix_basic t k).aff = true ∧
    (eb_mul_fix_yaowi w t k).aff = true ∧
    (eb_mul_fix_nafwi w recN t k).aff = true ∧
    (eb_mul_fix_combs D c t k).aff = true ∧
    (eb_mul_fix_combd D c t k).aff = true ∧
    (eb_mul_fix_lwnaf c φ recT recN t r0 k).aff = true := by
  refine ⟨mem_cons_norm_sim_aff p _ hp, mem_cons_norm_sim_aff p _ hp,
    mem_cons_norm_sim_aff p _ hp, eb_mul_pre_combs_aff D c p t0 hp,
    eb_mul_pre_combd_aff D c p t0 hp hD, eb_tab_aff w p,
    evalOf_aff _ k, evalOf_aff _ k, evalOf_aff _ k, evalOf_aff _ k,
    evalOf_aff _ k, ?_⟩
  unfold eb_mul_fix_lwnaf
  by_cases hc : eb_curve_is_kbltz c = true
  · rw [if_pos hc]
    exact evalOf_aff _ k
  · rw [if_neg hc]
    exact evalOf_aff _ k

/-- Witness for C5 over `G = ℤ` with an affine base point and `D = 1`. -/
theorem claim_C5_witness :
    ((⟨3, true⟩ : EbPt ℤ).aff = true ∧ 0 < 1) ∧
    ((∀ q ∈ eb_mul_pre_basic ⟨10, false, 1⟩ (⟨3, true⟩ : EbPt ℤ), q.aff = true) ∧
      (∀ q ∈ eb_mul_pre_yaowi 2 ⟨10, false, 1⟩ (⟨3, true⟩ : EbPt ℤ), q.aff = true) ∧
      (∀ q ∈ eb_mul_pre_nafwi 2 ⟨10, false, 1⟩ (⟨3, true⟩ : EbPt ℤ), q.aff = true) ∧
      (∀ idx, idx < 2 ^ 1 →
        (eb_mul_pre_combs 1 ⟨10, false, 1⟩ (⟨3, true⟩ : EbPt ℤ)
            (fun _ => ⟨9, false⟩) idx).aff = true) ∧
      (∀ idx, idx < 2 ^ 1 + 2 ^ 1 →
        (eb_mul_pre_combd 1 ⟨10, false, 1⟩ (⟨3, true⟩ : EbPt ℤ)
            (fun _ => ⟨9, false⟩) idx).aff = true) ∧
      (∀ q ∈ eb_mul_pre_lwnaf 2 (⟨3, true⟩ : EbPt ℤ), q.aff = true) ∧
      (eb_mul_fix_basic (fun _ => (⟨4, false⟩ : EbPt ℤ)) 5).aff = true ∧
      (eb_mul_fix_yaowi 2 (fun _ => (⟨4, false⟩ : EbPt ℤ)) 5).aff = true ∧
      (eb_mul_fix_nafwi 2 (fun _ => [1]) (fun _ => (⟨4, false⟩ : EbPt ℤ)) 5).aff = true ∧
      (eb_mul_fix_combs 1 ⟨10, false, 1⟩ (fun _ => (⟨4, false⟩ : EbPt ℤ)) 5).aff = true ∧
      (eb_mul_fix_combd 1 ⟨10, false, 1⟩ (fun _ => (⟨4, false⟩ : EbPt ℤ)) 5).aff = true ∧
      (eb_mul_fix_lwnaf ⟨10, false, 1⟩ id (fun _ _ => [1]) (fun _ => [1])
          (fun _ => (⟨4, false⟩ : EbPt ℤ)) ⟨8, false⟩ 5).aff = true) :=
  ⟨⟨rfl, by decide⟩,
    claim_C5 ℤ ⟨10, false, 1⟩ ⟨3, true⟩ (fun _ => ⟨9, false⟩) 2 1 id
      (fun _ _ => [1]) (fun _ => [1]) (fun _ => ⟨4, false⟩) ⟨8, false⟩ 5
      rfl (by decide)⟩

theorem iterate_add_apply (e : G → G) (he : ∀ a b, e (a + b) = e a + e b) :
    ∀ (n : ℕ) (a b : G), e^[n] (a + b) = e^[n] a + e^[n] b := by
  intro n
  induction n with
  | zero => intro a b; rfl
  | succ n ih =>
    intro a b
    rw [Function.iterate_succ_apply, Function.iterate_succ_apply,
      Function.iterate_succ_apply, he, ih]

theorem additive_map_zero (e : G → G) (he : ∀ a b, e (a + b) = e a + e b) :
    e 0 = 0 := by
  have h := he 0 0
  rw [add_zero] at h
  exact self_eq_add_left.mp h

/-- Value of a fold over `(List.range n).reverse` (the evaluators' main
loops run their index from `n - 1` down to `0`): a Horner scheme with the
additive endomorphism `e` in place of doubling. -/
theorem rev_range_fold_val (e : G → G) (he : ∀ a b, e (a + b) = e a + e b)
    (step : EbPt G → ℕ → EbPt G) (f : ℕ → G)
    (hstep : ∀ r i, (step r i).val = e r.val + f i) :
    ∀ (n : ℕ) (init : EbPt G),
      (((List.range n).reverse).foldl step init).val
        = e^[n] init.val + ∑ i ∈ Finset.range n, e^[i] (f i) := by
  intro n
  induction n with
  | zero => intro init; simp
  | succ n ih =>
    intro init
    have hrev : (List.range (n + 1)).reverse = n :: (List.range n).reverse := by
      rw [List.range_succ, List.reverse_append]
      rfl
    rw [hrev, List.foldl_cons, ih (step init n), hstep init n,
      iterate_add_apply e he n, Finset.sum_range_succ]
    rw [← Function.iterate_succ_apply e n init.val]
    abel

theorem dbl_endo_iterate : ∀ (n : ℕ) (x : G), (fun y : G => y + y)^[n] x = 2 ^ n • x := by
  intro n
  induction n with
  | zero => intro x; simp
  | succ n ih =>
    intro x
    rw [Function.iterate_succ_apply, ih, smul_add, ← add_nsmul]
    congr 1
    rw [pow_succ]
    omega

theorem dbl_endo_additive : ∀ a b : G, (a + b) + (a + b) = (a + a) + (b + b) := by
  intro a b
  abel

theorem CEIL_mono {a a2 : ℕ} (b : ℕ) (h : a ≤ a2) : CEIL a b ≤ CEIL a2 b := by
  unfold CEIL
  have : (a - 1) / b ≤ (a2 - 1) / b := Nat.div_le_div_right (by omega)
  omega

theorem le_mul_CEIL {b : ℕ} (a : ℕ) (hb : 0 < b) : a ≤ b * CEIL a b := by
  unfold CEIL
  have h := Nat.div_add_mod (a - 1) b
  have h2 : (a - 1) % b < b := Nat.mod_lt _ hb
  have h3 : b * ((a - 1) / b + 1) = b * ((a - 1) / b) + b := by ring
  omega

theorem CEIL_pos (a b : ℕ) : 0 < CEIL a b := Nat.succ_pos _

/-- Base-`B` analogue of `sum_bit_mod`: the digit expansion of `m`. -/
theorem sum_digit_mod (B m : ℕ) :
    ∀ L, (∑ i ∈ Finset.range L, m / B ^ i % B * B ^ i) = m % B ^ L := by
  intro L
  induction L with
  | zero => simp [Nat.mod_one]
  | succ L ih =>
    rw [Finset.sum_range_succ, ih]
    have key : m % B ^ (L + 1) = m % B ^ L + m / B ^ L % B * B ^ L := by
      have h1 : m % (B ^ L * B) / B ^ L = m / B ^ L % B :=
        Nat.mod_mul_right_div_self m (B ^ L) B
      have h3 := Nat.div_add_mod (m % (B ^ L * B)) (B ^ L)
      rw [h1] at h3
      have h2 : m % (B ^ L * B) % B ^ L = m % B ^ L := Nat.mod_mod_of_dvd m ⟨B, rfl⟩
      rw [h2] at h3
      rw [Nat.mul_comm (B ^ L) (m / B ^ L % B)] at h3
      rw [pow_succ]
      omega
    omega

theorem sum_digit_eq {B m L : ℕ} (h : m < B ^ L) :
    (∑ i ∈ Finset.range L, m / B ^ i % B * B ^ i) = m := by
  rw [sum_digit_mod]
  exact Nat.mod_eq_of_lt h

/-- Slot values of the doubling-ladder builders (`eb_mul_pre_basic` with
`g i = i`, `eb_mul_pre_yaowi`/`eb_mul_pre_nafwi` with `g i = w * i`). -/
theorem pre_ladder_getD_val (p : EbPt G) (g : ℕ → ℕ) (hg : g 0 = 0) (l : ℕ)
    {i : ℕ} (hi : i < l) :
    ((p :: eb_norm_sim
        ((List.range (l - 1)).map (fun i2 => dblIter p (g (i2 + 1))))).getD i
          eb_set_infty).val
      = 2 ^ g i • p.val := by
  cases i with
  | zero =>
    rw [hg]
    simp
  | succ i =>
    rw [List.getD_cons_succ]
    unfold eb_norm_sim
    rw [List.map_map, getD_range_map _ (by omega) _]
    show (eb_norm (dblIter p (g (i + 1)))).val = 2 ^ g (i + 1) • p.val
    rw [eb_norm_val, dblIter_val]

/-- C1, BASIC variant: evaluating the BASIC table at any scalar of
magnitude at most the group order gives the reference double-and-add
result. -/
theorem basic_correct (c : Curve) (p : EbPt G) (k : ℤ)
    (hord : k.natAbs ≤ eb_curve_get_ord c) :
    (eb_mul_fix_basic (fun i => (eb_mul_pre_basic c p).getD i eb_set_infty) k).val
      = refMulZ p.val k := by
  rw [eb_mul_fix_basic_eq_evalOf]
  apply evalOf_val_ref
  rw [basicWalk_val]
  have hbits : bn_bits_nat k.natAbs ≤ bn_bits_nat (eb_curve_get_ord c) :=
    bn_bits_nat_mono hord
  have hterm : ∀ i ∈ Finset.range (bn_bits_nat k.natAbs),
      (if bn_get_bit_nat k.natAbs i then
          ((eb_mul_pre_basic c p).getD i eb_set_infty).val else 0)
        = (if bn_get_bit_nat k.natAbs i then 2 ^ i else 0) • p.val := by
    intro i hi
    rw [Finset.mem_range] at hi
    by_cases hb : bn_get_bit_nat k.natAbs i
    · rw [if_pos hb, if_pos hb, eb_mul_pre_basic_getD_val c p (by omega)]
    · rw [if_neg hb, if_neg hb, zero_smul]
  rw [Finset.sum_congr rfl hterm, ← Finset.sum_smul, sum_bit_eq k.natAbs le_rfl]

theorem foldl_eqAdd_val (t : ℕ → EbPt G) (win : List ℕ) (j : ℕ) :
    ∀ (n : ℕ) (init : EbPt G),
      ((List.range n).foldl
          (fun a i => if win.getD i 0 = j then eb_add a (t i) else a) init).val
        = init.val + ∑ i ∈ Finset.range n, (if win.getD i 0 = j then (t i).val else 0) := by
  intro n
  induction n with
  | zero => intro init; simp
  | succ n ih =>
    intro init
    rw [List.range_succ, List.foldl_append, List.foldl_cons, List.foldl_nil]
    by_cases hc : win.getD n 0 = j
    · rw [if_pos hc, eb_add_val, ih init, Finset.sum_range_succ, if_pos hc, add_assoc]
    · rw [if_neg hc, ih init, Finset.sum_range_succ, if_neg hc, add_zero]

/-- Value of the two-accumulator loop of Yao's method (result `r`, running
sum `a`): each level `jj` updates `a := inner a jj` (adding `A jj` in
value) and then `r := r + a`. -/
theorem yao_outer_fold (inner : EbPt G → ℕ → EbPt G) (A : ℕ → G)
    (hinner : ∀ a jj, (inner a jj).val = a.val + A jj) :
    ∀ (n : ℕ) (ra : EbPt G × EbPt G),
      (((List.range n).foldl
          (fun ra jj => (eb_add ra.1 (inner ra.2 jj), inner ra.2 jj)) ra).1.val
        = ra.1.val + n • ra.2.val + ∑ jj ∈ Finset.range n, (n - jj) • A jj) ∧
      (((List.range n).foldl
          (fun ra jj => (eb_add ra.1 (inner ra.2 jj), inner ra.2 jj)) ra).2.val
        = ra.2.val + ∑ jj ∈ Finset.range n, A jj) := by
  intro n
  induction n with
  | zero => intro ra; simp
  | succ n ih =>
    intro ra
    obtain ⟨h1, h2⟩ := ih ra
    rw [List.range_succ, List.foldl_append, List.foldl_cons, List.foldl_nil]
    constructor
    · rw [eb_add_val, h1, hinner, h2, Finset.sum_range_succ]
      have hsums : (∑ jj ∈ Finset.range n, (n - jj) • A jj)
            + (∑ jj ∈ Finset.range n, A jj)
          = ∑ jj ∈ Finset.range n, (n + 1 - jj) • A jj := by
        rw [← Finset.sum_add_distrib]
        refine Finset.sum_congr rfl ?_
        intro jj hjj
        rw [Finset.mem_range] at hjj
        have : n + 1 - jj = (n - jj) + 1 := by omega
        rw [this, succ_nsmul]
      have hsucc : (n + 1) • ra.2.val = n • ra.2.val + ra.2.val := succ_nsmul _ n
      have hlast : (n + 1 - n) • A n = A n := by
        have : n + 1 - n = 1 := by omega
        rw [this, one_nsmul]
      rw [hlast, hsucc, ← hsums]
      abel
    · rw [hinner, h2, Finset.sum_range_succ, add_assoc]

/-- Reindex the descending level sum `j = M, ..., 1` (written with
`jj = M - j`) into an ascending one. -/
theorem sum_desc_levels (A : ℕ → G) (M : ℕ) :
    (∑ jj ∈ Finset.range M, (M - jj) • A (M - jj))
      = ∑ j ∈ Finset.range M, (j + 1) • A (j + 1) := by
  rw [← Finset.sum_range_reflect (fun j => (j + 1) • A (j + 1)) M]
  refine Finset.sum_congr rfl ?_
  intro jj hjj
  rw [Finset.mem_range] at hjj
  have : M - 1 - jj + 1 = M - jj := by omega
  rw [this]

/-- Collapse the per-level partial sums of Yao's method: summing, over
levels `j + 1 = 1 .. M`, `(j+1) • (sum of slots whose digit is j+1)` gives
the digit-weighted slot sum, provided every digit is at most `M`. -/
theorem sum_level_collapse (tv : ℕ → G) (win : List ℕ) (M L : ℕ)
    (hbound : ∀ i, win.getD i 0 ≤ M) :
    (∑ j ∈ Finset.range M, (j + 1) •
        (∑ i ∈ Finset.range L, if win.getD i 0 = j + 1 then tv i else 0))
      = ∑ i ∈ Finset.range L, win.getD i 0 • tv i := by
  have hstep : ∀ j ∈ Finset.range M, (j + 1) •
        (∑ i ∈ Finset.range L, if win.getD i 0 = j + 1 then tv i else 0)
      = ∑ i ∈ Finset.range L, (if win.getD i 0 = j + 1 then (j + 1) • tv i else 0) := by
    intro j hj
    rw [Finset.smul_sum]
    refine Finset.sum_congr rfl ?_
    intro i hi
    by_cases hc : win.getD i 0 = j + 1
    · rw [if_pos hc, if_pos hc]
    · rw [if_neg hc, if_neg hc, smul_zero]
  rw [Finset.sum_congr rfl hstep, Finset.sum_comm]
  refine Finset.sum_congr rfl ?_
  intro i hi
  cases hwin : win.getD i 0 with
  | zero =>
    rw [zero_smul]
    refine Finset.sum_eq_zero ?_
    intro j hj
    rw [if_neg (by omega)]
  | succ v =>
    have hvM : v < M := by
      have := hbound i
      omega
    rw [Finset.sum_eq_single v]
    · rw [if_pos rfl]
    · intro j hj hne
      rw [if_neg (by omega)]
    · intro habs
      exact absurd (Finset.mem_range.mpr hvM) habs

/-- C1, YAOWI variant. -/
theorem yaowi_correct (w : ℕ) (c : Curve) (p : EbPt G) (k : ℤ) (hw : 0 < w)
    (hord : k.natAbs ≤ eb_curve_get_ord c) :
    (eb_mul_fix_yaowi w
        (fun i => (eb_mul_pre_yaowi w c p).getD i eb_set_infty) k).val
      = refMulZ p.val k := by
  rw [eb_mul_fix_yaowi_eq_evalOf]
  apply evalOf_val_ref
  set m := k.natAbs with hm
  set T : ℕ → EbPt G := fun i => (eb_mul_pre_yaowi w c p).getD i eb_set_infty
    with hT
  set win : List ℕ := bn_rec_win w m with hwin
  set M : ℕ := 2 ^ w - 1 with hM
  have hshape : yaowiWalk w T m
      = ((List.range M).foldl
          (fun ra jj =>
            (eb_add ra.1 ((List.range win.length).foldl
                (fun a i => if win.getD i 0 = M - jj then eb_add a (T i) else a)
                ra.2),
              (List.range win.length).foldl
                (fun a i => if win.getD i 0 = M - jj then eb_add a (T i) else a)
                ra.2))
          (eb_set_infty, eb_set_infty)).1 := rfl
  have houter := (yao_outer_fold
    (fun a jj => (List.range win.length).foldl
      (fun a i => if win.getD i 0 = M - jj then eb_add a (T i) else a) a)
    (fun jj => ∑ i ∈ Finset.range win.length,
      (if win.getD i 0 = M - jj then (T i).val else 0))
    (fun a jj => by
      rw [foldl_eqAdd_val])
    M (eb_set_infty, eb_set_infty)).1
  rw [hshape, houter, eb_set_infty_val, smul_zero, zero_add, zero_add]
  rw [sum_desc_levels
    (fun j => ∑ i ∈ Finset.range win.length,
      (if win.getD i 0 = j then (T i).val else 0)) M]
  have hbound : ∀ i, win.getD i 0 ≤ M := by
    intro i
    by_cases hi : i < win.length
    · rw [hwin]
      unfold bn_rec_win
      rw [getD_range_map _ (by
          have : win.length = CEIL (bn_bits_nat m) w := by
            rw [hwin]; unfold bn_rec_win; rw [List.length_map, List.length_range]
          omega) _]
      have h2 : m / 2 ^ (w * i) % 2 ^ w < 2 ^ w := Nat.mod_lt _ (Nat.pos_pow_of_pos w (by omega))
      omega
    · rw [List.getD_eq_default _ _ (by omega)]
      omega
  rw [sum_level_collapse (fun i => (T i).val) win M win.length hbound]
  have hlen : win.length = CEIL (bn_bits_nat m) w := by
    rw [hwin]; unfold bn_rec_win; rw [List.length_map, List.length_range]
  have hlenle : win.length ≤ CEIL (bn_bits_nat (eb_curve_get_ord c)) w := by
    rw [hlen]
    exact CEIL_mono w (bn_bits_nat_mono hord)
  have hterm : ∀ i ∈ Finset.range win.length,
      win.getD i 0 • (T i).val = (m / 2 ^ (w * i) % 2 ^ w * 2 ^ (w * i)) • p.val := by
    intro i hi
    rw [Finset.mem_range] at hi
    have hTv : (T i).val = 2 ^ (w * i) • p.val := by
      rw [hT]
      exact pre_ladder_getD_val p (fun i2 => w * i2) rfl
        (CEIL (bn_bits_nat (eb_curve_get_ord c)) w) (by omega)
    have hwv : win.getD i 0 = m / 2 ^ (w * i) % 2 ^ w := by
      rw [hwin]
      unfold bn_rec_win
      rw [getD_range_map _ (by omega) _]
    rw [hTv, hwv, smul_smul]
  rw [Finset.sum_congr rfl hterm, ← Finset.sum_smul]
  have hdig : (∑ i ∈ Finset.range win.length, m / 2 ^ (w * i) % 2 ^ w * 2 ^ (w * i)) = m := by
    have hconv : ∀ i ∈ Finset.range win.length,
        m / 2 ^ (w * i) % 2 ^ w * 2 ^ (w * i)
          = m / (2 ^ w) ^ i % 2 ^ w * (2 ^ w) ^ i := by
      intro i hi
      rw [← pow_mul]
    rw [Finset.sum_congr rfl hconv]
    apply sum_digit_eq
    have h1 : bn_bits_nat m ≤ w * win.length := by
      rw [hlen]
      exact le_mul_CEIL (bn_bits_nat m) hw
    have h2 : m < 2 ^ (w * win.length) := bn_bits_nat_le.mp h1
    rw [← pow_mul]
    exact h2
  rw [hdig]

theorem lt_bn_bits {j n : ℕ} : j < bn_bits_nat n ↔ 2 ^ j ≤ n := by
  rw [bn_bits_nat_eq_size]
  exact Nat.lt_size

/-- The MSB-first window-assembly folds of the comb evaluators. -/
theorem msb_fold (P : ℕ → Prop) [DecidablePred P] :
    ∀ (n : ℕ) (acc : ℕ),
      (List.range n).foldl (fun w jj => if P jj then w * 2 + 1 else w * 2) acc
        = acc * 2 ^ n + ∑ jj ∈ Finset.range n, (if P jj then 2 ^ (n - 1 - jj) else 0) := by
  intro n
  induction n with
  | zero => intro acc; simp
  | succ n ih =>
    intro acc
    rw [List.range_succ, List.foldl_append, List.foldl_cons, List.foldl_nil, ih acc]
    have hdouble : (acc * 2 ^ n + ∑ jj ∈ Finset.range n,
          (if P jj then 2 ^ (n - 1 - jj) else 0)) * 2
        = acc * 2 ^ (n + 1) + ∑ jj ∈ Finset.range n,
            (if P jj then 2 ^ (n - jj) else 0) := by
      rw [Nat.add_mul, Finset.sum_mul]
      congr 1
      · rw [Nat.mul_assoc, ← pow_succ]
      · refine Finset.sum_congr rfl ?_
        intro jj hjj
        rw [Finset.mem_range] at hjj
        by_cases hc : P jj
        · rw [if_pos hc, if_pos hc, ← pow_succ]
          congr 1
          omega
        · rw [if_neg hc, if_neg hc, Nat.zero_mul]
    have hlastsum : (∑ jj ∈ Finset.range (n + 1), (if P jj then 2 ^ (n - jj) else 0))
        = (∑ jj ∈ Finset.range n, (if P jj then 2 ^ (n - jj) else 0))
          + (if P n then 1 else 0) := by
      rw [Finset.sum_range_succ, Nat.sub_self, pow_zero]
    simp only [Nat.add_sub_cancel]
    by_cases hc : P n
    · rw [if_pos hc, hdouble, hlastsum, if_pos hc]
      omega
    · rw [if_neg hc, hdouble, hlastsum, if_neg hc]
      omega

theorem sum_two_pow_range : ∀ n : ℕ, (∑ j ∈ Finset.range n, 2 ^ j) = 2 ^ n - 1 := by
  intro n
  induction n with
  | zero => simp
  | succ n ih =>
    rw [Finset.sum_range_succ, ih, pow_succ]
    have : 1 ≤ 2 ^ n := Nat.one_le_two_pow
    omega

theorem sum_cond_pow_lt (c : ℕ → Bool) (D : ℕ) :
    (∑ j ∈ Finset.range D, (if c j then 2 ^ j else 0)) < 2 ^ D := by
  have hle : (∑ j ∈ Finset.range D, (if c j then 2 ^ j else 0))
      ≤ ∑ j ∈ Finset.range D, 2 ^ j := by
    refine Finset.sum_le_sum ?_
    intro j hj
    by_cases hc : c j
    · rw [if_pos hc]
    · rw [if_neg hc]
      exact Nat.zero_le _
  rw [sum_two_pow_range] at hle
  have : 1 ≤ 2 ^ D := Nat.one_le_two_pow
  omega

/-- Bit `j'` of a sum of distinct powers of two with Boolean coefficients. -/
theorem winsum_testBit (c : ℕ → Bool) (D : ℕ) {j2 : ℕ} (hj : j2 < D) :
    bn_get_bit_nat (∑ j ∈ Finset.range D, (if c j then 2 ^ j else 0)) j2 = c j2 := by
  have hsplit : (∑ j ∈ Finset.range D, (if c j then 2 ^ j else 0))
      = (∑ j ∈ Finset.range j2, (if c j then 2 ^ j else 0))
        + ((if c j2 then 1 else 0)
            + 2 * (∑ u ∈ Finset.range (D - j2 - 1), (if c (j2 + 1 + u) then 2 ^ u else 0)))
          * 2 ^ j2 := by
    have hDD : j2 + (D - j2) = D := by omega
    have h1 := Finset.sum_range_add (fun j => if c j = true then 2 ^ j else 0)
      j2 (D - j2)
    rw [hDD] at h1
    have h2 : D - j2 = (D - j2 - 1) + 1 := by omega
    have h3 := Finset.sum_range_succ'
      (fun u => if c (j2 + u) = true then 2 ^ (j2 + u) else 0) (D - j2 - 1)
    rw [← h2] at h3
    have h4 : ∀ u ∈ Finset.range (D - j2 - 1),
        (if c (j2 + (u + 1)) = true then 2 ^ (j2 + (u + 1)) else 0)
          = (if c (j2 + 1 + u) = true then 2 ^ u else 0) * (2 * 2 ^ j2) := by
      intro u hu
      have he : j2 + (u + 1) = j2 + 1 + u := by omega
      rw [he]
      by_cases hc : c (j2 + 1 + u) = true
      · rw [if_pos hc, if_pos hc]
        rw [show (2 : ℕ) * 2 ^ j2 = 2 ^ (j2 + 1) from by rw [pow_succ]; ring,
          ← pow_add]
        congr 1
        omega
      · rw [if_neg hc, if_neg hc, Nat.zero_mul]
    have h5 : (if c (j2 + 0) = true then 2 ^ (j2 + 0) else 0)
        = (if c j2 = true then 1 else 0) * 2 ^ j2 := by
      rw [Nat.add_zero]
      by_cases hc : c j2 = true
      · rw [if_pos hc, if_pos hc, Nat.one_mul]
      · rw [if_neg hc, if_neg hc, Nat.zero_mul]
    rw [h1, h3, Finset.sum_congr rfl h4, ← Finset.sum_mul, h5]
    ring
  have hlo : (∑ j ∈ Finset.range j2, (if c j then 2 ^ j else 0)) < 2 ^ j2 :=
    sum_cond_pow_lt c j2
  unfold bn_get_bit_nat
  rw [hsplit]
  rw [Nat.add_mul_div_right _ _ (Nat.pos_pow_of_pos j2 (by omega))]
  rw [Nat.div_eq_of_lt hlo, Nat.zero_add]
  by_cases hc : c j2
  · rw [if_pos hc]
    rw [Nat.add_mul_mod_self_left 1 2]
    simp [hc]
  · rw [if_neg hc]
    rw [Nat.zero_add, Nat.mul_mod_right]
    simp
    simpa using hc

theorem combsWin_eq (D l m i : ℕ) :
    combsWin D l m i
      = ∑ j ∈ Finset.range D, (if bn_get_bit_nat m (i + j * l) then 2 ^ j else 0) := by
  unfold combsWin
  refine Eq.trans (msb_fold
    (fun jj => i + (D - 1 - jj) * l < bn_bits_nat m ∧
      bn_get_bit_nat m (i + (D - 1 - jj) * l) = true) D 0) ?_
  rw [Nat.zero_mul, Nat.zero_add]
  rw [← Finset.sum_range_reflect
    (fun j => if bn_get_bit_nat m (i + j * l) then 2 ^ j else 0) D]
  refine Finset.sum_congr rfl ?_
  intro jj hjj
  by_cases hb : bn_get_bit_nat m (i + (D - 1 - jj) * l) = true
  · rw [if_pos ⟨lt_bits_of_bit hb, hb⟩, if_pos hb]
  · rw [if_neg (by
      intro hcon
      exact hb hcon.2), if_neg hb]

theorem combsWin_lt (D l m i : ℕ) : combsWin D l m i < 2 ^ D := by
  rw [combsWin_eq]
  exact sum_cond_pow_lt (fun j => bn_get_bit_nat m (i + j * l)) D

theorem combsWin_testBit (D l m i : ℕ) {j2 : ℕ} (hj : j2 < D) :
    bn_get_bit_nat (combsWin D l m i) j2 = bn_get_bit_nat m (i + j2 * l) := by
  rw [combsWin_eq]
  exact winsum_testBit (fun j => bn_get_bit_nat m (i + j * l)) D hj

theorem combVal_zero (s : ℕ) (v : G) : combVal s v 0 = 0 := by
  unfold combVal
  rw [show bn_bits_nat 0 = 0 from rfl]
  simp

theorem combVal_extend (s : ℕ) (v : G) {idx D : ℕ} (hidx : idx < 2 ^ D) :
    combVal s v idx
      = ∑ j ∈ Finset.range D, (if bn_get_bit_nat idx j then 2 ^ (j * s) • v else 0) := by
  unfold combVal
  refine Finset.sum_subset ?_ ?_
  · exact Finset.range_subset.mpr (bn_bits_nat_le.mpr hidx)
  · intro j _ hj
    rw [Finset.mem_range, Nat.not_lt] at hj
    rw [bn_get_bit_nat_eq_false hj]
    simp

theorem bit_pow (j j2 : ℕ) : bn_get_bit_nat (2 ^ j) j2 = decide (j2 = j) := by
  unfold bn_get_bit_nat
  rcases lt_trichotomy j2 j with h | h | h
  · have hdiv : 2 ^ j / 2 ^ j2 = 2 ^ (j - j2) :=
      Nat.pow_div (by omega) (by omega)
    rw [hdiv]
    have hd : j - j2 = (j - j2 - 1) + 1 := by omega
    rw [hd, pow_succ, Nat.mul_mod_left]
    have hne : j2 ≠ j := by omega
    simp [hne]
  · subst h
    rw [Nat.div_self (Nat.pos_pow_of_pos j2 (by omega))]
    simp
  · have hlt : 2 ^ j < 2 ^ j2 := Nat.pow_lt_pow_right (by omega) h
    rw [Nat.div_eq_of_lt hlt]
    have hne : j2 ≠ j := by omega
    simp [hne]

theorem combVal_pow (s : ℕ) (v : G) (j : ℕ) : combVal s v (2 ^ j) = 2 ^ (j * s) • v := by
  rw [combVal_extend s v (show 2 ^ j < 2 ^ (j + 1) from by
    rw [pow_succ]
    have : 0 < 2 ^ j := Nat.pos_pow_of_pos j (by omega)
    omega)]
  rw [Finset.sum_eq_single j]
  · rw [bit_pow, if_pos (by simp)]
  · intro j2 hj2 hne
    rw [bit_pow, if_neg (by simp [hne])]
  · intro habs
    exact absurd (Finset.mem_range.mpr (by omega)) habs

theorem combVal_one (s : ℕ) (v : G) : combVal s v 1 = v := by
  have h := combVal_pow s v 0
  rw [pow_zero, Nat.zero_mul, pow_zero, one_nsmul] at h
  exact h

theorem bit_add_pow_lo {i j j2 : ℕ} (hj2 : j2 < j) (hi : i < 2 ^ j) :
    bn_get_bit_nat (2 ^ j + i) j2 = bn_get_bit_nat i j2 := by
  unfold bn_get_bit_nat
  have hsplit : 2 ^ j + i = i + 2 ^ (j - j2) * 2 ^ j2 := by
    rw [← pow_add]
    have : j - j2 + j2 = j := by omega
    rw [this]
    omega
  rw [hsplit, Nat.add_mul_div_right _ _ (Nat.pos_pow_of_pos j2 (by omega))]
  have hd : j - j2 = (j - j2 - 1) + 1 := by omega
  rw [hd, pow_succ, ← Nat.add_mul_mod_self_left (i / 2 ^ j2) 2 (2 ^ (j - j2 - 1))]
  congr 2
  ring

theorem bit_add_pow_hi {i j : ℕ} (hi : i < 2 ^ j) :
    bn_get_bit_nat (2 ^ j + i) j = true := by
  unfold bn_get_bit_nat
  have hsplit : 2 ^ j + i = i + 1 * 2 ^ j := by omega
  rw [hsplit, Nat.add_mul_div_right _ _ (Nat.pos_pow_of_pos j (by omega)),
    Nat.div_eq_of_lt hi]
  simp

theorem combVal_add_pow (s : ℕ) (v : G) {i j : ℕ} (hi : i < 2 ^ j) :
    combVal s v (2 ^ j + i) = combVal s v i + 2 ^ (j * s) • v := by
  have hlt : 2 ^ j + i < 2 ^ (j + 1) := by
    rw [pow_succ]
    omega
  rw [combVal_extend s v hlt, Finset.sum_range_succ, if_pos (bit_add_pow_hi hi)]
  congr 1
  rw [combVal_extend s v hi]
  refine Finset.sum_congr rfl ?_
  intro j2 hj2
  rw [Finset.mem_range] at hj2
  rw [bit_add_pow_lo hj2 hi]

theorem combInnerStep_at_ne (flip : Bool) (j : ℕ) (u : ℕ → EbPt G) (ii q : ℕ)
    (h : q ≠ 2 ^ j + (ii + 1)) : combInnerStep flip j u ii q = u q := by
  unfold combInnerStep
  exact Function.update_noteq h _ _

theorem combInnerStep_at_eq (flip : Bool) (j : ℕ) (u : ℕ → EbPt G) (ii : ℕ) :
    combInnerStep flip j u ii (2 ^ j + (ii + 1))
      = (if flip then eb_add (u (2 ^ j)) (u (ii + 1))
          else eb_add (u (ii + 1)) (u (2 ^ j))) := by
  unfold combInnerStep
  exact Function.update_same _ _ _

theorem combInner_at (flip : Bool) (j : ℕ) (t1 : ℕ → EbPt G) :
    ∀ n, n ≤ 2 ^ j - 1 → ∀ ii, ii < n →
      (((List.range n).foldl (combInnerStep flip j) t1) (2 ^ j + (ii + 1))).val
        = (t1 (ii + 1)).val + (t1 (2 ^ j)).val := by
  intro n
  induction n with
  | zero => intro _ ii hii; omega
  | succ n ih =>
    intro hn ii hii
    rw [List.range_succ, List.foldl_append, List.foldl_cons, List.foldl_nil]
    by_cases hcase : ii < n
    · rw [combInnerStep_at_ne flip j _ n _ (by omega)]
      exact ih (by omega) ii hcase
    · have hii2 : ii = n := by omega
      subst hii2
      rw [combInnerStep_at_eq flip j _ ii]
      have hpres : ∀ q, q < 2 ^ j + 1 →
          (((List.range ii).foldl (combInnerStep flip j) t1)) q = t1 q := by
        intro q hq
        exact foldl_update_preserve (combInnerStep flip j) q (List.range ii)
          (fun g b _ => combInnerStep_preserve flip j q hq g b) t1
      rw [hpres (ii + 1) (by omega), hpres (2 ^ j) (by omega)]
      by_cases hflip : flip = true
      · rw [if_pos hflip, eb_add_val, add_comm]
      · rw [if_neg hflip, eb_add_val]

theorem combLadder_char_aux (s : ℕ) (flip : Bool) (p : EbPt G) (t0 : ℕ → EbPt G) :
    ∀ J, ∀ idx, 1 ≤ idx → idx < 2 ^ (J + 1) →
      (((List.range J).foldl (combOuterStep s flip)
          (Function.update (Function.update t0 0 eb_set_infty) 1 p)) idx).val
        = combVal s p.val idx := by
  intro J
  induction J with
  | zero =>
    intro idx h1 h2
    have h3 : (2 : ℕ) ^ (0 + 1) = 2 := by norm_num
    have h4 : idx = 1 := by omega
    subst h4
    show (Function.update (Function.update t0 0 eb_set_infty) 1 p 1).val
      = combVal s p.val 1
    rw [Function.update_same, combVal_one]
  | succ J ih =>
    intro idx h1 h2
    rw [List.range_succ, List.foldl_append, List.foldl_cons, List.foldl_nil]
    have hstep : combOuterStep s flip
        ((List.range J).foldl (combOuterStep s flip)
          (Function.update (Function.update t0 0 eb_set_infty) 1 p)) J
        = (List.range (2 ^ (J + 1) - 1)).foldl (combInnerStep flip (J + 1))
            (Function.update
              ((List.range J).foldl (combOuterStep s flip)
                (Function.update (Function.update t0 0 eb_set_infty) 1 p))
              (2 ^ (J + 1))
              (dblIter
                (((List.range J).foldl (combOuterStep s flip)
                  (Function.update (Function.update t0 0 eb_set_infty) 1 p))
                  (2 ^ (J + 1 - 1))) s)) := rfl
    rw [hstep]
    set F := (List.range J).foldl (combOuterStep s flip)
      (Function.update (Function.update t0 0 eb_set_infty) 1 p) with hF
    set t1 := Function.update F (2 ^ (J + 1)) (dblIter (F (2 ^ (J + 1 - 1))) s)
      with ht1
    have hpow : 0 < 2 ^ (J + 1) := Nat.pos_pow_of_pos _ (by omega)
    have ht1top : (t1 (2 ^ (J + 1))).val = combVal s p.val (2 ^ (J + 1)) := by
      rw [ht1, Function.update_same, dblIter_val]
      have hJ1 : J + 1 - 1 = J := by omega
      rw [hJ1, ih (2 ^ J) Nat.one_le_two_pow (by
        have h5 : (2 : ℕ) ^ (J + 1) = 2 ^ J * 2 := pow_succ 2 J
        have h6 : 0 < 2 ^ J := Nat.pos_pow_of_pos _ (by omega)
        omega)]
      rw [combVal_pow s p.val J, combVal_pow s p.val (J + 1), smul_smul, ← pow_add]
      congr 1
      ring
    have ht1lo : ∀ q, 1 ≤ q → q < 2 ^ (J + 1) →
        (t1 q).val = combVal s p.val q := by
      intro q hq1 hq2
      rw [ht1, Function.update_noteq (by omega) _ _]
      exact ih q hq1 hq2
    have hpres : ∀ q, q < 2 ^ (J + 1) + 1 →
        ((List.range (2 ^ (J + 1) - 1)).foldl (combInnerStep flip (J + 1)) t1) q
          = t1 q := by
      intro q hq
      exact foldl_update_preserve (combInnerStep flip (J + 1)) q _
        (fun g b _ => combInnerStep_preserve flip (J + 1) q hq g b) t1
    by_cases hsmall : idx ≤ 2 ^ (J + 1)
    · rw [hpres idx (by omega)]
      by_cases htop : idx = 2 ^ (J + 1)
      · subst htop
        exact ht1top
      · exact ht1lo idx h1 (by omega)
    · have hbig : 2 ^ (J + 1) < idx := by omega
      have hidx2 : idx < 2 ^ (J + 1) + 2 ^ (J + 1) := by
        have : (2 : ℕ) ^ (J + 1 + 1) = 2 ^ (J + 1) + 2 ^ (J + 1) := by
          rw [pow_succ]
          omega
        omega
      set i := idx - 2 ^ (J + 1) with hi
      have hidx3 : idx = 2 ^ (J + 1) + ((i - 1) + 1) := by omega
      rw [hidx3, combInner_at flip (J + 1) t1 (2 ^ (J + 1) - 1) le_rfl (i - 1)
        (by omega)]
      have hieq : i - 1 + 1 = i := by omega
      rw [hieq, ht1lo i (by omega) (by omega), ht1top,
        combVal_pow s p.val (J + 1),
        ← combVal_add_pow s p.val (show i < 2 ^ (J + 1) from by omega)]

theorem combLadder_char (D s : ℕ) (flip : Bool) (p : EbPt G) (t0 : ℕ → EbPt G) :
    ∀ idx, 1 ≤ idx → idx < 2 ^ D →
      (combLadder D s flip p t0 idx).val = combVal s p.val idx := by
  intro idx h1 h2
  cases D with
  | zero =>
    rw [pow_zero] at h2
    omega
  | succ J =>
    unfold combLadder
    have hJ : J + 1 - 1 = J := by omega
    rw [hJ]
    exact combLadder_char_aux s flip p t0 J idx h1 h2

theorem eb_mul_pre_combs_val (D : ℕ) (c : Curve) (p : EbPt G) (t0 : ℕ → EbPt G) :
    ∀ wdx, wdx < 2 ^ D →
      (eb_mul_pre_combs D c p t0 wdx).val
        = combVal (CEIL (bn_bits_nat (eb_curve_get_ord c)) D) p.val wdx := by
  intro wdx h
  show (if 2 ≤ wdx ∧ wdx < 2 ^ D then
      eb_norm (combLadder D (CEIL (bn_bits_nat (eb_curve_get_ord c)) D) false p t0 wdx)
    else combLadder D (CEIL (bn_bits_nat (eb_curve_get_ord c)) D) false p t0 wdx).val
      = combVal (CEIL (bn_bits_nat (eb_curve_get_ord c)) D) p.val wdx
  by_cases h2 : 2 ≤ wdx ∧ wdx < 2 ^ D
  · rw [if_pos h2, eb_norm_val]
    exact combLadder_char D _ false p t0 wdx (by omega) h
  · rw [if_neg h2]
    have h3 : wdx = 0 ∨ wdx = 1 := by omega
    rcases h3 with h3 | h3 <;> subst h3
    · rw [combLadder_zero, combVal_zero]
      rfl
    · rw [combLadder_one, combVal_one]

theorem sum_block (f : ℕ → G) (l : ℕ) :
    ∀ D, (∑ j ∈ Finset.range D, ∑ i ∈ Finset.range l, f (j * l + i))
      = ∑ q ∈ Finset.range (D * l), f q := by
  intro D
  induction D with
  | zero => simp
  | succ D ih =>
    rw [Finset.sum_range_succ, ih,
      show (D + 1) * l = D * l + l from by ring, Finset.sum_range_add]

theorem combsWalk_val (D : ℕ) (c : Curve) (t : ℕ → EbPt G) (m : ℕ) (v : G)
    (htab : ∀ wdx, wdx < 2 ^ D →
      (t wdx).val = combVal (CEIL (bn_bits_nat (eb_curve_get_ord c)) D) v wdx)
    (hD : 0 < D)
    (hbits : bn_bits_nat m ≤ bn_bits_nat (eb_curve_get_ord c)) :
    (combsWalk D c t m).val = m • v := by
  set l := CEIL (bn_bits_nat (eb_curve_get_ord c)) D with hl
  have hl1 : 0 < l := CEIL_pos _ _
  have hmain : (combsWalk D c t m).val
      = (fun y : G => y + y)^[l - 1] (eb_copy (t (combsWin D l m (l - 1)))).val
        + ∑ i ∈ Finset.range (l - 1), (fun y : G => y + y)^[i]
            (if 0 < combsWin D l m i then (t (combsWin D l m i)).val else 0) :=
    rev_range_fold_val (fun y : G => y + y) dbl_endo_additive
      (fun r i =>
        let r2 := eb_dbl r
        let w := combsWin D l m i
        if 0 < w then eb_add r2 (t w) else r2)
      (fun i => if 0 < combsWin D l m i then (t (combsWin D l m i)).val else 0)
      (fun r i => by
        dsimp only
        by_cases hc : 0 < combsWin D l m i
        · rw [if_pos hc, if_pos hc]
          rfl
        · rw [if_neg hc, if_neg hc, add_zero]
          rfl)
      (l - 1) (eb_copy (t (combsWin D l m (l - 1))))
  rw [hmain, eb_copy_eq, dbl_endo_iterate]
  have hf : ∀ i, (if 0 < combsWin D l m i then (t (combsWin D l m i)).val else 0)
      = combVal l v (combsWin D l m i) := by
    intro i
    by_cases hc : 0 < combsWin D l m i
    · rw [if_pos hc, htab _ (combsWin_lt D l m i)]
    · rw [if_neg hc]
      have h0 : combsWin D l m i = 0 := by omega
      rw [h0, combVal_zero]
  have hiter : ∀ i ∈ Finset.range (l - 1), (fun y : G => y + y)^[i]
        (if 0 < combsWin D l m i then (t (combsWin D l m i)).val else 0)
      = 2 ^ i • combVal l v (combsWin D l m i) := by
    intro i _
    rw [dbl_endo_iterate, hf i]
  rw [Finset.sum_congr rfl hiter, htab _ (combsWin_lt D l m (l - 1))]
  have hmerge := Finset.sum_range_succ
    (fun i => 2 ^ i • combVal l v (combsWin D l m i)) (l - 1)
  rw [show l - 1 + 1 = l from by omega] at hmerge
  rw [add_comm (2 ^ (l - 1) • combVal l v (combsWin D l m (l - 1)))
      (∑ i ∈ Finset.range (l - 1), 2 ^ i • combVal l v (combsWin D l m i)),
    ← hmerge]
  have hexp : ∀ i ∈ Finset.range l, 2 ^ i • combVal l v (combsWin D l m i)
      = ∑ j ∈ Finset.range D,
          (if bn_get_bit_nat m (i + j * l) then 2 ^ (i + j * l) • v else 0) := by
    intro i _
    rw [combVal_extend l v (combsWin_lt D l m i), Finset.smul_sum]
    refine Finset.sum_congr rfl ?_
    intro j hj
    rw [Finset.mem_range] at hj
    rw [combsWin_testBit D l m i hj]
    by_cases hb : bn_get_bit_nat m (i + j * l)
    · rw [if_pos hb, if_pos hb, smul_smul, ← pow_add]
    · rw [if_neg hb, if_neg hb, smul_zero]
  rw [Finset.sum_congr rfl hexp, Finset.sum_comm]
  have hpos : ∀ j ∈ Finset.range D, ∀ i ∈ Finset.range l,
      (if bn_get_bit_nat m (i + j * l) then 2 ^ (i + j * l) • v else 0)
        = (if bn_get_bit_nat m (j * l + i) then 2 ^ (j * l + i) • v else 0) := by
    intro j _ i _
    rw [Nat.add_comm i (j * l)]
  rw [Finset.sum_congr rfl (fun j hj => Finset.sum_congr rfl (hpos j hj))]
  rw [sum_block (fun q => if bn_get_bit_nat m q then 2 ^ q • v else 0) l D]
  have hconv : ∀ q ∈ Finset.range (D * l),
      (if bn_get_bit_nat m q then 2 ^ q • v else 0)
        = (if bn_get_bit_nat m q then 2 ^ q else 0) • v := by
    intro q _
    by_cases hb : bn_get_bit_nat m q
    · rw [if_pos hb, if_pos hb]
    · rw [if_neg hb, if_neg hb, zero_smul]
  rw [Finset.sum_congr rfl hconv, ← Finset.sum_smul,
    sum_bit_eq m (le_trans hbits (le_mul_CEIL (bn_bits_nat (eb_curve_get_ord c)) hD))]

/-- C1, COMBS variant. -/
theorem combs_correct (D : ℕ) (c : Curve) (p : EbPt G) (t0 : ℕ → EbPt G)
    (k : ℤ) (hD : 0 < D) (hord : k.natAbs ≤ eb_curve_get_ord c) :
    (eb_mul_fix_combs D c (eb_mul_pre_combs D c p t0) k).val = refMulZ p.val k := by
  rw [eb_mul_fix_combs_eq_evalOf]
  apply evalOf_val_ref
  exact combsWalk_val D c _ k.natAbs p.val (eb_mul_pre_combs_val D c p t0) hD
    (bn_bits_nat_mono hord)

theorem combdWin0_eq (D d m i : ℕ) :
    combdWin0 D d m i
      = ∑ j ∈ Finset.range D, (if bn_get_bit_nat m (i + j * d) then 2 ^ j else 0) := by
  unfold combdWin0
  refine Eq.trans (msb_fold
    (fun jj => i + (D - 1 - jj) * d < bn_bits_nat m ∧
      bn_get_bit_nat m (i + (D - 1 - jj) * d) = true) D 0) ?_
  rw [Nat.zero_mul, Nat.zero_add]
  rw [← Finset.sum_range_reflect
    (fun j => if bn_get_bit_nat m (i + j * d) then 2 ^ j else 0) D]
  refine Finset.sum_congr rfl ?_
  intro jj hjj
  by_cases hb : bn_get_bit_nat m (i + (D - 1 - jj) * d) = true
  · rw [if_pos ⟨lt_bits_of_bit hb, hb⟩, if_pos hb]
  · rw [if_neg (by
      intro hcon
      exact hb hcon.2), if_neg hb]

theorem combdWin0_lt (D d m i : ℕ) : combdWin0 D d m i < 2 ^ D := by
  rw [combdWin0_eq]
  exact sum_cond_pow_lt (fun j => bn_get_bit_nat m (i + j * d)) D

theorem combdWin0_testBit (D d m i : ℕ) {j2 : ℕ} (hj : j2 < D) :
    bn_get_bit_nat (combdWin0 D d m i) j2 = bn_get_bit_nat m (i + j2 * d) := by
  rw [combdWin0_eq]
  exact winsum_testBit (fun j => bn_get_bit_nat m (i + j * d)) D hj

theorem combdWin1_eq (D d e m i : ℕ) :
    combdWin1 D d e m i
      = (if i + e < d then
          ∑ j ∈ Finset.range D, (if bn_get_bit_nat m (i + e + j * d) then 2 ^ j else 0)
        else 0) := by
  unfold combdWin1
  refine Eq.trans (msb_fold
    (fun jj => i + e < d ∧ i + e + (D - 1 - jj) * d < bn_bits_nat m ∧
      bn_get_bit_nat m (i + e + (D - 1 - jj) * d) = true) D 0) ?_
  rw [Nat.zero_mul, Nat.zero_add]
  by_cases hed : i + e < d
  · rw [if_pos hed]
    rw [← Finset.sum_range_reflect
      (fun j => if bn_get_bit_nat m (i + e + j * d) then 2 ^ j else 0) D]
    refine Finset.sum_congr rfl ?_
    intro jj hjj
    by_cases hb : bn_get_bit_nat m (i + e + (D - 1 - jj) * d) = true
    · rw [if_pos ⟨hed, lt_bits_of_bit hb, hb⟩, if_pos hb]
    · rw [if_neg (by
        intro hcon
        exact hb hcon.2.2), if_neg hb]
  · rw [if_neg hed]
    refine Finset.sum_eq_zero ?_
    intro jj _
    rw [if_neg (by
      intro hcon
      exact hed hcon.1)]

theorem combdWin1_lt (D d e m i : ℕ) : combdWin1 D d e m i < 2 ^ D := by
  rw [combdWin1_eq]
  by_cases hed : i + e < d
  · rw [if_pos hed]
    exact sum_cond_pow_lt (fun j => bn_get_bit_nat m (i + e + j * d)) D
  · rw [if_neg hed]
    exact Nat.pos_pow_of_pos D (by omega)

theorem combdPhase2Step_at_ne (D e : ℕ) (u : ℕ → EbPt G) (jj q : ℕ)
    (h : q ≠ 2 ^ D + (jj + 1)) : combdPhase2Step D e u jj q = u q := by
  unfold combdPhase2Step
  exact Function.update_noteq h _ _

theorem combdPhase2Step_at_eq (D e : ℕ) (u : ℕ → EbPt G) (jj : ℕ) :
    combdPhase2Step D e u jj (2 ^ D + (jj + 1)) = dblIter (u (jj + 1)) e := by
  unfold combdPhase2Step
  exact Function.update_same _ _ _

theorem combdPhase2_at (D e : ℕ) (base : ℕ → EbPt G) :
    ∀ n, n ≤ 2 ^ D - 1 → ∀ jj, jj < n →
      (((List.range n).foldl (combdPhase2Step D e) base) (2 ^ D + (jj + 1)))
        = dblIter (base (jj + 1)) e := by
  intro n
  induction n with
  | zero => intro _ jj hjj; omega
  | succ n ih =>
    intro hn jj hjj
    rw [List.range_succ, List.foldl_append, List.foldl_cons, List.foldl_nil]
    by_cases hcase : jj < n
    · rw [combdPhase2Step_at_ne D e _ n _ (by omega)]
      exact ih (by omega) jj hcase
    · have hjj2 : jj = n := by omega
      subst hjj2
      rw [combdPhase2Step_at_eq D e _ jj]
      rw [foldl_update_preserve (combdPhase2Step D e) (jj + 1) _
        (fun g b _ => combdPhase2Step_preserve D e (jj + 1) (by omega) g b) base]

theorem eb_mul_pre_combd_lo (D : ℕ) (c : Curve) (p : EbPt G) (t0 : ℕ → EbPt G)
    (hD : 0 < D) :
    ∀ w2, w2 < 2 ^ D →
      (eb_mul_pre_combd D c p t0 w2).val = combVal (combdD D c) p.val w2 := by
  intro w2 hw
  have h2D : 2 ≤ 2 ^ D := two_le_two_pow hD
  show (if (2 ≤ w2 ∧ w2 < 2 ^ D) ∨ (2 ^ D + 1 ≤ w2 ∧ w2 < 2 ^ D + 2 ^ D) then
      eb_norm ((List.range (2 ^ D - 1)).foldl (combdPhase2Step D (combdE D c))
        (Function.update (combLadder D (combdD D c) true p t0) (2 ^ D)
          eb_set_infty) w2)
    else (List.range (2 ^ D - 1)).foldl (combdPhase2Step D (combdE D c))
        (Function.update (combLadder D (combdD D c) true p t0) (2 ^ D)
          eb_set_infty) w2).val
    = combVal (combdD D c) p.val w2
  have hpres : ((List.range (2 ^ D - 1)).foldl (combdPhase2Step D (combdE D c))
      (Function.update (combLadder D (combdD D c) true p t0) (2 ^ D)
        eb_set_infty)) w2
      = Function.update (combLadder D (combdD D c) true p t0) (2 ^ D)
          eb_set_infty w2 :=
    foldl_update_preserve (combdPhase2Step D (combdE D c)) w2 _
      (fun g b _ => combdPhase2Step_preserve D (combdE D c) w2 (by omega) g b) _
  by_cases hcase : (2 ≤ w2 ∧ w2 < 2 ^ D) ∨ (2 ^ D + 1 ≤ w2 ∧ w2 < 2 ^ D + 2 ^ D)
  · rw [if_pos hcase, eb_norm_val, hpres, Function.update_noteq (by omega) _ _]
    exact combLadder_char D (combdD D c) true p t0 w2 (by omega) hw
  · rw [if_neg hcase]
    have h3 : w2 = 0 ∨ w2 = 1 := by omega
    rcases h3 with h3 | h3 <;> subst h3
    · rw [hpres, Function.update_noteq (by omega) _ _, combLadder_zero, combVal_zero]
      rfl
    · rw [hpres, Function.update_noteq (by omega) _ _, combLadder_one, combVal_one]

theorem eb_mul_pre_combd_hi (D : ℕ) (c : Curve) (p : EbPt G) (t0 : ℕ → EbPt G)
    (hD : 0 < D) :
    ∀ w2, w2 < 2 ^ D →
      (eb_mul_pre_combd D c p t0 (2 ^ D + w2)).val
        = 2 ^ combdE D c • combVal (combdD D c) p.val w2 := by
  intro w2 hw
  have h2D : 2 ≤ 2 ^ D := two_le_two_pow hD
  show (if (2 ≤ 2 ^ D + w2 ∧ 2 ^ D + w2 < 2 ^ D) ∨
      (2 ^ D + 1 ≤ 2 ^ D + w2 ∧ 2 ^ D + w2 < 2 ^ D + 2 ^ D) then
      eb_norm ((List.range (2 ^ D - 1)).foldl (combdPhase2Step D (combdE D c))
        (Function.update (combLadder D (combdD D c) true p t0) (2 ^ D)
          eb_set_infty) (2 ^ D + w2))
    else (List.range (2 ^ D - 1)).foldl (combdPhase2Step D (combdE D c))
        (Function.update (combLadder D (combdD D c) true p t0) (2 ^ D)
          eb_set_infty) (2 ^ D + w2)).val
    = 2 ^ combdE D c • combVal (combdD D c) p.val w2
  cases Nat.eq_zero_or_pos w2 with
  | inl h0 =>
    subst h0
    rw [if_neg (by omega)]
    rw [show (2 : ℕ) ^ D + 0 = 2 ^ D from by omega]
    rw [foldl_update_preserve (combdPhase2Step D (combdE D c)) (2 ^ D) _
      (fun g b _ => combdPhase2Step_preserve D (combdE D c) (2 ^ D) (by omega) g b) _]
    rw [Function.update_same, combVal_zero, smul_zero]
    rfl
  | inr hpos =>
    rw [if_pos (Or.inr ⟨by omega, by omega⟩), eb_norm_val]
    rw [show (2 : ℕ) ^ D + w2 = 2 ^ D + ((w2 - 1) + 1) from by omega]
    rw [combdPhase2_at D (combdE D c) _ (2 ^ D - 1) le_rfl (w2 - 1) (by omega)]
    rw [show w2 - 1 + 1 = w2 from by omega]
    rw [dblIter_val, Function.update_noteq (by omega) _ _]
    rw [combLadder_char D (combdD D c) true p t0 w2 (by omega) hw]

theorem combdE_bounds (D : ℕ) (c : Curve) :
    combdE D c ≤ combdD D c ∧ combdD D c ≤ 2 * combdE D c := by
  have hd : 0 < combdD D c := CEIL_pos _ _
  unfold combdE
  by_cases hpar : combdD D c % 2 = 0
  · rw [if_pos hpar]
    omega
  · rw [if_neg hpar]
    omega

theorem combdWalk_val (D : ℕ) (c : Curve) (t : ℕ → EbPt G) (m : ℕ) (v : G)
    (htlo : ∀ w2, w2 < 2 ^ D → (t w2).val = combVal (combdD D c) v w2)
    (hthi : ∀ w2, w2 < 2 ^ D →
      (t (2 ^ D + w2)).val = 2 ^ combdE D c • combVal (combdD D c) v w2)
    (hD : 0 < D)
    (hbits : bn_bits_nat m ≤ bn_bits_nat (eb_curve_get_ord c)) :
    (combdWalk D c t m).val = m • v := by
  set d := combdD D c with hd
  set e := combdE D c with he
  have hd1 : 0 < d := CEIL_pos _ _
  have hed : e ≤ d := (combdE_bounds D c).1
  have hde : d ≤ 2 * e := (combdE_bounds D c).2
  have hmain : (combdWalk D c t m).val
      = (fun y : G => y + y)^[e] (eb_set_infty : EbPt G).val
        + ∑ i ∈ Finset.range e, (fun y : G => y + y)^[i]
            ((t (combdWin0 D d m i)).val + (t (2 ^ D + combdWin1 D d e m i)).val) :=
    rev_range_fold_val (fun y : G => y + y) dbl_endo_additive
      (fun r i =>
        let r2 := eb_dbl r
        let w0 := combdWin0 D d m i
        let w1 := combdWin1 D d e m i
        eb_add (eb_add r2 (t w0)) (t (2 ^ D + w1)))
      (fun i => (t (combdWin0 D d m i)).val + (t (2 ^ D + combdWin1 D d e m i)).val)
      (fun r i => by
        dsimp only
        rw [eb_add_val, eb_add_val, eb_dbl_val, add_assoc])
      e eb_set_infty
  rw [hmain, eb_set_infty_val, dbl_endo_iterate, smul_zero, zero_add]
  have hterm : ∀ i ∈ Finset.range e, (fun y : G => y + y)^[i]
        ((t (combdWin0 D d m i)).val + (t (2 ^ D + combdWin1 D d e m i)).val)
      = (∑ j ∈ Finset.range D,
          (if bn_get_bit_nat m (i + j * d) then 2 ^ (i + j * d) • v else 0))
        + (if i + e < d then
            ∑ j ∈ Finset.range D,
              (if bn_get_bit_nat m (i + e + j * d) then 2 ^ (i + e + j * d) • v else 0)
          else 0) := by
    intro i _
    rw [dbl_endo_iterate, htlo _ (combdWin0_lt D d m i), hthi _ (combdWin1_lt D d e m i)]
    rw [smul_add]
    congr 1
    · rw [combVal_extend d v (combdWin0_lt D d m i), Finset.smul_sum]
      refine Finset.sum_congr rfl ?_
      intro j hj
      rw [Finset.mem_range] at hj
      rw [combdWin0_testBit D d m i hj]
      by_cases hb : bn_get_bit_nat m (i + j * d)
      · rw [if_pos hb, if_pos hb, smul_smul, ← pow_add]
      · rw [if_neg hb, if_neg hb, smul_zero]
    · rw [smul_smul, ← pow_add, combdWin1_eq]
      by_cases hc : i + e < d
      · rw [if_pos hc, if_pos hc]
        rw [combVal_extend d v (sum_cond_pow_lt
          (fun j => bn_get_bit_nat m (i + e + j * d)) D), Finset.smul_sum]
        refine Finset.sum_congr rfl ?_
        intro j hj
        rw [Finset.mem_range] at hj
        rw [winsum_testBit (fun j => bn_get_bit_nat m (i + e + j * d)) D hj]
        by_cases hb : bn_get_bit_nat m (i + e + j * d)
        · rw [if_pos hb, if_pos hb, smul_smul, ← pow_add]
        · rw [if_neg hb, if_neg hb, smul_zero]
      · rw [if_neg hc, if_neg hc, combVal_zero, smul_zero]
  rw [Finset.sum_congr rfl hterm, Finset.sum_add_distrib]
  have hpart2 : (∑ i ∈ Finset.range e,
        (if i + e < d then
          ∑ j ∈ Finset.range D,
            (if bn_get_bit_nat m (i + e + j * d) then 2 ^ (i + e + j * d) • v else 0)
        else 0))
      = ∑ i ∈ Finset.range (d - e),
          ∑ j ∈ Finset.range D,
            (if bn_get_bit_nat m (e + i + j * d) then 2 ^ (e + i + j * d) • v else 0) := by
    rw [← Finset.sum_subset (Finset.range_subset.mpr (show d - e ≤ e from by omega))
      (by
        intro i _ hi
        rw [Finset.mem_range, Nat.not_lt] at hi
        rw [if_neg (by omega)])]
    refine Finset.sum_congr rfl ?_
    intro i hi
    rw [Finset.mem_range] at hi
    rw [if_pos (by omega)]
    refine Finset.sum_congr rfl ?_
    intro j _
    rw [show i + e + j * d = e + i + j * d from by omega]
  rw [hpart2]
  have hjoin : (∑ i ∈ Finset.range e,
        ∑ j ∈ Finset.range D,
          (if bn_get_bit_nat m (i + j * d) then 2 ^ (i + j * d) • v else 0))
      + (∑ i ∈ Finset.range (d - e),
          ∑ j ∈ Finset.range D,
            (if bn_get_bit_nat m (e + i + j * d) then 2 ^ (e + i + j * d) • v else 0))
      = ∑ s ∈ Finset.range d,
          ∑ j ∈ Finset.range D,
            (if bn_get_bit_nat m (s + j * d) then 2 ^ (s + j * d) • v else 0) := by
    have hsplit := Finset.sum_range_add
      (fun s => ∑ j ∈ Finset.range D,
        (if bn_get_bit_nat m (s + j * d) then 2 ^ (s + j * d) • v else 0)) e (d - e)
    rw [show e + (d - e) = d from by omega] at hsplit
    rw [hsplit]
  rw [hjoin, Finset.sum_comm]
  have hpos : ∀ j ∈ Finset.range D, ∀ s ∈ Finset.range d,
      (if bn_get_bit_nat m (s + j * d) then 2 ^ (s + j * d) • v else 0)
        = (if bn_get_bit_nat m (j * d + s) then 2 ^ (j * d + s) • v else 0) := by
    intro j _ s _
    rw [Nat.add_comm s (j * d)]
  rw [Finset.sum_congr rfl (fun j hj => Finset.sum_congr rfl (hpos j hj))]
  rw [sum_block (fun q => if bn_get_bit_nat m q then 2 ^ q • v else 0) d D]
  have hconv : ∀ q ∈ Finset.range (D * d),
      (if bn_get_bit_nat m q then 2 ^ q • v else 0)
        = (if bn_get_bit_nat m q then 2 ^ q else 0) • v := by
    intro q _
    by_cases hb : bn_get_bit_nat m q
    · rw [if_pos hb, if_pos hb]
    · rw [if_neg hb, if_neg hb, zero_smul]
  rw [Finset.sum_congr rfl hconv, ← Finset.sum_smul,
    sum_bit_eq m (show bn_bits_nat m ≤ D * d from
      le_trans hbits (le_mul_CEIL (bn_bits_nat (eb_curve_get_ord c)) hD))]

/-- C1, COMBD variant. -/
theorem combd_correct (D : ℕ) (c : Curve) (p : EbPt G) (t0 : ℕ → EbPt G)
    (k : ℤ) (hD : 0 < D) (hord : k.natAbs ≤ eb_curve_get_ord c) :
    (eb_mul_fix_combd D c (eb_mul_pre_combd D c p t0) k).val = refMulZ p.val k := by
  rw [eb_mul_fix_combd_eq_evalOf]
  apply evalOf_val_ref
  exact combdWalk_val D c _ k.natAbs p.val (eb_mul_pre_combd_lo D c p t0 hD)
    (eb_mul_pre_combd_hi D c p t0 hD) hD (bn_bits_nat_mono hord)

theorem eb_tab_getD_val (w : ℕ) (p : EbPt G) {i : ℕ} (hi : i < 2 ^ (w - 2)) :
    ((eb_tab w p).getD i eb_set_infty).val = (2 * i + 1) • p.val := by
  unfold eb_tab
  rw [getD_range_map _ hi _]

/-- Value of the signed table access performed per digit by the NAF-family
walks: digit `dg` contributes `dg • P` through the odd-multiple table. -/
theorem digit_table_val (w : ℕ) (p : EbPt G) (hw : 2 ≤ w) (dg : ℤ)
    (hdg : dg = 0 ∨ (dg.natAbs % 2 = 1 ∧ dg.natAbs < 2 ^ (w - 1))) :
    (if 0 < dg then ((eb_tab w p).getD (dg.toNat / 2) eb_set_infty).val
      else if dg < 0 then -(((eb_tab w p).getD ((-dg).toNat / 2) eb_set_infty).val)
      else 0)
      = dg • p.val := by
  rcases hdg with h0 | ⟨hodd, hbnd⟩
  · subst h0
    rw [if_neg (by omega), if_neg (by omega), zero_zsmul]
  · have hpow : 2 ^ (w - 1) = 2 * 2 ^ (w - 2) := by
      rw [← pow_succ']
      congr 1
      omega
    rcases lt_trichotomy dg 0 with hneg | hz | hpos
    · rw [if_neg (by omega), if_pos hneg]
      have hidx : (-dg).toNat / 2 < 2 ^ (w - 2) := by
        have h1 : (-dg).toNat = dg.natAbs := by omega
        omega
      rw [eb_tab_getD_val w p hidx]
      have h2 : 2 * ((-dg).toNat / 2) + 1 = (-dg).toNat := by
        have h1 : (-dg).toNat = dg.natAbs := by omega
        omega
      rw [h2, ← natCast_zsmul, ← neg_zsmul]
      congr 1
      omega
    · omega
    · rw [if_pos hpos]
      have hidx : dg.toNat / 2 < 2 ^ (w - 2) := by
        have h1 : dg.toNat = dg.natAbs := by omega
        omega
      rw [eb_tab_getD_val w p hidx]
      have h2 : 2 * (dg.toNat / 2) + 1 = dg.toNat := by
        have h1 : dg.toNat = dg.natAbs := by omega
        omega
      rw [h2, ← natCast_zsmul]
      congr 1
      omega

/-- C1, LWNAF plain variant: correctness of `eb_mul_fix_plain` over the
`eb_tab` table under the windowed-NAF recoder contract. -/
theorem plain_correct (w : ℕ) (recN : ℕ → List ℤ) (p : EbPt G) (r0 : EbPt G)
    (k : ℤ) (hw : 2 ≤ w)
    (hsum : (∑ i ∈ Finset.range (recN k.natAbs).length,
        (recN k.natAbs).getD i 0 * 2 ^ i) = (k.natAbs : ℤ))
    (hdig : ∀ i, i < (recN k.natAbs).length → (recN k.natAbs).getD i 0 = 0 ∨
      (((recN k.natAbs).getD i 0).natAbs % 2 = 1 ∧
        ((recN k.natAbs).getD i 0).natAbs < 2 ^ (w - 1)))
    (hlast : 0 < (recN k.natAbs).getD ((recN k.natAbs).length - 1) 0) :
    (eb_mul_fix_plain recN
        (fun i => (eb_mul_pre_lwnaf w p).getD i eb_set_infty) r0 k).val
      = refMulZ p.val k := by
  rw [eb_mul_fix_plain_eq_evalOf]
  apply evalOf_val_ref
  set m := k.natAbs with hm
  set naf := recN m with hnaf
  set T : ℕ → EbPt G := fun i => (eb_mul_pre_lwnaf w p).getD i eb_set_infty with hT
  have hlen1 : 1 ≤ naf.length := by
    by_contra hcon
    have h0 : naf.getD (naf.length - 1) 0 = 0 :=
      List.getD_eq_default _ _ (by omega)
    omega
  have hmain : (plainWalk recN T r0 m).val
      = (fun y : G => y + y)^[naf.length - 1]
          (if 0 < naf.getD (naf.length - 1) 0 then
            eb_copy (T ((naf.getD (naf.length - 1) 0).toNat / 2)) else r0).val
        + ∑ i ∈ Finset.range (naf.length - 1), (fun y : G => y + y)^[i]
            ((if 0 < naf.getD i 0 then (T ((naf.getD i 0).toNat / 2)).val
              else if naf.getD i 0 < 0 then -((T ((-(naf.getD i 0)).toNat / 2)).val)
              else 0)) :=
    rev_range_fold_val (fun y : G => y + y) dbl_endo_additive
      (fun r i =>
        let r2 := eb_dbl r
        let n := naf.getD i 0
        let r3 := if 0 < n then eb_add r2 (T (n.toNat / 2)) else r2
        if n < 0 then eb_sub r3 (T ((-n).toNat / 2)) else r3)
      (fun i => (if 0 < naf.getD i 0 then (T ((naf.getD i 0).toNat / 2)).val
        else if naf.getD i 0 < 0 then -((T ((-(naf.getD i 0)).toNat / 2)).val)
        else 0))
      (fun r i => by
        dsimp only
        rcases lt_trichotomy (naf.getD i 0) 0 with hneg | hz | hpos
        · simp only [if_neg (show ¬ (0 : ℤ) < naf.getD i 0 from by omega),
            if_pos hneg, eb_sub_val, eb_dbl_val]
          rw [sub_eq_add_neg]
        · rw [hz]
          simp
        · simp only [if_pos hpos,
            if_neg (show ¬ naf.getD i 0 < 0 from by omega),
            eb_add_val, eb_dbl_val])
      (naf.length - 1)
      (if 0 < naf.getD (naf.length - 1) 0 then
        eb_copy (T ((naf.getD (naf.length - 1) 0).toNat / 2)) else r0)
  rw [hmain, dbl_endo_iterate]
  have hfd : ∀ i, i < naf.length →
      (if 0 < naf.getD i 0 then (T ((naf.getD i 0).toNat / 2)).val
      else if naf.getD i 0 < 0 then -((T ((-(naf.getD i 0)).toNat / 2)).val)
      else 0) = naf.getD i 0 • p.val := by
    intro i hi
    exact digit_table_val w p hw (naf.getD i 0) (hdig i hi)
  have hinit : (if 0 < naf.getD (naf.length - 1) 0 then
      eb_copy (T ((naf.getD (naf.length - 1) 0).toNat / 2)) else r0).val
      = naf.getD (naf.length - 1) 0 • p.val := by
    rw [if_pos hlast, eb_copy_eq, ← hfd (naf.length - 1) (by omega), if_pos hlast]
  rw [hinit]
  have hiter : ∀ i ∈ Finset.range (naf.length - 1), (fun y : G => y + y)^[i]
        ((if 0 < naf.getD i 0 then (T ((naf.getD i 0).toNat / 2)).val
          else if naf.getD i 0 < 0 then -((T ((-(naf.getD i 0)).toNat / 2)).val)
          else 0))
      = (naf.getD i 0 * 2 ^ i) • p.val := by
    intro i hi2
    rw [Finset.mem_range] at hi2
    rw [dbl_endo_iterate, hfd i (by omega), ← natCast_zsmul, smul_smul, mul_comm]
    push_cast
    rfl
  rw [Finset.sum_congr rfl hiter]
  have htop : 2 ^ (naf.length - 1) • (naf.getD (naf.length - 1) 0 • p.val)
      = (naf.getD (naf.length - 1) 0 * 2 ^ (naf.length - 1)) • p.val := by
    rw [← natCast_zsmul, smul_smul, mul_comm]
    push_cast
    rfl
  rw [htop]
  have hmerge := Finset.sum_range_succ
    (fun i => (naf.getD i 0 * 2 ^ i) • p.val) (naf.length - 1)
  rw [show naf.length - 1 + 1 = naf.length from by omega] at hmerge
  rw [add_comm, ← hmerge, ← Finset.sum_smul, hsum, natCast_zsmul]

/-- C1, LWNAF Koblitz variant: correctness of `eb_mul_fix_kbltz` over the
`eb_tab` table under the τ-NAF recoder contract, with the Frobenius
endomorphism abstracted as an additive map `φ`. -/
theorem kbltz_correct (w : ℕ) (c : Curve) (φ : G → G) (recT : ℤ → ℕ → List ℤ)
    (p : EbPt G) (k : ℤ) (hw : 2 ≤ w)
    (hφ : ∀ a b : G, φ (a + b) = φ a + φ b)
    (hsum : (∑ i ∈ Finset.range (recT (tnafU c) k.natAbs).length,
        φ^[i] ((recT (tnafU c) k.natAbs).getD i 0 • p.val)) = (k.natAbs : ℤ) • p.val)
    (hdig : ∀ i, i < (recT (tnafU c) k.natAbs).length →
      (recT (tnafU c) k.natAbs).getD i 0 = 0 ∨
      (((recT (tnafU c) k.natAbs).getD i 0).natAbs % 2 = 1 ∧
        ((recT (tnafU c) k.natAbs).getD i 0).natAbs < 2 ^ (w - 1)))
    (hlast : (recT (tnafU c) k.natAbs).getD
        ((recT (tnafU c) k.natAbs).length - 1) 0 ≠ 0) :
    (eb_mul_fix_kbltz c φ recT
        (fun i => (eb_mul_pre_lwnaf w p).getD i eb_set_infty) k).val
      = refMulZ p.val k := by
  rw [eb_mul_fix_kbltz_eq_evalOf]
  apply evalOf_val_ref
  set m := k.natAbs with hm
  set tnaf := recT (tnafU c) m with htnaf
  set T : ℕ → EbPt G := fun i => (eb_mul_pre_lwnaf w p).getD i eb_set_infty with hT
  have hlen1 : 1 ≤ tnaf.length := by
    by_contra hcon
    exact hlast (List.getD_eq_default _ _ (by omega))
  have hmain : (kbltzWalk φ recT (tnafU c) T m).val
      = φ^[tnaf.length - 1]
          (if 0 < tnaf.getD (tnaf.length - 1) 0 then
            eb_copy (T ((tnaf.getD (tnaf.length - 1) 0).toNat / 2))
          else eb_neg (T ((-(tnaf.getD (tnaf.length - 1) 0)).toNat / 2))).val
        + ∑ i ∈ Finset.range (tnaf.length - 1), φ^[i]
            ((if 0 < tnaf.getD i 0 then (T ((tnaf.getD i 0).toNat / 2)).val
              else if tnaf.getD i 0 < 0 then -((T ((-(tnaf.getD i 0)).toNat / 2)).val)
              else 0)) :=
    rev_range_fold_val φ hφ
      (fun r i =>
        let r2 := eb_frb φ r
        let n := tnaf.getD i 0
        let r3 := if 0 < n then eb_add r2 (T (n.toNat / 2)) else r2
        if n < 0 then eb_sub r3 (T ((-n).toNat / 2)) else r3)
      (fun i => (if 0 < tnaf.getD i 0 then (T ((tnaf.getD i 0).toNat / 2)).val
        else if tnaf.getD i 0 < 0 then -((T ((-(tnaf.getD i 0)).toNat / 2)).val)
        else 0))
      (fun r i => by
        dsimp only
        rcases lt_trichotomy (tnaf.getD i 0) 0 with hneg | hz | hpos
        · simp only [if_neg (show ¬ (0 : ℤ) < tnaf.getD i 0 from by omega),
            if_pos hneg, eb_sub_val, eb_frb_val]
          rw [sub_eq_add_neg]
        · rw [hz]
          simp
        · simp only [if_pos hpos,
            if_neg (show ¬ tnaf.getD i 0 < 0 from by omega),
            eb_add_val, eb_frb_val])
      (tnaf.length - 1)
      (if 0 < tnaf.getD (tnaf.length - 1) 0 then
        eb_copy (T ((tnaf.getD (tnaf.length - 1) 0).toNat / 2))
      else eb_neg (T ((-(tnaf.getD (tnaf.length - 1) 0)).toNat / 2)))
  rw [hmain]
  have hfd : ∀ i, i < tnaf.length →
      (if 0 < tnaf.getD i 0 then (T ((tnaf.getD i 0).toNat / 2)).val
      else if tnaf.getD i 0 < 0 then -((T ((-(tnaf.getD i 0)).toNat / 2)).val)
      else 0) = tnaf.getD i 0 • p.val :=
    fun i hi => digit_table_val w p hw (tnaf.getD i 0) (hdig i hi)
  have hinit : (if 0 < tnaf.getD (tnaf.length - 1) 0 then
      eb_copy (T ((tnaf.getD (tnaf.length - 1) 0).toNat / 2))
      else eb_neg (T ((-(tnaf.getD (tnaf.length - 1) 0)).toNat / 2))).val
      = tnaf.getD (tnaf.length - 1) 0 • p.val := by
    rcases lt_trichotomy (tnaf.getD (tnaf.length - 1) 0) 0 with hneg | hz | hpos
    · rw [if_neg (by omega), eb_neg_val, ← hfd (tnaf.length - 1) (by omega),
        if_neg (by omega), if_pos hneg]
    · exact absurd hz hlast
    · rw [if_pos hpos, eb_copy_eq, ← hfd (tnaf.length - 1) (by omega), if_pos hpos]
  rw [hinit]
  have hiter : ∀ i ∈ Finset.range (tnaf.length - 1), φ^[i]
        ((if 0 < tnaf.getD i 0 then (T ((tnaf.getD i 0).toNat / 2)).val
          else if tnaf.getD i 0 < 0 then -((T ((-(tnaf.getD i 0)).toNat / 2)).val)
          else 0))
      = φ^[i] (tnaf.getD i 0 • p.val) := by
    intro i hi2
    rw [Finset.mem_range] at hi2
    rw [hfd i (by omega)]
  rw [Finset.sum_congr rfl hiter]
  have hmerge := Finset.sum_range_succ
    (fun i => φ^[i] (tnaf.getD i 0 • p.val)) (tnaf.length - 1)
  rw [show tnaf.length - 1 + 1 = tnaf.length from by omega] at hmerge
  rw [add_comm, ← hmerge, hsum, natCast_zsmul]

/-- Value of the signed digit-match fold of `eb_mul_fix_nafwi`: per slot,
add `t i` when the digit equals `j` and subtract it when it equals `-j`. -/
theorem foldl_eqAddSub_val (t : ℕ → EbPt G) (packed : List ℤ) (j : ℤ) :
    ∀ (n : ℕ) (init : EbPt G),
      ((List.range n).foldl
          (fun a i =>
            let a2 := if packed.getD i 0 = j then eb_add a (t i) else a
            if packed.getD i 0 = -j then eb_sub a2 (t i) else a2) init).val
        = init.val + ∑ i ∈ Finset.range n,
            ((if packed.getD i 0 = j then (t i).val else 0)
              - (if packed.getD i 0 = -j then (t i).val else 0)) := by
  intro n
  induction n with
  | zero => intro init; simp
  | succ n ih =>
    intro init
    rw [List.range_succ, List.foldl_append, List.foldl_cons, List.foldl_nil]
    dsimp only
    by_cases h1 : packed.getD n 0 = j
    · by_cases h2 : packed.getD n 0 = -j
      · rw [if_pos h1, if_pos h2, eb_sub_val, eb_add_val, ih init,
          Finset.sum_range_succ, if_pos h1, if_pos h2]
        abel
      · rw [if_pos h1, if_neg h2, eb_add_val, ih init,
          Finset.sum_range_succ, if_pos h1, if_neg h2]
        abel
    · by_cases h2 : packed.getD n 0 = -j
      · rw [if_neg h1, if_pos h2, eb_sub_val, ih init,
          Finset.sum_range_succ, if_neg h1, if_pos h2]
        abel
      · rw [if_neg h1, if_neg h2, ih init,
          Finset.sum_range_succ, if_neg h1, if_neg h2]
        abel

/-- Value of the conditional MSB-first packing fold of `eb_mul_fix_nafwi`:
with a downward-closed guard `Q` on levels, the digit at level `B - jj`
lands at weight `2 ^ (n - 1 - jj)`. -/
theorem msb_fold_guardZ (Q : ℕ → Prop) [DecidablePred Q] (d : ℕ → ℤ) (B : ℕ)
    (hmono : ∀ j1 j2, j1 ≤ j2 → Q j2 → Q j1) :
    ∀ n : ℕ,
      (List.range n).foldl
          (fun acc jj => if Q (B - jj) then acc * 2 + d (B - jj) else acc) 0
        = ∑ jj ∈ Finset.range n,
            (if Q (B - jj) then d (B - jj) * 2 ^ (n - 1 - jj) else 0) := by
  intro n
  induction n with
  | zero => simp
  | succ n ih =>
    rw [List.range_succ, List.foldl_append, List.foldl_cons, List.foldl_nil, ih]
    by_cases hq : Q (B - n)
    · rw [if_pos hq, Finset.sum_range_succ, if_pos hq,
        show n + 1 - 1 - n = 0 from by omega, pow_zero, mul_one, Finset.sum_mul]
      congr 1
      refine Finset.sum_congr rfl ?_
      intro jj hjj
      rw [Finset.mem_range] at hjj
      by_cases hq2 : Q (B - jj)
      · rw [if_pos hq2, if_pos hq2, mul_assoc, ← pow_succ,
          show n - 1 - jj + 1 = n + 1 - 1 - jj from by omega]
      · rw [if_neg hq2, if_neg hq2, zero_mul]
    · rw [if_neg hq, Finset.sum_range_succ, if_neg hq, add_zero]
      have hz : ∀ jj, jj ≤ n → ¬ Q (B - jj) := by
        intro jj hjj hQ
        exact hq (hmono (B - n) (B - jj) (by omega) hQ)
      rw [Finset.sum_eq_zero (fun jj hjj => by
          rw [Finset.mem_range] at hjj
          rw [if_neg (hz jj (by omega))]),
        Finset.sum_eq_zero (fun jj hjj => by
          rw [Finset.mem_range] at hjj
          rw [if_neg (hz jj (by omega))])]

theorem nafwiPack_length (w : ℕ) (naf : List ℤ) :
    (nafwiPack w naf).length = CEIL naf.length w := by
  unfold nafwiPack
  rw [List.length_map, List.length_range]

/-- The packed window of slot `i`: in-range NAF digits of the `i`-th group
of `w`, with digit `i·w + j` at weight `2^j`. -/
theorem nafwiPack_getD (w : ℕ) (naf : List ℤ) {i : ℕ}
    (hi : i < CEIL naf.length w) :
    (nafwiPack w naf).getD i 0
      = ∑ j ∈ Finset.range w,
          (if i * w + j < naf.length then naf.getD (i * w + j) 0 * 2 ^ j else 0) := by
  unfold nafwiPack
  rw [getD_range_map _ hi _]
  dsimp only
  refine Eq.trans (msb_fold_guardZ (fun j => i * w + j < naf.length)
    (fun j => naf.getD (i * w + j) 0) (w - 1)
    (fun j1 j2 hle hQ => by omega) w) ?_
  exact Finset.sum_range_reflect
    (fun j => if i * w + j < naf.length then naf.getD (i * w + j) 0 * 2 ^ j else 0) w

/-- Signed analogue of `sum_level_collapse` for the NAFWI evaluator:
summing, over levels `j + 1 = 1 .. M`, `(j+1) • (add-matches − sub-matches)`
gives the signed digit-weighted slot sum. -/
theorem sum_level_collapse_signed (tv : ℕ → G) (packed : List ℤ) (M L : ℕ)
    (hbound : ∀ i, (packed.getD i 0).natAbs ≤ M) :
    (∑ j ∈ Finset.range M, (j + 1) •
        (∑ i ∈ Finset.range L,
          ((if packed.getD i 0 = ((j + 1 : ℕ) : ℤ) then tv i else 0)
            - (if packed.getD i 0 = -((j + 1 : ℕ) : ℤ) then tv i else 0))))
      = ∑ i ∈ Finset.range L, packed.getD i 0 • tv i := by
  have hstep : ∀ j ∈ Finset.range M, (j + 1) •
        (∑ i ∈ Finset.range L,
          ((if packed.getD i 0 = ((j + 1 : ℕ) : ℤ) then tv i else 0)
            - (if packed.getD i 0 = -((j + 1 : ℕ) : ℤ) then tv i else 0)))
      = ∑ i ∈ Finset.range L,
          ((if packed.getD i 0 = ((j + 1 : ℕ) : ℤ) then (j + 1) • tv i else 0)
            - (if packed.getD i 0 = -((j + 1 : ℕ) : ℤ) then (j + 1) • tv i else 0)) := by
    intro j hj
    rw [Finset.smul_sum]
    refine Finset.sum_congr rfl ?_
    intro i hi
    rw [smul_sub]
    congr 1
    · by_cases hc : packed.getD i 0 = ((j + 1 : ℕ) : ℤ)
      · rw [if_pos hc, if_pos hc]
      · rw [if_neg hc, if_neg hc, smul_zero]
    · by_cases hc : packed.getD i 0 = -((j + 1 : ℕ) : ℤ)
      · rw [if_pos hc, if_pos hc]
      · rw [if_neg hc, if_neg hc, smul_zero]
  rw [Finset.sum_congr rfl hstep, Finset.sum_comm]
  refine Finset.sum_congr rfl ?_
  intro i hi
  have hb := hbound i
  set dd := packed.getD i 0 with hdd
  rcases lt_trichotomy dd 0 with hneg | hz | hpos
  · refine Eq.trans (Finset.sum_eq_single (dd.natAbs - 1)
      (fun j hj hne => ?_) (fun habs => ?_)) ?_
    · rw [if_neg (by omega), if_neg (by omega), sub_zero]
    · exact absurd (Finset.mem_range.mpr (by omega)) habs
    · rw [if_neg (by omega),
        if_pos (show dd = -((dd.natAbs - 1 + 1 : ℕ) : ℤ) from by omega),
        zero_sub, ← natCast_zsmul, ← neg_zsmul]
      congr 1
      omega
  · rw [hz, zero_zsmul]
    refine Finset.sum_eq_zero ?_
    intro j hj
    rw [if_neg (by omega), if_neg (by omega), sub_zero]
  · refine Eq.trans (Finset.sum_eq_single (dd.natAbs - 1)
      (fun j hj hne => ?_) (fun habs => ?_)) ?_
    · rw [if_neg (by omega), if_neg (by omega), sub_zero]
    · exact absurd (Finset.mem_range.mpr (by omega)) habs
    · rw [if_pos (show dd = ((dd.natAbs - 1 + 1 : ℕ) : ℤ) from by omega),
        if_neg (by omega), sub_zero, ← natCast_zsmul]
      congr 1
      omega

/-- Repacking preserves the digit value: the packed base-`2^w` windows sum
to the same integer as the NAF digits they group. -/
theorem nafwiPack_sum (w : ℕ) (naf : List ℤ) (hw : 0 < w) :
    (∑ i ∈ Finset.range (nafwiPack w naf).length,
        (nafwiPack w naf).getD i 0 * 2 ^ (w * i))
      = ∑ q ∈ Finset.range naf.length, naf.getD q 0 * 2 ^ q := by
  rw [nafwiPack_length]
  have hterm : ∀ i ∈ Finset.range (CEIL naf.length w),
      (nafwiPack w naf).getD i 0 * 2 ^ (w * i)
        = ∑ j ∈ Finset.range w,
            (if i * w + j < naf.length then
              naf.getD (i * w + j) 0 * 2 ^ (i * w + j) else 0) := by
    intro i hi
    rw [Finset.mem_range] at hi
    rw [nafwiPack_getD w naf hi, Finset.sum_mul]
    refine Finset.sum_congr rfl ?_
    intro j hj
    by_cases hc : i * w + j < naf.length
    · rw [if_pos hc, if_pos hc, mul_assoc, ← pow_add,
        show j + w * i = i * w + j from by ring]
    · rw [if_neg hc, if_neg hc, zero_mul]
  rw [Finset.sum_congr rfl hterm]
  have hle : naf.length ≤ CEIL naf.length w * w := by
    have h2 := le_mul_CEIL naf.length hw
    rw [Nat.mul_comm] at h2
    exact h2
  refine Eq.trans (sum_block
    (fun q => if q < naf.length then naf.getD q 0 * 2 ^ q else 0) w
    (CEIL naf.length w)) ?_
  refine Eq.trans (Finset.sum_subset (Finset.range_subset.mpr hle)
    (fun q hq hnq => ?_)).symm ?_
  · rw [Finset.mem_range, not_lt] at hnq
    rw [if_neg (by omega)]
  · refine Finset.sum_congr rfl ?_
    intro q hq
    rw [Finset.mem_range] at hq
    rw [if_pos hq]

/-- Value of the NAFWI walk: with table slot `i` holding `2^(w·i) • v` and
the recoded digits summing to `m`, the signed Yao accumulation computes
`m • v`. -/
theorem nafwiWalk_val (w : ℕ) (recN : ℕ → List ℤ) (t : ℕ → EbPt G) (m : ℕ)
    (v : G) (hw : 0 < w)
    (htab : ∀ i, i < (nafwiPack w (recN m)).length → (t i).val = 2 ^ (w * i) • v)
    (hpk : ∀ i, i < (nafwiPack w (recN m)).length →
      ((nafwiPack w (recN m)).getD i 0).natAbs ≤ nafwiM w)
    (hsum : (∑ q ∈ Finset.range (recN m).length,
        (recN m).getD q 0 * 2 ^ q) = (m : ℤ)) :
    (nafwiWalk w recN t m).val = m • v := by
  set packed := nafwiPack w (recN m) with hpacked
  set M := nafwiM w with hM
  have hshape : nafwiWalk w recN t m
      = ((List.range M).foldl
          (fun ra jj =>
            (eb_add ra.1 ((List.range packed.length).foldl
                (fun a i =>
                  let a2 := if packed.getD i 0 = ((M - jj : ℕ) : ℤ)
                    then eb_add a (t i) else a
                  if packed.getD i 0 = -((M - jj : ℕ) : ℤ)
                    then eb_sub a2 (t i) else a2)
                ra.2),
              (List.range packed.length).foldl
                (fun a i =>
                  let a2 := if packed.getD i 0 = ((M - jj : ℕ) : ℤ)
                    then eb_add a (t i) else a
                  if packed.getD i 0 = -((M - jj : ℕ) : ℤ)
                    then eb_sub a2 (t i) else a2)
                ra.2))
          ((eb_set_infty : EbPt G), (eb_set_infty : EbPt G))).1 := rfl
  have houter := (yao_outer_fold
    (fun a jj => (List.range packed.length).foldl
      (fun a i =>
        let a2 := if packed.getD i 0 = ((M - jj : ℕ) : ℤ) then eb_add a (t i) else a
        if packed.getD i 0 = -((M - jj : ℕ) : ℤ) then eb_sub a2 (t i) else a2) a)
    (fun jj => ∑ i ∈ Finset.range packed.length,
      ((if packed.getD i 0 = ((M - jj : ℕ) : ℤ) then (t i).val else 0)
        - (if packed.getD i 0 = -((M - jj : ℕ) : ℤ) then (t i).val else 0)))
    (fun a jj => by
      rw [foldl_eqAddSub_val])
    M (eb_set_infty, eb_set_infty)).1
  rw [hshape, houter, eb_set_infty_val, smul_zero, zero_add, zero_add]
  rw [sum_desc_levels
    (fun j => ∑ i ∈ Finset.range packed.length,
      ((if packed.getD i 0 = (j : ℤ) then (t i).val else 0)
        - (if packed.getD i 0 = -(j : ℤ) then (t i).val else 0))) M]
  have hpk2 : ∀ i, (packed.getD i 0).natAbs ≤ M := by
    intro i
    by_cases hi : i < packed.length
    · exact hpk i hi
    · rw [List.getD_eq_default _ _ (by omega)]
      simp
  rw [sum_level_collapse_signed (fun i => (t i).val) packed M packed.length hpk2]
  have hterm : ∀ i ∈ Finset.range packed.length,
      packed.getD i 0 • (t i).val = (packed.getD i 0 * 2 ^ (w * i)) • v := by
    intro i hi
    rw [Finset.mem_range] at hi
    rw [htab i hi, ← natCast_zsmul, smul_smul]
    congr 1
    push_cast
    ring
  rw [Finset.sum_congr rfl hterm, ← Finset.sum_smul, hpacked,
    nafwiPack_sum w (recN m) hw, hsum, natCast_zsmul]

/-- C1, NAFWI variant: correctness of `eb_mul_fix_nafwi` over the
`eb_mul_pre_nafwi` doubling ladder under the width-2 NAF recoder
contract. -/
theorem nafwi_correct (w : ℕ) (c : Curve) (recN : ℕ → List ℤ) (p : EbPt G)
    (k : ℤ) (hw : 0 < w)
    (hsum : (∑ q ∈ Finset.range (recN k.natAbs).length,
        (recN k.natAbs).getD q 0 * 2 ^ q) = (k.natAbs : ℤ))
    (hlen : (recN k.natAbs).length ≤ bn_bits_nat (eb_curve_get_ord c) + 1)
    (hpk : ∀ i, i < (nafwiPack w (recN k.natAbs)).length →
      ((nafwiPack w (recN k.natAbs)).getD i 0).natAbs ≤ nafwiM w) :
    (eb_mul_fix_nafwi w recN
        (fun i => (eb_mul_pre_nafwi w c p).getD i eb_set_infty) k).val
      = refMulZ p.val k := by
  rw [eb_mul_fix_nafwi_eq_evalOf]
  apply evalOf_val_ref
  refine nafwiWalk_val w recN _ k.natAbs p.val hw ?_ hpk hsum
  intro i hi
  rw [nafwiPack_length] at hi
  have hil : i < CEIL (bn_bits_nat (eb_curve_get_ord c) + 1) w := by
    have h2 := CEIL_mono w hlen
    omega
  exact pre_ladder_getD_val p (fun i2 => w * i2) rfl
    (CEIL (bn_bits_nat (eb_curve_get_ord c) + 1) w) hil

/-- C1: for every variant, building the precomputation table from `P` and
evaluating at `k` yields exactly `k • P` as computed by the reference
double-and-add (`refMulZ`): BASIC, YAOWI, COMBS and COMBD unconditionally
for scalars of magnitude up to the group order; NAFWI under the width-2
NAF recoder contract; LWNAF dispatching on a non-Koblitz curve to the plain
windowed-NAF evaluator under the windowed-NAF recoder contract, and on a
Koblitz curve to the τ-NAF evaluator under the τ-NAF recoder contract with
the Frobenius endomorphism abstracted as an additive map. -/
theorem claim_C1 (w D : ℕ) (c cp ck : Curve) (p : EbPt G) (t0 : ℕ → EbPt G)
    (r0 : EbPt G) (φ : G → G) (recN2 recW : ℕ → List ℤ)
    (recT : ℤ → ℕ → List ℤ) (k : ℤ)
    (hw : 2 ≤ w) (hD : 0 < D)
    (hord : k.natAbs ≤ eb_curve_get_ord c)
    (hnkb : eb_curve_is_kbltz cp = false)
    (hkb : eb_curve_is_kbltz ck = true)
    (hsum2 : (∑ q ∈ Finset.range (recN2 k.natAbs).length,
        (recN2 k.natAbs).getD q 0 * 2 ^ q) = (k.natAbs : ℤ))
    (hlen2 : (recN2 k.natAbs).length ≤ bn_bits_nat (eb_curve_get_ord c) + 1)
    (hpk2 : ∀ i, i < (nafwiPack w (recN2 k.natAbs)).length →
      ((nafwiPack w (recN2 k.natAbs)).getD i 0).natAbs ≤ nafwiM w)
    (hsumW : (∑ i ∈ Finset.range (recW k.natAbs).length,
        (recW k.natAbs).getD i 0 * 2 ^ i) = (k.natAbs : ℤ))
    (hdigW : ∀ i, i < (recW k.natAbs).length → (recW k.natAbs).getD i 0 = 0 ∨
      (((recW k.natAbs).getD i 0).natAbs % 2 = 1 ∧
        ((recW k.natAbs).getD i 0).natAbs < 2 ^ (w - 1)))
    (hlastW : 0 < (recW k.natAbs).getD ((recW k.natAbs).length - 1) 0)
    (hφ : ∀ a b : G, φ (a + b) = φ a + φ b)
    (hsumT : (∑ i ∈ Finset.range (recT (tnafU ck) k.natAbs).length,
        φ^[i] ((recT (tnafU ck) k.natAbs).getD i 0 • p.val))
      = (k.natAbs : ℤ) • p.val)
    (hdigT : ∀ i, i < (recT (tnafU ck) k.natAbs).length →
      (recT (tnafU ck) k.natAbs).getD i 0 = 0 ∨
      (((recT (tnafU ck) k.natAbs).getD i 0).natAbs % 2 = 1 ∧
        ((recT (tnafU ck) k.natAbs).getD i 0).natAbs < 2 ^ (w - 1)))
    (hlastT : (recT (tnafU ck) k.natAbs).getD
        ((recT (tnafU ck) k.natAbs).length - 1) 0 ≠ 0) :
    (eb_mul_fix_basic
        (fun i => (eb_mul_pre_basic c p).getD i eb_set_infty) k).val
      = refMulZ p.val k ∧
    (eb_mul_fix_yaowi w
        (fun i => (eb_mul_pre_yaowi w c p).getD i eb_set_infty) k).val
      = refMulZ p.val k ∧
    (eb_mul_fix_nafwi w recN2
        (fun i => (eb_mul_pre_nafwi w c p).getD i eb_set_infty) k).val
      = refMulZ p.val k ∧
    (eb_mul_fix_combs D c (eb_mul_pre_combs D c p t0) k).val
      = refMulZ p.val k ∧
    (eb_mul_fix_combd D c (eb_mul_pre_combd D c p t0) k).val
      = refMulZ p.val k ∧
    (eb_mul_fix_lwnaf cp φ recT recW
        (fun i => (eb_mul_pre_lwnaf w p).getD i eb_set_infty) r0 k).val
      = refMulZ p.val k ∧
    (eb_mul_fix_lwnaf ck φ recT recW
        (fun i => (eb_mul_pre_lwnaf w p).getD i eb_set_infty) r0 k).val
      = refMulZ p.val k := by
  refine ⟨basic_correct c p k hord, yaowi_correct w c p k (by omega) hord,
    nafwi_correct w c recN2 p k (by omega) hsum2 hlen2 hpk2,
    combs_correct D c p t0 k hD hord, combd_correct D c p t0 k hD hord,
    ?_, ?_⟩
  · unfold eb_mul_fix_lwnaf
    rw [hnkb, if_neg Bool.false_ne_true]
    exact plain_correct w recW p r0 k hw hsumW hdigW hlastW
  · unfold eb_mul_fix_lwnaf
    rw [hkb, if_pos rfl]
    exact kbltz_correct w ck φ recT p k hw hφ hsumT hdigT hlastT

/-- C1 witness: the conjunction instantiated over `ℤ` with `P = 3`, `k = 3`,
width 2, comb depth 2, order 10, and concrete recodings `3 = 1 + 2`
(windowed NAF), `3 = -1 + 4` (width-2 NAF) and `3 = 1 + 1 + 1` (τ-adic with
the identity endomorphism). -/
theorem claim_C1_witness :
    (eb_mul_fix_basic
        (fun i => (eb_mul_pre_basic ⟨10, false, 1⟩ (⟨3, true⟩ : EbPt ℤ)).getD i
          eb_set_infty) 3).val
      = refMulZ (3 : ℤ) 3 ∧
    (eb_mul_fix_yaowi 2
        (fun i => (eb_mul_pre_yaowi 2 ⟨10, false, 1⟩ (⟨3, true⟩ : EbPt ℤ)).getD i
          eb_set_infty) 3).val
      = refMulZ (3 : ℤ) 3 ∧
    (eb_mul_fix_nafwi 2 (fun _ => [-1, 0, 1])
        (fun i => (eb_mul_pre_nafwi 2 ⟨10, false, 1⟩ (⟨3, true⟩ : EbPt ℤ)).getD i
          eb_set_infty) 3).val
      = refMulZ (3 : ℤ) 3 ∧
    (eb_mul_fix_combs 2 ⟨10, false, 1⟩
        (eb_mul_pre_combs 2 ⟨10, false, 1⟩ (⟨3, true⟩ : EbPt ℤ)
          (fun _ => ⟨0, false⟩)) 3).val
      = refMulZ (3 : ℤ) 3 ∧
    (eb_mul_fix_combd 2 ⟨10, false, 1⟩
        (eb_mul_pre_combd 2 ⟨10, false, 1⟩ (⟨3, true⟩ : EbPt ℤ)
          (fun _ => ⟨0, false⟩)) 3).val
      = refMulZ (3 : ℤ) 3 ∧
    (eb_mul_fix_lwnaf ⟨10, false, 1⟩ (fun x => x) (fun _ _ => [1, 1, 1])
        (fun _ => [1, 1])
        (fun i => (eb_mul_pre_lwnaf 2 (⟨3, true⟩ : EbPt ℤ)).getD i eb_set_infty)
        ⟨0, false⟩ 3).val
      = refMulZ (3 : ℤ) 3 ∧
    (eb_mul_fix_lwnaf ⟨10, true, 0⟩ (fun x => x) (fun _ _ => [1, 1, 1])
        (fun _ => [1, 1])
        (fun i => (eb_mul_pre_lwnaf 2 (⟨3, true⟩ : EbPt ℤ)).getD i eb_set_infty)
        ⟨0, false⟩ 3).val
      = refMulZ (3 : ℤ) 3 :=
  claim_C1 2 2 ⟨10, false, 1⟩ ⟨10, false, 1⟩ ⟨10, true, 0⟩
    (⟨3, true⟩ : EbPt ℤ) (fun _ => ⟨0, false⟩) ⟨0, false⟩ (fun x => x)
    (fun _ => [-1, 0, 1]) (fun _ => [1, 1]) (fun _ _ => [1, 1, 1]) 3
    (by decide) (by decide) (by decide) (by decide) (by decide)
    (by decide) (by decide) (by decide)
    (by decide) (by decide) (by decide)
    (fun a b => rfl) (by decide) (by decide) (by decide)

end Theorems

end Relic
